import Mathlib

set_option autoImplicit false

/-!
# A string queue on a singly linked list (`queue.c`)

The C code is embedded over an explicit memory: three typed heaps (queue
records, list elements, character buffers), each a partial map from addresses.
A `NULL` pointer is `none`.  Every function of `queue.c` becomes a function
that passes the memory along and returns in `Exec`: `Except.error Fault.memory`
stands for undefined behaviour (a dereference of `NULL` or of storage that is
not allocated, an access outside a buffer, an invalid `free`), and
`Except.error Fault.fuel` says that the step budget given to a loop or to the
recursion was too small.

What `malloc` returns is an argument of the function that calls it: `NULL` or
an address, and the contents of the block at that address, which C leaves
indeterminate.  The theorems hold for every such contents, so what they say of
a new block rests on the assignments the code makes.
-/

namespace Queue

/-! ## Memory -/

/-- Why an execution did not produce a result. -/
inductive Fault where
  | memory
  | fuel
deriving DecidableEq

/-- Result of running a piece of C code. -/
abbrev Exec (α : Type) := Except Fault α

/-- A non-null address. -/
abbrev Ptr := Nat

/-- Modelled from the spec: the list element `list_ele_t`, declared in `queue.h`
and not in `queue.c`: one owned text value and a forward link to the next
element.  The field names are those `queue.c` uses. -/
structure list_ele_t where
  value : Option Ptr
  next : Option Ptr
deriving DecidableEq

/-- Modelled from the spec: the queue record `queue_t`, declared in `queue.h`
and not in `queue.c`: a reference to the head element, a reference to the tail
element and a count of elements.  The field names are those `queue.c` uses;
the type of the count is declared in `queue.h` too and the count is kept as
an integer without bound; `q_size` returns it as an `int`. -/
structure queue_t where
  head : Option Ptr
  tail : Option Ptr
  size : Int
deriving DecidableEq

/-- The memory: allocated queue records, list elements and character buffers.
A buffer is the list of its bytes, its length the allocated size. -/
structure Mem where
  queues : Ptr → Option queue_t
  nodes : Ptr → Option list_ele_t
  strs : Ptr → Option (List Nat)

/-- The memory with nothing allocated. -/
def Mem.empty : Mem := ⟨fun _ => none, fun _ => none, fun _ => none⟩

/-- Read the queue record at `q`. -/
def load_q (m : Mem) (q : Ptr) : Exec queue_t :=
  match m.queues q with
  | some v => .ok v
  | none => .error .memory

/-- Overwrite the queue record at `q`. -/
def store_q (m : Mem) (q : Ptr) (v : queue_t) : Exec Mem :=
  match m.queues q with
  | some _ => .ok { m with queues := Function.update m.queues q (some v) }
  | none => .error .memory

/-- Read the list element `p` points to; `p` may be `NULL`. -/
def load_ele (m : Mem) (p : Option Ptr) : Exec list_ele_t :=
  match p with
  | none => .error .memory
  | some a =>
    match m.nodes a with
    | some v => .ok v
    | none => .error .memory

/-- The assignment `p->next = nx`. -/
def store_next (m : Mem) (p : Option Ptr) (nx : Option Ptr) : Exec Mem :=
  match p with
  | none => .error .memory
  | some a =>
    match m.nodes a with
    | some v => .ok { m with nodes := Function.update m.nodes a (some { v with next := nx }) }
    | none => .error .memory

/-- The assignment `p->value = s`. -/
def store_value (m : Mem) (p : Option Ptr) (s : Option Ptr) : Exec Mem :=
  match p with
  | none => .error .memory
  | some a =>
    match m.nodes a with
    | some v => .ok { m with nodes := Function.update m.nodes a (some { v with value := s }) }
    | none => .error .memory

/-- Read the whole buffer `p` points to. -/
def load_str (m : Mem) (p : Option Ptr) : Exec (List Nat) :=
  match p with
  | none => .error .memory
  | some a =>
    match m.strs a with
    | some v => .ok v
    | none => .error .memory

/-- Replace the contents of the buffer `p` points to. -/
def store_str (m : Mem) (p : Option Ptr) (b : List Nat) : Exec Mem :=
  match p with
  | none => .error .memory
  | some a =>
    match m.strs a with
    | some _ => .ok { m with strs := Function.update m.strs a (some b) }
    | none => .error .memory

/-- The block `malloc(sizeof(queue_t))` hands out at `a`.  Its contents are
indeterminate in C: `j` is what happens to lie in the block, and the theorems
hold for every `j`. -/
def alloc_q (m : Mem) (a : Ptr) (j : queue_t) : Mem :=
  { m with queues := Function.update m.queues a (some j) }

/-- The block `malloc(sizeof(list_ele_t))` hands out at `a`, with the
indeterminate contents `j`. -/
def alloc_ele (m : Mem) (a : Ptr) (j : list_ele_t) : Mem :=
  { m with nodes := Function.update m.nodes a (some j) }

/-- The block of `n` bytes `malloc(n)` hands out at `a`; the byte at offset
`i` is the indeterminate `j i`. -/
def alloc_str (m : Mem) (a : Ptr) (n : Nat) (j : Nat → Nat) : Mem :=
  { m with strs := Function.update m.strs a (some ((List.range n).map j)) }

/-- The call `free(q)` on a queue record. -/
def free_q (m : Mem) (q : Ptr) : Exec Mem :=
  match m.queues q with
  | some _ => .ok { m with queues := Function.update m.queues q none }
  | none => .error .memory

/-- The call `free(p)` on a list element. -/
def free_ele (m : Mem) (p : Option Ptr) : Exec Mem :=
  match p with
  | none => .ok m
  | some a =>
    match m.nodes a with
    | some _ => .ok { m with nodes := Function.update m.nodes a none }
    | none => .error .memory

/-- The call `free(p)` on a character buffer. -/
def free_str (m : Mem) (p : Option Ptr) : Exec Mem :=
  match p with
  | none => .ok m
  | some a =>
    match m.strs a with
    | some _ => .ok { m with strs := Function.update m.strs a none }
    | none => .error .memory

/-! ## The string functions of the C library -/

/-- The C library's `strlen` on a buffer: the number of bytes before the first
`0`; reading past the end of the buffer is a fault. -/
def strlen : List Nat → Exec Nat
  | [] => .error .memory
  | c :: cs => if c = 0 then .ok 0 else (strlen cs).map (· + 1)

/-- The C library's `strcmp` on two buffers: the difference of the first pair
of bytes that differ, `0` when both strings end together.  The callers use
only the sign. -/
def strcmp : List Nat → List Nat → Exec Int
  | a :: as, b :: bs =>
    if a ≠ b then .ok ((a : Int) - (b : Int))
    else if a = 0 then .ok 0
    else strcmp as bs
  | _, _ => .error .memory

/-- The C library's `strncpy(dst, src, n)`: exactly `n` bytes of `dst` are
written, the bytes of `src` up to its terminator and then zeros. -/
def strncpy : List Nat → List Nat → Nat → Exec (List Nat)
  | dst, _, 0 => .ok dst
  | [], _, _ + 1 => .error .memory
  | _ :: _, [], _ + 1 => .error .memory
  | _ :: dst, c :: src, n + 1 =>
    if c = 0 then
      (if n ≤ dst.length then .ok (List.replicate (n + 1) 0 ++ dst.drop n) else .error .memory)
    else (strncpy dst src n).map (c :: ·)

/-- The assignment `buf[i] = c`. -/
def store_byte (buf : List Nat) (i : Nat) (c : Nat) : Exec (List Nat) :=
  if i < buf.length then .ok (buf.set i c) else .error .memory

/-- The range of `size_t`. -/
def SIZE_RANGE : Nat := 2 ^ 64

/-- The largest `int`, of 32 bits. -/
def INT_MAX : Int := 2147483647

/-- The value of an integer as an `int`: itself when it lies between
`-INT_MAX - 1` and `INT_MAX`, and reduced modulo `2 ^ 32` into that range
otherwise. -/
def to_int (x : Int) : Int := (x + 2147483648) % 4294967296 - 2147483648

/-! ## The functions of `queue.c` -/

/-- The function `q_new`; `r` is what `malloc` returns and `j` the contents of
the block it hands out. -/
def q_new (m : Mem) (r : Option Ptr) (j : queue_t) : Exec (Mem × Option Ptr) :=
  match r with
  | none => .ok (m, none)
  | some q => do
    let m := alloc_q m q j
    let qv ← load_q m q
    let m ← store_q m q { qv with head := none }
    let qv ← load_q m q
    let m ← store_q m q { qv with tail := none }
    let qv ← load_q m q
    let m ← store_q m q { qv with size := 0 }
    .ok (m, some q)

/-- The loop of `q_free`: `while (q->head) ...`. -/
def q_free_loop : Nat → Mem → Ptr → Exec Mem
  | 0, _, _ => .error .fuel
  | fuel + 1, m, q => do
    let qv ← load_q m q
    match qv.head with
    | none => .ok m
    | some tmp =>
      let h ← load_ele m qv.head
      let m ← store_q m q { qv with head := h.next }
      let t ← load_ele m (some tmp)
      let m ← free_str m t.value
      let m ← free_ele m (some tmp)
      q_free_loop fuel m q

/-- The function `q_free`. -/
def q_free (fuel : Nat) (m : Mem) (q : Option Ptr) : Exec Mem :=
  match q with
  | none => .ok m
  | some qp => do
    let m ← q_free_loop fuel m qp
    free_q m qp

/-- The function `q_insert_head`; `s` holds the bytes at the caller's pointer,
`r1` and `r2` are what the two calls of `malloc` return, `j1` and `j2` the
contents of the blocks they hand out. -/
def q_insert_head (m : Mem) (q : Option Ptr) (s : List Nat) (r1 r2 : Option Ptr)
    (j1 : list_ele_t) (j2 : Nat → Nat) : Exec (Mem × Bool) :=
  match q with
  | none => .ok (m, false)
  | some qp =>
    match r1 with
    | none => .ok (m, false)
    | some newh => do
      let m := alloc_ele m newh j1
      let n ← strlen s
      match r2 with
      | none =>
        let m ← free_ele m (some newh)
        .ok (m, false)
      | some tmp =>
        let m := alloc_str m tmp (n + 1) j2
        let m ← store_value m (some newh) (some tmp)
        let e ← load_ele m (some newh)
        let dst ← load_str m e.value
        let k ← strlen s
        let dst ← strncpy dst s (k + 1)
        let m ← store_str m e.value dst
        let qv ← load_q m qp
        let m ← store_next m (some newh) qv.head
        let qv ← load_q m qp
        let m ← store_q m qp { qv with head := some newh }
        let qv ← load_q m qp
        let m ← (if qv.size = 0 then store_q m qp { qv with tail := some newh } else .ok m)
        let qv ← load_q m qp
        let m ← store_q m qp { qv with size := qv.size + 1 }
        .ok (m, true)

/-- The function `q_insert_tail`; arguments as for `q_insert_head`. -/
def q_insert_tail (m : Mem) (q : Option Ptr) (s : List Nat) (r1 r2 : Option Ptr)
    (j1 : list_ele_t) (j2 : Nat → Nat) : Exec (Mem × Bool) :=
  match q with
  | none => .ok (m, false)
  | some qp =>
    match r1 with
    | none => .ok (m, false)
    | some newh => do
      let m := alloc_ele m newh j1
      let n ← strlen s
      match r2 with
      | none =>
        let m ← free_ele m (some newh)
        .ok (m, false)
      | some tmp =>
        let m := alloc_str m tmp (n + 1) j2
        let m ← store_value m (some newh) (some tmp)
        let e ← load_ele m (some newh)
        let dst ← load_str m e.value
        let k ← strlen s
        let dst ← strncpy dst s (k + 1)
        let m ← store_str m e.value dst
        let qv ← load_q m qp
        let m ←
          (if qv.size = 0 then do
            let m ← store_next m (some newh) none
            let qv ← load_q m qp
            let m ← store_q m qp { qv with tail := some newh }
            let qv ← load_q m qp
            store_q m qp { qv with head := some newh }
          else do
            let m ← store_next m (some newh) none
            let qv ← load_q m qp
            let m ← store_next m qv.tail (some newh)
            let qv ← load_q m qp
            store_q m qp { qv with tail := some newh })
        let qv ← load_q m qp
        let m ← store_q m qp { qv with size := qv.size + 1 }
        .ok (m, true)

/-- The function `q_remove_head`; `sp` is the caller's buffer (`none` for
`NULL`), returned with what was written to it. -/
def q_remove_head (m : Mem) (q : Option Ptr) (sp : Option (List Nat)) (bufsize : Nat) :
    Exec (Mem × Option (List Nat) × Bool) :=
  match q with
  | none => .ok (m, sp, false)
  | some qp =>
    match sp with
    | none => .ok (m, sp, false)
    | some buf => do
      let qv ← load_q m qp
      match qv.head with
      | none => .ok (m, sp, false)
      | some tmp =>
        let h ← load_ele m qv.head
        let v ← load_str m h.value
        let n ← strlen v
        let buf ←
          (if bufsize > n then do
            let buf ← strncpy buf v n
            store_byte buf n 0
          else do
            let buf ← strncpy buf v ((bufsize + SIZE_RANGE - 1) % SIZE_RANGE)
            store_byte buf ((bufsize + SIZE_RANGE - 1) % SIZE_RANGE) 0)
        let m ← store_q m qp { qv with head := h.next }
        let t ← load_ele m (some tmp)
        let m ← free_str m t.value
        let m ← free_ele m (some tmp)
        let qv ← load_q m qp
        let m ← store_q m qp { qv with size := qv.size - 1 }
        let qv ← load_q m qp
        let m ← (if qv.size = 0 then store_q m qp { qv with tail := none } else .ok m)
        .ok (m, some buf, true)

/-- The function `q_size`; it returns an `int`. -/
def q_size (m : Mem) (q : Option Ptr) : Exec Int :=
  match q with
  | none => .ok 0
  | some qp => do
    let qv ← load_q m qp
    if qv.head = none then .ok 0 else .ok (to_int qv.size)

/-- The loop of `q_reverse`: `while (next) ...`; returns the memory and `curr`. -/
def reverse_loop : Nat → Mem → Option Ptr → Option Ptr → Exec (Mem × Option Ptr)
  | 0, _, _, _ => .error .fuel
  | fuel + 1, m, curr, next =>
    match next with
    | none => .ok (m, curr)
    | some _ => do
      let nx ← load_ele m next
      let tmp := nx.next
      let m ← store_next m next curr
      reverse_loop fuel m next tmp

/-- The function `q_reverse`. -/
def q_reverse (fuel : Nat) (m : Mem) (q : Option Ptr) : Exec Mem :=
  match q with
  | none => .ok m
  | some qp => do
    let qv ← load_q m qp
    if qv.size = 0 then .ok m
    else do
      let curr := qv.head
      let h ← load_ele m qv.head
      let next := h.next
      let m ← store_q m qp { qv with tail := qv.head }
      let (m, curr) ← reverse_loop fuel m curr next
      let qv ← load_q m qp
      let m ← store_next m qv.tail none
      let qv ← load_q m qp
      store_q m qp { qv with head := curr }

/-- The test `strcmp(lhs->value, rhs->value) <= 0` of `merge`. -/
def value_le (m : Mem) (lhs rhs : Option Ptr) : Exec Bool := do
  let l ← load_ele m lhs
  let r ← load_ele m rhs
  let a ← load_str m l.value
  let b ← load_str m r.value
  let c ← strcmp a b
  .ok (decide (c ≤ 0))

/-- The loop of `merge`: `while (lhs && rhs) ...`; returns the memory and the
variables `lhs`, `rhs`, `head`, `tail`. -/
def merge_loop : Nat → Mem → Option Ptr → Option Ptr → Option Ptr → Option Ptr →
    Exec (Mem × Option Ptr × Option Ptr × Option Ptr × Option Ptr)
  | 0, _, _, _, _, _ => .error .fuel
  | fuel + 1, m, lhs, rhs, head, tail =>
    if lhs ≠ none ∧ rhs ≠ none then do
      let le ← value_le m lhs rhs
      if le then do
        let m ← (if head = none then .ok m else store_next m tail lhs)
        let head := if head = none then lhs else head
        let tail := lhs
        let l ← load_ele m lhs
        merge_loop fuel m l.next rhs head tail
      else do
        let m ← (if head = none then .ok m else store_next m tail rhs)
        let head := if head = none then rhs else head
        let tail := rhs
        let r ← load_ele m rhs
        merge_loop fuel m lhs r.next head tail
    else .ok (m, lhs, rhs, head, tail)

/-- The statements of `merge` after its loop, on the variables the loop left:
`if (lhs) tail->next = lhs; if (rhs) tail->next = rhs; return head;`. -/
def merge_finish (st : Mem × Option Ptr × Option Ptr × Option Ptr × Option Ptr) :
    Exec (Mem × Option Ptr) := do
  let (m, lhs, rhs, head, tail) := st
  let m ← (if lhs ≠ none then store_next m tail lhs else .ok m)
  let m ← (if rhs ≠ none then store_next m tail rhs else .ok m)
  .ok (m, head)

/-- The function `merge`. -/
def merge (fuel : Nat) (m : Mem) (lhs rhs : Option Ptr) : Exec (Mem × Option Ptr) := do
  let st ← merge_loop fuel m lhs rhs none none
  merge_finish st

/-- The loop of `mergeSort`: `while (fast && fast->next) ...`; returns `slow`. -/
def split_loop : Nat → Mem → Option Ptr → Option Ptr → Exec (Option Ptr)
  | 0, _, _, _ => .error .fuel
  | fuel + 1, m, fast, slow =>
    match fast with
    | none => .ok slow
    | some _ => do
      let f ← load_ele m fast
      if f.next = none then .ok slow
      else do
        let f1 ← load_ele m f.next
        let s ← load_ele m slow
        split_loop fuel m f1.next s.next

/-- The function `mergeSort`; the budget bounds the depth of the recursion and
the steps of each loop. -/
def mergeSort : Nat → Mem → Option Ptr → Exec (Mem × Option Ptr)
  | 0, _, _ => .error .fuel
  | fuel + 1, m, head =>
    match head with
    | none => .ok (m, head)
    | some _ => do
      let h ← load_ele m head
      if h.next = none then .ok (m, head)
      else do
        let slow ← split_loop fuel m h.next head
        let s ← load_ele m slow
        let fast := s.next
        let m ← store_next m slow none
        let (m, lhs) ← mergeSort fuel m head
        let (m, rhs) ← mergeSort fuel m fast
        merge fuel m lhs rhs

/-- The loop of `q_sort`: `while (q->tail->next) q->tail = q->tail->next;`. -/
def tail_loop : Nat → Mem → Ptr → Exec Mem
  | 0, _, _ => .error .fuel
  | fuel + 1, m, q => do
    let qv ← load_q m q
    let t ← load_ele m qv.tail
    if t.next = none then .ok m
    else do
      let m ← store_q m q { qv with tail := t.next }
      tail_loop fuel m q

/-- The function `q_sort`. -/
def q_sort (fuel : Nat) (m : Mem) (q : Option Ptr) : Exec Mem :=
  match q with
  | none => .ok m
  | some qp => do
    let qv ← load_q m qp
    if qv.head = none then .ok m
    else do
      let (m, h) ← mergeSort fuel m qv.head
      let qv ← load_q m qp
      let m ← store_q m qp { qv with head := h }
      tail_loop fuel m qp

/-! ## Reading the memory -/

/-- The list segment from `p` to `e`: following `next` from `p` visits exactly
the elements `ps`, in this order, and arrives at `e`. -/
def lseg (nodes : Ptr → Option list_ele_t) : Option Ptr → List Ptr → Option Ptr → Prop
  | p, [], e => p = e
  | p, a :: ps, e => p = some a ∧ ∃ n, nodes a = some n ∧ lseg nodes n.next ps e

/-- The buffer the element at `a` owns, when the element and the buffer are
allocated. -/
def node_buf (m : Mem) (a : Ptr) : Option (List Nat) :=
  match m.nodes a with
  | some n =>
    match n.value with
    | some v => m.strs v
    | none => none
  | none => none

/-- The C string a buffer holds: its bytes before the first `0`. -/
def cstr : List Nat → List Nat
  | [] => []
  | c :: cs => if c = 0 then [] else c :: cstr cs

/-- The string the element at `a` stores, when its buffer is allocated and
terminated. -/
def node_str (m : Mem) (a : Ptr) : Option (List Nat) :=
  match node_buf m a with
  | some b => if 0 ∈ b then some (cstr b) else none
  | none => none

/-- Byte-wise lexicographic order on strings, a proper prefix first. -/
def str_le : List Nat → List Nat → Bool
  | [], _ => true
  | _ :: _, [] => false
  | a :: as, b :: bs => decide (a < b) || (decide (a = b) && str_le as bs)

/-- The sort key of the element at `a`. -/
def key (m : Mem) (a : Ptr) : List Nat :=
  match node_buf m a with
  | some b => cstr b
  | none => []

/-- The order of two elements by their strings. -/
def lek (m : Mem) (a b : Ptr) : Bool := str_le (key m a) (key m b)

/-- Memory `m2` comes from `m1` by assigning `next` fields of elements in `S`
only: no block is allocated or freed, no `value` field, buffer or queue record
changes. -/
def Relinked (m1 m2 : Mem) (S : List Ptr) : Prop :=
  m2.queues = m1.queues ∧ m2.strs = m1.strs ∧
  (∀ a, a ∉ S → m2.nodes a = m1.nodes a) ∧
  (∀ a, (m2.nodes a).map (·.value) = (m1.nodes a).map (·.value))

/-- Every element of `ps` owns an allocated, terminated buffer. -/
def AllStr (m : Mem) (ps : List Ptr) : Prop :=
  ∀ a ∈ ps, ∃ n v b, m.nodes a = some n ∧ n.value = some v ∧ m.strs v = some b ∧ 0 ∈ b

/-- The data-model invariant of the queue at `q`, with `ps` the addresses of
its elements from head to tail: the chain from `head` runs through `ps` and
ends in `NULL`, `tail` is the last element (absent when there is none), `size`
is the number of elements, every element owns a terminated string, and no two
elements share a buffer. -/
def QueueInv (m : Mem) (q : Ptr) (ps : List Ptr) : Prop :=
  (∃ qv, m.queues q = some qv ∧ lseg m.nodes qv.head ps none ∧
    qv.tail = ps.getLast? ∧ qv.size = (ps.length : Int)) ∧
  AllStr m ps ∧
  (ps.map (fun a => (m.nodes a).bind (·.value))).Nodup

/-- The strings of the elements `ps`, in order. -/
def values (m : Mem) (ps : List Ptr) : List (Option (List Nat)) :=
  ps.map (node_str m)

/-! ## Observing a queue -/

/-- The strings read from `p` along `next`, at most `n` of them. -/
def read_strs (m : Mem) : Nat → Option Ptr → List (Option (List Nat))
  | 0, _ => []
  | _ + 1, none => []
  | n + 1, some a =>
    node_str m a ::
      (match m.nodes a with
      | some e => read_strs m n e.next
      | none => [])

/-- The strings of the queue at `q` from its head, at most `n` of them. -/
def q_strs (m : Mem) (q : Ptr) (n : Nat) : List (Option (List Nat)) :=
  match m.queues q with
  | some qv => read_strs m n qv.head
  | none => []

/-- The bytes of `"banana"`, `"apple"` and `"cherry"`, without terminator. -/
def banana : List Nat := [98, 97, 110, 97, 110, 97]

@[inherit_doc banana]
def apple : List Nat := [97, 112, 112, 108, 101]

@[inherit_doc banana]
def cherry : List Nat := [99, 104, 101, 114, 114, 121]

/-- A memory that holds the queue `["banana", "apple"]`: the queue record at
`100`, its elements at `1` and `2`, their buffers at `11` and `12`. -/
def mem_banana_apple : Mem where
  queues := fun a => if a = 100 then some ⟨some 1, some 2, 2⟩ else none
  nodes := fun a =>
    if a = 1 then some ⟨some 11, some 2⟩
    else if a = 2 then some ⟨some 12, none⟩
    else none
  strs := fun a =>
    if a = 11 then some (banana ++ [0])
    else if a = 12 then some (apple ++ [0])
    else none

/-- A memory that holds the queue `["cherry", "banana", "apple"]`: the queue
record at `100`, its elements at `3`, `1` and `2`, their buffers at `13`, `11`
and `12`. -/
def mem_cherry_banana_apple : Mem where
  queues := fun a => if a = 100 then some ⟨some 3, some 2, 3⟩ else none
  nodes := fun a =>
    if a = 3 then some ⟨some 13, some 1⟩
    else if a = 1 then some ⟨some 11, some 2⟩
    else if a = 2 then some ⟨some 12, none⟩
    else none
  strs := fun a =>
    if a = 13 then some (cherry ++ [0])
    else if a = 11 then some (banana ++ [0])
    else if a = 12 then some (apple ++ [0])
    else none

/-- What a block of `malloc` may hold before it is written: a queue record, a
list element, and bytes (none of them `0`). -/
def junk_q : queue_t := ⟨some 7, some 7, 7⟩

@[inherit_doc junk_q]
def junk_ele : list_ele_t := ⟨some 7, some 7⟩

@[inherit_doc junk_q]
def junk_bytes : Nat → Nat := fun i => 7 + i

/-- A memory that holds an empty queue, its record at `100`. -/
def mem_empty_queue : Mem where
  queues := fun a => if a = 100 then some ⟨none, none, 0⟩ else none
  nodes := fun _ => none
  strs := fun _ => none

/-! ## Sequences of calls -/

/-- One call on a queue, with what the caller and `malloc` supply. -/
inductive Call where
  | insert_head (s : List Nat) (r1 r2 : Option Ptr) (j1 : list_ele_t) (j2 : Nat → Nat)
  | insert_tail (s : List Nat) (r1 r2 : Option Ptr) (j1 : list_ele_t) (j2 : Nat → Nat)
  | remove_head (sp : Option (List Nat)) (bufsize : Nat)
  | reverse (fuel : Nat)
  | sort (fuel : Nat)

/-- What `malloc` may return in memory `m`: `NULL`, or the address of a block
that is not allocated. -/
def fresh_ele (m : Mem) (r : Option Ptr) : Bool :=
  match r with
  | some a => (m.nodes a).isNone
  | none => true

@[inherit_doc fresh_ele]
def fresh_str (m : Mem) (r : Option Ptr) : Bool :=
  match r with
  | some a => (m.strs a).isNone
  | none => true

/-- The call keeps to what C asks of the caller and to the contract of
`malloc`: a string argument is terminated; `malloc` returns `NULL` or a block
that is not allocated; `bufsize` is a `size_t`, and when there is an element to
copy into a buffer, the buffer has at least `bufsize` bytes, `bufsize` at
least `1`; the step budget of a loop exceeds the number of elements. -/
def Call.valid (m : Mem) (q : Ptr) : Call → Bool
  | .insert_head s r1 r2 _ _ => decide (0 ∈ s) && fresh_ele m r1 && fresh_str m r2
  | .insert_tail s r1 r2 _ _ => decide (0 ∈ s) && fresh_ele m r1 && fresh_str m r2
  | .remove_head sp bufsize =>
    decide (bufsize < SIZE_RANGE) &&
      (match sp, m.queues q with
      | some buf, some qv =>
        decide (qv.head = none) || (decide (1 ≤ bufsize) && decide (bufsize ≤ buf.length))
      | _, _ => true)
  | .reverse fuel =>
    (match m.queues q with
    | some qv => decide (qv.size < (fuel : Int))
    | none => false)
  | .sort fuel =>
    (match m.queues q with
    | some qv => decide (qv.size < (fuel : Int))
    | none => false)

/-- Run one call on the queue at `q`: the memory after it, `1` or `0` for an
insertion that returned `true` or not, and the same for a removal. -/
def Call.run (m : Mem) (q : Ptr) : Call → Exec (Mem × Nat × Nat)
  | .insert_head s r1 r2 j1 j2 => do
    let r ← q_insert_head m (some q) s r1 r2 j1 j2
    .ok (r.1, (if r.2 then 1 else 0), 0)
  | .insert_tail s r1 r2 j1 j2 => do
    let r ← q_insert_tail m (some q) s r1 r2 j1 j2
    .ok (r.1, (if r.2 then 1 else 0), 0)
  | .remove_head sp bufsize => do
    let r ← q_remove_head m (some q) sp bufsize
    .ok (r.1, 0, (if r.2.2 then 1 else 0))
  | .reverse fuel => do
    let m2 ← q_reverse fuel m (some q)
    .ok (m2, 0, 0)
  | .sort fuel => do
    let m2 ← q_sort fuel m (some q)
    .ok (m2, 0, 0)

/-- Run a sequence of calls on the queue at `q`: the memory after them, the
number of insertions that returned `true` and the number of removals that
returned `true`. -/
def run_calls (m : Mem) (q : Ptr) : List Call → Exec (Mem × Nat × Nat)
  | [] => .ok (m, 0, 0)
  | c :: cs => do
    let r ← c.run m q
    let r2 ← run_calls r.1 q cs
    .ok (r2.1, r.2.1 + r2.2.1, r.2.2 + r2.2.2)

/-- Every call of the sequence is valid in the memory it is made in. -/
def admissible (m : Mem) (q : Ptr) : List Call → Bool
  | [] => true
  | c :: cs =>
    c.valid m q &&
      (match c.run m q with
      | .ok r => admissible r.1 q cs
      | .error _ => true)

/-- The invariant of the data model in the words of the specification, on the
queue at `q`: the count is `0` exactly when `head` and `tail` are both absent;
and when the count is positive, the chain from `head` is acyclic, has exactly
count elements and ends at `tail`, whose link is absent. -/
def SpecInv (m : Mem) (q : Ptr) : Prop :=
  ∃ qv, m.queues q = some qv ∧
    (qv.size = 0 ↔ (qv.head = none ∧ qv.tail = none)) ∧
    (0 < qv.size → ∃ (ps : List Ptr) (t : Ptr) (nt : list_ele_t),
      lseg m.nodes qv.head ps none ∧ ps.Nodup ∧ (ps.length : Int) = qv.size ∧
      ps.getLast? = some t ∧ qv.tail = some t ∧ m.nodes t = some nt ∧ nt.next = none)

/-- A memory that holds the queue `["banana", "apple", "apple"]`: the queue
record at `100`, its elements at `1`, `2` and `3`, their buffers at `11`, `12`
and `13`. -/
def mem_banana_apple_apple : Mem where
  queues := fun a => if a = 100 then some ⟨some 1, some 3, 3⟩ else none
  nodes := fun a =>
    if a = 1 then some ⟨some 11, some 2⟩
    else if a = 2 then some ⟨some 12, some 3⟩
    else if a = 3 then some ⟨some 13, none⟩
    else none
  strs := fun a =>
    if a = 11 then some (banana ++ [0])
    else if a = 12 then some (apple ++ [0])
    else if a = 13 then some (apple ++ [0, 7])
    else none

/-- The structural part of the data-model invariant of the queue at `q`, with
`ps` the addresses of its elements from head to tail: the chain from `head`
runs through `ps` and ends in `NULL`, `tail` is the last element (absent when
there is none), `size` is the number of elements. -/
def ChainInv (m : Mem) (q : Ptr) (ps : List Ptr) : Prop :=
  ∃ qv, m.queues q = some qv ∧ lseg m.nodes qv.head ps none ∧
    qv.tail = ps.getLast? ∧ qv.size = (ps.length : Int)

/-- The strings a call reads are terminated, so that `strlen` and `strcmp` are
defined on them: the string of the first element for a `q_remove_head` with a
buffer, the strings of all elements for `q_sort`. -/
def Call.strings_ok (m : Mem) (ps : List Ptr) : Call → Prop
  | .remove_head sp _ => sp ≠ none → AllStr m (ps.take 1)
  | .sort _ => AllStr m ps
  | _ => True

/-- A memory that holds two chains: `["apple", "cherry"]`, the elements `1` and
`3` with their buffers at `11` and `13`, and `["banana"]`, the element `2`
with its buffer at `12`. -/
def mem_two_chains : Mem where
  queues := fun _ => none
  nodes := fun a =>
    if a = 1 then some ⟨some 11, some 3⟩
    else if a = 3 then some ⟨some 13, none⟩
    else if a = 2 then some ⟨some 12, none⟩
    else none
  strs := fun a =>
    if a = 11 then some (apple ++ [0])
    else if a = 13 then some (cherry ++ [0])
    else if a = 12 then some (banana ++ [0])
    else none

/-- The count of the queue at `q` is at most `INT_MAX`. -/
def size_in_int (m : Mem) (q : Ptr) : Bool :=
  match m.queues q with
  | some qv => decide (qv.size ≤ INT_MAX)
  | none => true

/-- The count of the queue at `q` is at most `INT_MAX` before and after every
call of the sequence. -/
def within_int (m : Mem) (q : Ptr) : List Call → Bool
  | [] => size_in_int m q
  | c :: cs =>
    size_in_int m q &&
      (match c.run m q with
      | .ok r => within_int r.1 q cs
      | .error _ => true)

/-- A sequence of `n` calls of `q_insert_head` with the empty string; `malloc`
hands out the blocks at `n - 1`, `n - 2`, ..., `0`, one of each kind per call,
their bytes all `0`. -/
def many_inserts : Nat → List Call
  | 0 => []
  | n + 1 => .insert_head [0] (some n) (some n) ⟨none, none⟩ (fun _ => 0) :: many_inserts n

/-! ## Segments of the element heap -/

/-- An integer in the range of `int` is its own value as an `int`. -/
theorem to_int_of_le {x : Int} (h0 : 0 ≤ x) (h1 : x ≤ INT_MAX) : to_int x = x := by
  unfold to_int
  unfold INT_MAX at h1
  omega

theorem lseg_frame {n1 n2 : Ptr → Option list_ele_t} {ps : List Ptr} :
    ∀ {p e}, (∀ a ∈ ps, n2 a = n1 a) → lseg n1 p ps e → lseg n2 p ps e := by
  induction ps with
  | nil => intro p e _ h; exact h
  | cons a ps ih =>
    intro p e hag h
    obtain ⟨hp, n, hn, hrest⟩ := h
    refine ⟨hp, n, ?_, ih (fun b hb => hag b (List.mem_cons_of_mem _ hb)) hrest⟩
    rw [hag a (List.mem_cons_self _ _)]; exact hn

theorem lseg_append {nodes : Ptr → Option list_ele_t} {l1 l2 : List Ptr} :
    ∀ {p e}, lseg nodes p (l1 ++ l2) e ↔ ∃ x, lseg nodes p l1 x ∧ lseg nodes x l2 e := by
  induction l1 with
  | nil =>
    intro p e
    constructor
    · intro h; exact ⟨p, rfl, h⟩
    · rintro ⟨x, hx, h⟩; simp only [lseg] at hx; subst hx; exact h
  | cons a l1 ih =>
    intro p e
    constructor
    · rintro ⟨hp, n, hn, hrest⟩
      obtain ⟨x, h1, h2⟩ := ih.mp hrest
      exact ⟨x, ⟨hp, n, hn, h1⟩, h2⟩
    · rintro ⟨x, ⟨hp, n, hn, h1⟩, h2⟩
      exact ⟨hp, n, hn, ih.mpr ⟨x, h1, h2⟩⟩

theorem lseg_head {nodes : Ptr → Option list_ele_t} {p e : Option Ptr} {ps : List Ptr}
    (h : lseg nodes p ps e) : p = (ps.head?).or e := by
  cases ps with
  | nil => simpa [lseg] using h
  | cons a ps => simpa using h.1

/-- Two null-terminated walks from the same pointer visit the same elements. -/
theorem lseg_unique {nodes : Ptr → Option list_ele_t} {l1 : List Ptr} :
    ∀ {p} {l2 : List Ptr}, lseg nodes p l1 none → lseg nodes p l2 none → l1 = l2 := by
  induction l1 with
  | nil =>
    intro p l2 h1 h2
    simp only [lseg] at h1; subst h1
    cases l2 with
    | nil => rfl
    | cons b l2 => exact absurd h2.1 (by simp)
  | cons a l1 ih =>
    intro p l2 h1 h2
    obtain ⟨hp, n, hn, hrest⟩ := h1
    subst hp
    cases l2 with
    | nil => simp [lseg] at h2
    | cons b l2 =>
      obtain ⟨hp2, n2, hn2, hrest2⟩ := h2
      have hab : a = b := by simpa using hp2
      subst hab
      rw [hn] at hn2
      have hnn : n = n2 := by simpa using hn2
      subst hnn
      rw [ih hrest hrest2]

/-- A null-terminated chain is acyclic: no element occurs twice. -/
theorem lseg_nodup {nodes : Ptr → Option list_ele_t} {ps : List Ptr} :
    ∀ {p}, lseg nodes p ps none → ps.Nodup := by
  induction ps with
  | nil => intro _ _; exact List.nodup_nil
  | cons a ps ih =>
    intro p h
    obtain ⟨hp, n, hn, hrest⟩ := h
    refine List.nodup_cons.mpr ⟨?_, ih hrest⟩
    intro hmem
    obtain ⟨l1, l2, hsplit⟩ := List.append_of_mem hmem
    rw [hsplit] at hrest
    obtain ⟨x, _, h2⟩ := lseg_append.mp hrest
    obtain ⟨_, n2, hn2, hrest2⟩ := h2
    rw [hn] at hn2
    have hnn : n = n2 := by simpa using hn2
    subst hnn
    have := lseg_unique hrest2 hrest
    have hlen := congrArg List.length this
    simp at hlen
    omega

/-! ## Strings -/

theorem str_le_total : ∀ (a b : List Nat), (str_le a b || str_le b a) = true
  | [], _ => by simp [str_le]
  | _ :: _, [] => by simp [str_le]
  | a :: as, b :: bs => by
    have ih := str_le_total as bs
    simp only [str_le, Bool.or_eq_true, Bool.and_eq_true, decide_eq_true_eq] at ih ⊢
    rcases Nat.lt_trichotomy a b with h | h | h
    · exact Or.inl (Or.inl h)
    · subst h
      rcases ih with h | h
      · exact Or.inl (Or.inr ⟨rfl, h⟩)
      · exact Or.inr (Or.inr ⟨rfl, h⟩)
    · exact Or.inr (Or.inl h)

theorem str_le_trans : ∀ (a b c : List Nat), str_le a b = true → str_le b c = true →
    str_le a c = true
  | [], _, _ => by simp [str_le]
  | _ :: _, [], _ => by simp [str_le]
  | _ :: _, _ :: _, [] => by simp [str_le]
  | a :: as, b :: bs, c :: cs => by
    have ih := str_le_trans as bs cs
    simp only [str_le, Bool.or_eq_true, Bool.and_eq_true, decide_eq_true_eq]
    rintro (h1 | ⟨h1, h1'⟩) (h2 | ⟨h2, h2'⟩)
    · exact Or.inl (by omega)
    · exact Or.inl (by omega)
    · exact Or.inl (by omega)
    · exact Or.inr ⟨by omega, ih h1' h2'⟩

theorem strcmp_spec : ∀ (x y : List Nat), 0 ∈ x → 0 ∈ y →
    ∃ c, strcmp x y = .ok c ∧ decide (c ≤ 0) = str_le (cstr x) (cstr y)
  | [], _ => by simp
  | _ :: _, [] => by simp
  | a :: as, b :: bs => by
    intro hx hy
    by_cases hab : a = b
    · subst hab
      by_cases ha : a = 0
      · subst ha
        exact ⟨0, by simp [strcmp], by simp [cstr, str_le]⟩
      · have hx' : 0 ∈ as := by
          rcases List.mem_cons.mp hx with h | h
          · exact absurd h.symm ha
          · exact h
        have hy' : 0 ∈ bs := by
          rcases List.mem_cons.mp hy with h | h
          · exact absurd h.symm ha
          · exact h
        obtain ⟨c, hc, hle⟩ := strcmp_spec as bs hx' hy'
        exact ⟨c, by simp [strcmp, ha, hc], by simp [cstr, str_le, ha, hle]⟩
    · refine ⟨(a : Int) - (b : Int), by simp [strcmp, hab], ?_⟩
      by_cases ha : a = 0
      · subst ha
        have : (0 : Int) - (b : Int) ≤ 0 := by omega
        simp [cstr, str_le, this]
      · by_cases hb : b = 0
        · subst hb
          have : ¬ ((a : Int) - ((0 : Nat) : Int) ≤ 0) := by omega
          simp [cstr, str_le, ha, this]
        · simp only [cstr, ha, hb, if_false, str_le, hab, decide_False, Bool.false_and,
            Bool.or_false]
          by_cases hlt : a < b
          · have : (a : Int) - (b : Int) ≤ 0 := by omega
            simp [hlt, this]
          · have : ¬ ((a : Int) - (b : Int) ≤ 0) := by omega
            simp [hlt, this]

theorem cstr_append (v junk : List Nat) (hv : 0 ∉ v) : cstr (v ++ 0 :: junk) = v := by
  induction v with
  | nil => simp [cstr]
  | cons c v ih =>
    have hc : c ≠ 0 := fun h => hv (by simp [h])
    have hv' : 0 ∉ v := fun h => hv (List.mem_cons_of_mem _ h)
    simp [cstr, hc, ih hv']

theorem cstr_no_zero (b : List Nat) : 0 ∉ cstr b := by
  induction b with
  | nil => simp [cstr]
  | cons c b ih =>
    by_cases hc : c = 0
    · simp [cstr, hc]
    · simp only [cstr, hc, if_false, List.mem_cons, not_or]
      exact ⟨fun h => hc h.symm, ih⟩

theorem cstr_split (b : List Nat) (h : 0 ∈ b) : ∃ junk, b = cstr b ++ 0 :: junk := by
  induction b with
  | nil => simp at h
  | cons c b ih =>
    by_cases hc : c = 0
    · exact ⟨b, by simp [cstr, hc]⟩
    · have hb : 0 ∈ b := by
        rcases List.mem_cons.mp h with h | h
        · exact absurd h.symm hc
        · exact h
      obtain ⟨junk, hj⟩ := ih hb
      refine ⟨junk, ?_⟩
      simp only [cstr, hc, if_false, List.cons_append]
      rw [← hj]

theorem strlen_spec (b : List Nat) (h : 0 ∈ b) : strlen b = .ok (cstr b).length := by
  induction b with
  | nil => simp at h
  | cons c b ih =>
    by_cases hc : c = 0
    · simp [strlen, cstr, hc]
    · have hb : 0 ∈ b := by
        rcases List.mem_cons.mp h with h | h
        · exact absurd h.symm hc
        · exact h
      simp [strlen, cstr, hc, ih hb, Except.map]

/-- Copying at most as many bytes as the string has: a prefix, no terminator. -/
theorem strncpy_short : ∀ (dst src : List Nat) (k : Nat), k ≤ (cstr src).length →
    k ≤ dst.length → strncpy dst src k = .ok ((cstr src).take k ++ dst.drop k)
  | dst, _, 0 => by simp [strncpy]
  | [], _, _ + 1 => by simp
  | _ :: _, [], _ + 1 => by simp [cstr]
  | d :: dst, c :: src, k + 1 => by
    intro h1 h2
    by_cases hc : c = 0
    · simp [cstr, hc] at h1
    · simp only [cstr, hc, if_false, List.length_cons, Nat.add_le_add_iff_right] at h1 h2
      simp [strncpy, hc, cstr, strncpy_short dst src k h1 h2, Except.map]

/-- Copying the string with its terminator. -/
theorem strncpy_full : ∀ (dst src : List Nat), 0 ∈ src →
    (cstr src).length + 1 ≤ dst.length →
    strncpy dst src ((cstr src).length + 1) =
      .ok (cstr src ++ 0 :: dst.drop ((cstr src).length + 1))
  | [], _ => by simp
  | _ :: _, [] => by simp
  | d :: dst, c :: src => by
    intro h0 h2
    by_cases hc : c = 0
    · simp [strncpy, hc, cstr]
    · have hb : 0 ∈ src := by
        rcases List.mem_cons.mp h0 with h | h
        · exact absurd h.symm hc
        · exact h
      simp only [cstr, hc, if_false, List.length_cons, Nat.add_le_add_iff_right] at h2 ⊢
      simp [strncpy, hc, strncpy_full dst src hb h2, Except.map]

/-! ## Relinking -/

theorem relinked_refl (m : Mem) (S : List Ptr) : Relinked m m S :=
  ⟨rfl, rfl, fun _ _ => rfl, fun _ => rfl⟩

theorem relinked_trans {m1 m2 m3 : Mem} {S1 S2 S : List Ptr} (h1 : Relinked m1 m2 S1)
    (h2 : Relinked m2 m3 S2) (hs1 : ∀ a ∈ S1, a ∈ S) (hs2 : ∀ a ∈ S2, a ∈ S) :
    Relinked m1 m3 S := by
  obtain ⟨q1, s1, f1, v1⟩ := h1
  obtain ⟨q2, s2, f2, v2⟩ := h2
  refine ⟨q2.trans q1, s2.trans s1, ?_, fun a => (v2 a).trans (v1 a)⟩
  intro a ha
  rw [f2 a (fun h => ha (hs2 a h)), f1 a (fun h => ha (hs1 a h))]

theorem relinked_mono {m1 m2 : Mem} {S1 S : List Ptr} (h : Relinked m1 m2 S1)
    (hs : ∀ a ∈ S1, a ∈ S) : Relinked m1 m2 S :=
  relinked_trans h (relinked_refl m2 S1) hs hs

theorem relinked_node_buf {m1 m2 : Mem} {S : List Ptr} (h : Relinked m1 m2 S) (a : Ptr) :
    node_buf m2 a = node_buf m1 a := by
  obtain ⟨_, hs, _, hv⟩ := h
  have := hv a
  unfold Queue.node_buf
  rw [hs]
  cases h2 : m2.nodes a <;> cases h1 : m1.nodes a <;> simp [h1, h2] at this ⊢
  rw [this]

theorem relinked_key {m1 m2 : Mem} {S : List Ptr} (h : Relinked m1 m2 S) :
    key m2 = key m1 := by
  funext a; simp [Queue.key, (relinked_node_buf h) a]

theorem relinked_lek {m1 m2 : Mem} {S : List Ptr} (h : Relinked m1 m2 S) :
    lek m2 = lek m1 := by
  funext a b; simp [Queue.lek, (relinked_key h)]

theorem relinked_node_str {m1 m2 : Mem} {S : List Ptr} (h : Relinked m1 m2 S) :
    node_str m2 = node_str m1 := by
  funext a; simp [Queue.node_str, (relinked_node_buf h) a]

theorem relinked_values {m1 m2 : Mem} {S : List Ptr} (h : Relinked m1 m2 S) (ps : List Ptr) :
    values m2 ps = values m1 ps := by
  simp [Queue.values, (relinked_node_str h)]

theorem AllStr_iff_node_buf (m : Mem) (ps : List Ptr) :
    AllStr m ps ↔ ∀ a ∈ ps, ∃ b, node_buf m a = some b ∧ 0 ∈ b := by
  constructor
  · intro h a ha
    obtain ⟨n, v, b, hn, hv, hb, h0⟩ := h a ha
    exact ⟨b, by simp [node_buf, hn, hv, hb], h0⟩
  · intro h a ha
    obtain ⟨b, hb, h0⟩ := h a ha
    unfold node_buf at hb
    cases hn : m.nodes a with
    | none => simp [hn] at hb
    | some n =>
      cases hv : n.value with
      | none => simp [hn, hv] at hb
      | some v =>
        simp only [hn, hv] at hb
        exact ⟨n, v, b, rfl, hv, hb, h0⟩

theorem relinked_allStr {m1 m2 : Mem} {S : List Ptr} (h : Relinked m1 m2 S) {ps : List Ptr}
    (hs : AllStr m1 ps) : AllStr m2 ps := by
  rw [AllStr_iff_node_buf] at hs ⊢
  intro a ha
  rw [(relinked_node_buf h) a]
  exact hs a ha

theorem relinked_value_ptrs {m1 m2 : Mem} {S : List Ptr} (h : Relinked m1 m2 S) :
    (fun a => (m2.nodes a).bind (·.value)) = (fun a => (m1.nodes a).bind (·.value)) := by
  funext a
  have := h.2.2.2 a
  cases h2 : m2.nodes a <;> cases h1 : m1.nodes a <;> simp [h1, h2] at this ⊢
  exact this

/-- The assignment `a->next = nx` on an allocated element. -/
theorem store_next_ok {m : Mem} {a : Ptr} {n : list_ele_t} (h : m.nodes a = some n)
    (nx : Option Ptr) :
    store_next m (some a) nx =
      .ok { m with nodes := Function.update m.nodes a (some { n with next := nx }) } := by
  simp [store_next, h]

theorem relinked_update {m : Mem} {a : Ptr} {n : list_ele_t} (h : m.nodes a = some n)
    (nx : Option Ptr) :
    Relinked m { m with nodes := Function.update m.nodes a (some { n with next := nx }) } [a] := by
  refine ⟨rfl, rfl, ?_, ?_⟩
  · intro b hb
    have : b ≠ a := by simpa using hb
    simp [Function.update_noteq this]
  · intro b
    by_cases hb : b = a
    · subst hb; simp [h]
    · simp [Function.update_noteq hb]

/-- The comparison of `merge` on two elements that own strings is the order of
their strings. -/
theorem value_le_spec {m : Mem} {a b : Ptr} (ha : AllStr m [a]) (hb : AllStr m [b]) :
    value_le m (some a) (some b) = .ok (lek m a b) := by
  obtain ⟨na, va, ba, hna, hva, hba, h0a⟩ := ha a (List.mem_singleton.mpr rfl)
  obtain ⟨nb, vb, bb, hnb, hvb, hbb, h0b⟩ := hb b (List.mem_singleton.mpr rfl)
  obtain ⟨c, hc, hle⟩ := strcmp_spec ba bb h0a h0b
  simp [value_le, load_ele, load_str, hna, hnb, hva, hvb, hba, hbb, hc, bind, Except.bind,
    lek, key, node_buf, hle]

theorem lek_total (m : Mem) (a b : Ptr) : (lek m a b || lek m b a) = true :=
  str_le_total _ _

theorem lek_trans (m : Mem) (a b c : Ptr) : lek m a b = true → lek m b c = true →
    lek m a c = true :=
  str_le_trans _ _ _

/-! ## The loops of `mergeSort` and `merge` -/

theorem load_ele_ok {m : Mem} {a : Ptr} {n : list_ele_t} (h : m.nodes a = some n) :
    load_ele m (some a) = .ok n := by
  simp [load_ele, h]

/-- The slow/fast walk: with `fs` the elements from `fast` on and `s :: post`
those from `slow` on, the loop returns the element `fs.length / 2` places after
`slow`. -/
theorem split_loop_spec : ∀ (fuel : Nat) (m : Mem) (fs : List Ptr) (s : Ptr) (post : List Ptr)
    (fast : Option Ptr), lseg m.nodes (some s) (s :: post) none → lseg m.nodes fast fs none →
    fs.length ≤ post.length → fs.length / 2 < fuel →
    split_loop fuel m fast (some s) = .ok ((s :: post)[fs.length / 2]?) := by
  intro fuel
  induction fuel with
  | zero => intro m fs s post fast _ _ _ h; omega
  | succ fuel ih =>
    intro m fs s post fast hs hf hlen hfuel
    match fs, hf, hlen, hfuel with
    | [], hf, _, _ =>
      simp only [lseg] at hf; subst hf
      simp [split_loop]
    | [x], hf, _, _ =>
      obtain ⟨hp, n, hn, hrest⟩ := hf
      simp only [lseg] at hrest
      subst hp
      simp [split_loop, load_ele, hn, hrest, bind, Except.bind]
    | x :: y :: fs', hf, hlen, hfuel =>
      obtain ⟨hp, n, hn, hp2, n2, hn2, hrest⟩ := hf
      subst hp
      obtain ⟨_, sn, hsn, hpost⟩ := hs
      match post, hpost, hlen with
      | [], _, hlen => simp at hlen
      | s' :: post', hpost, hlen =>
        have hs' : sn.next = some s' := hpost.1
        have hlen' : fs'.length ≤ post'.length := by simp at hlen; omega
        have hfuel' : fs'.length / 2 < fuel := by simp at hfuel; omega
        have hidx : (fs'.length + 1 + 1) / 2 = fs'.length / 2 + 1 := by omega
        have := ih m fs' s' post' n2.next (hs' ▸ hpost) hrest hlen' hfuel'
        simp [split_loop, load_ele, hn, hp2, hn2, hsn, hs', bind, Except.bind, this, hidx]

/-- Cutting a chain after its element number `i`: the assignment
`ps[i]->next = NULL` leaves the first `i + 1` elements as one chain and the
rest, reached from the old link, as another. -/
theorem lseg_cut {nodes : Ptr → Option list_ele_t} {p : Option Ptr} {ps : List Ptr}
    (h : lseg nodes p ps none) (i : Nat) (hi : i < ps.length) :
    ∃ n, nodes ps[i] = some n ∧
      lseg (Function.update nodes ps[i] (some { n with next := none })) p
        (ps.take (i + 1)) none ∧
      lseg (Function.update nodes ps[i] (some { n with next := none })) n.next
        (ps.drop (i + 1)) none := by
  have hnd := lseg_nodup h
  have hsplit : ps = ps.take i ++ ps[i] :: ps.drop (i + 1) := by
    rw [← List.drop_eq_getElem_cons hi, List.take_append_drop]
  rw [hsplit] at h hnd
  obtain ⟨x, h1, hx, n, hn, h2⟩ := lseg_append.mp h
  have hnot1 : ps[i] ∉ ps.take i := by
    intro hm
    have := (List.nodup_append.mp hnd).2.2 hm (List.mem_cons_self _ _)
    exact this
  have hnot2 : ps[i] ∉ ps.drop (i + 1) := by
    have := (List.nodup_append.mp hnd).2.1
    exact (List.nodup_cons.mp this).1
  refine ⟨n, hn, ?_, ?_⟩
  · rw [← List.take_concat_get ps i hi]
    have : (ps.take i).concat ps[i] = ps.take i ++ [ps[i]] := by simp
    rw [this]
    refine lseg_append.mpr ⟨x, lseg_frame ?_ h1, hx, _, Function.update_same _ _ _, rfl⟩
    intro a ha
    exact Function.update_noteq (fun (e : a = ps[i]) => hnot1 (e ▸ ha)) _ _
  · refine lseg_frame ?_ h2
    intro a ha
    exact Function.update_noteq (fun (e : a = ps[i]) => hnot2 (e ▸ ha)) _ _


theorem merge_loop_left {fuel : Nat} {m : Mem} {a b h t : Ptr} {tn na : list_ele_t}
    (hle : value_le m (some a) (some b) = .ok true) (ht : m.nodes t = some tn)
    (ha : m.nodes a = some na) (hat : a ≠ t) :
    merge_loop (fuel + 1) m (some a) (some b) (some h) (some t) =
      merge_loop fuel
        { m with nodes := Function.update m.nodes t (some { tn with next := some a }) }
        na.next (some b) (some h) (some a) := by
  simp [merge_loop, hle, store_next, ht, load_ele, Function.update_noteq hat, ha, bind,
    Except.bind]

theorem merge_loop_right {fuel : Nat} {m : Mem} {a b h t : Ptr} {tn nb : list_ele_t}
    (hle : value_le m (some a) (some b) = .ok false) (ht : m.nodes t = some tn)
    (hb : m.nodes b = some nb) (hbt : b ≠ t) :
    merge_loop (fuel + 1) m (some a) (some b) (some h) (some t) =
      merge_loop fuel
        { m with nodes := Function.update m.nodes t (some { tn with next := some b }) }
        (some a) nb.next (some h) (some b) := by
  simp [merge_loop, hle, store_next, ht, load_ele, Function.update_noteq hbt, hb, bind,
    Except.bind]

theorem allStr_mono {m : Mem} {ps qs : List Ptr} (h : AllStr m ps) (hs : ∀ a ∈ qs, a ∈ ps) :
    AllStr m qs :=
  fun a ha => h a (hs a ha)

/-- The loop of `merge` once `head` and `tail` are set, followed by the final
assignments: the elements of the two chains are linked behind `tail` in the
order of the list merge. -/
theorem merge_tail_spec : ∀ (fuel : Nat) (m : Mem) (l r : List Ptr) (lhs rhs : Option Ptr)
    (h t : Ptr) (tn : list_ele_t),
    lseg m.nodes lhs l none → lseg m.nodes rhs r none → (t :: (l ++ r)).Nodup →
    m.nodes t = some tn → AllStr m (l ++ r) → l ++ r ≠ [] → l.length + r.length ≤ fuel →
    ∃ m2 tn2, (merge_loop fuel m lhs rhs (some h) (some t) >>= merge_finish) = .ok (m2, some h) ∧
      m2.nodes t = some tn2 ∧ lseg m2.nodes tn2.next (List.merge l r (lek m)) none ∧
      Relinked m m2 (t :: (l ++ r)) := by
  intro fuel
  induction fuel with
  | zero =>
    intro m l r lhs rhs h t tn _ _ _ _ _ hne hf
    have h1 : l = [] := List.eq_nil_of_length_eq_zero (by omega)
    have h2 : r = [] := List.eq_nil_of_length_eq_zero (by omega)
    exact absurd (by simp [h1, h2]) hne
  | succ fuel ih =>
    intro m l r lhs rhs h t tn hl hr hnd ht hstr hne hfuel
    match l, r, hl, hr, hnd, hstr, hne, hfuel with
    | [], [], _, _, _, _, hne, _ => exact absurd rfl hne
    | [], b :: r', hl, hr, hnd, _, _, _ =>
      simp only [lseg] at hl; subst hl
      have hrhs : rhs = some b := hr.1
      subst hrhs
      have htr : t ∉ b :: r' := by simpa using (List.nodup_cons.mp hnd).1
      refine ⟨_, _, ?_, Function.update_same _ _ _, ?_, relinked_mono (relinked_update ht (some b)) ?_⟩
      · simp [merge_loop, merge_finish, store_next, ht, bind, Except.bind]
      · simp only [List.nil_merge]
        refine lseg_frame ?_ hr
        intro a ha
        exact Function.update_noteq (fun (e : a = t) => htr (e ▸ ha)) _ _
      · intro a ha; simp at ha; simp [ha]
    | a :: l', [], hl, hr, hnd, _, _, _ =>
      simp only [lseg] at hr; subst hr
      have hlhs : lhs = some a := hl.1
      subst hlhs
      have htl : t ∉ a :: l' := by simpa using (List.nodup_cons.mp hnd).1
      refine ⟨_, _, ?_, Function.update_same _ _ _, ?_, relinked_mono (relinked_update ht (some a)) ?_⟩
      · simp [merge_loop, merge_finish, store_next, ht, bind, Except.bind]
      · simp only [List.merge_right]
        refine lseg_frame ?_ hl
        intro c hc
        exact Function.update_noteq (fun (e : c = t) => htl (e ▸ hc)) _ _
      · intro c hc; simp at hc; simp [hc]
    | a :: l', b :: r', hl, hr, hnd, hstr, _, hfuel =>
      obtain ⟨hlhs, na, hna, hl'⟩ := hl
      obtain ⟨hrhs, nb, hnb, hr'⟩ := hr
      subst hlhs; subst hrhs
      have hcmp : value_le m (some a) (some b) = .ok (lek m a b) :=
        value_le_spec (allStr_mono hstr (by simp)) (allStr_mono hstr (by simp))
      have hnd' := List.nodup_cons.mp hnd
      have htnot : t ∉ a :: l' ++ b :: r' := hnd'.1
      have hat : a ≠ t := fun e => htnot (by simp [e])
      have hbt : b ≠ t := fun e => htnot (by simp [e])
      cases hle : lek m a b with
      | true =>
        rw [hle] at hcmp
        rw [merge_loop_left hcmp ht hna hat]
        have hrel1 := relinked_update ht (some a)
        obtain ⟨m2, tn2, hrun, hn2, hseg, hrel⟩ :=
          ih { m with nodes := Function.update m.nodes t (some { tn with next := some a }) }
            l' (b :: r') na.next (some b) h a na
            (lseg_frame (fun c hc => Function.update_noteq
              (fun (e : c = t) => htnot (by simp [← e, hc])) _ _) hl')
            (lseg_frame (fun c hc => Function.update_noteq
              (fun (e : c = t) => htnot (by
                rw [← e]; exact List.mem_append_right _ hc)) _ _)
              (show lseg m.nodes (some b) (b :: r') none from ⟨rfl, nb, hnb, hr'⟩))
            (by simpa using hnd'.2)
            (by simp [Function.update_noteq hat, hna])
            ((relinked_allStr hrel1) (allStr_mono hstr (by intro c hc; simp at hc ⊢; tauto)))
            (by simp) (by simp at hfuel ⊢; omega)
        refine ⟨m2, { tn with next := some a }, hrun, ?_, ?_, ?_⟩
        · rw [hrel.2.2.1 t (by simpa using htnot)]
          simp
        · rw [List.cons_merge_cons_pos _ _ _ hle]
          refine ⟨rfl, tn2, hn2, ?_⟩
          rw [← (relinked_lek hrel1)]; exact hseg
        · exact relinked_trans hrel1 hrel (by simp) (by intro c hc; simp at hc ⊢; tauto)
      | false =>
        rw [hle] at hcmp
        rw [merge_loop_right hcmp ht hnb hbt]
        have hrel1 := relinked_update ht (some b)
        have hnd2 : (b :: (a :: l' ++ r')).Nodup := by
          have h1 := hnd'.2
          have h2 : (a :: l' ++ b :: r').Perm (b :: (a :: l' ++ r')) := List.perm_middle
          exact h2.nodup_iff.mp h1
        obtain ⟨m2, tn2, hrun, hn2, hseg, hrel⟩ :=
          ih { m with nodes := Function.update m.nodes t (some { tn with next := some b }) }
            (a :: l') r' (some a) nb.next h b nb
            (lseg_frame (fun c hc => Function.update_noteq
              (fun (e : c = t) => htnot (by
                rw [← e]; exact List.mem_append_left _ hc)) _ _)
              (show lseg m.nodes (some a) (a :: l') none from ⟨rfl, na, hna, hl'⟩))
            (lseg_frame (fun c hc => Function.update_noteq
              (fun (e : c = t) => htnot (by simp [← e, hc])) _ _) hr')
            hnd2
            (by simp [Function.update_noteq hbt, hnb])
            ((relinked_allStr hrel1) (allStr_mono hstr (by intro c hc; simp at hc ⊢; tauto)))
            (by simp) (by simp at hfuel ⊢; omega)
        refine ⟨m2, { tn with next := some b }, hrun, ?_, ?_, ?_⟩
        · rw [hrel.2.2.1 t (by simp at htnot ⊢; tauto)]
          simp
        · rw [List.cons_merge_cons_neg _ _ _ (by simp [hle])]
          refine ⟨rfl, tn2, hn2, ?_⟩
          rw [← (relinked_lek hrel1)]; exact hseg
        · exact relinked_trans hrel1 hrel (by simp) (by intro c hc; simp at hc ⊢; tauto)


theorem merge_first_left {fuel : Nat} {m : Mem} {a b : Ptr} {na : list_ele_t}
    (hle : value_le m (some a) (some b) = .ok true) (ha : m.nodes a = some na) :
    merge (fuel + 1) m (some a) (some b) =
      (merge_loop fuel m na.next (some b) (some a) (some a) >>= merge_finish) := by
  simp [merge, merge_loop, hle, load_ele, ha, bind, Except.bind]

theorem merge_first_right {fuel : Nat} {m : Mem} {a b : Ptr} {nb : list_ele_t}
    (hle : value_le m (some a) (some b) = .ok false) (hb : m.nodes b = some nb) :
    merge (fuel + 1) m (some a) (some b) =
      (merge_loop fuel m (some a) nb.next (some b) (some b) >>= merge_finish) := by
  simp [merge, merge_loop, hle, load_ele, hb, bind, Except.bind]

/-- The function `merge` on two non-empty chains: it returns the first element
of the list merge and links the elements in the order of the list merge. -/
theorem merge_spec (fuel : Nat) (m : Mem) (l r : List Ptr) (lhs rhs : Option Ptr)
    (hl : lseg m.nodes lhs l none) (hr : lseg m.nodes rhs r none) (hnd : (l ++ r).Nodup)
    (hstr : AllStr m (l ++ r)) (hl0 : l ≠ []) (hr0 : r ≠ [])
    (hfuel : l.length + r.length ≤ fuel) :
    ∃ m2, merge fuel m lhs rhs = .ok (m2, (List.merge l r (lek m)).head?) ∧
      lseg m2.nodes (List.merge l r (lek m)).head? (List.merge l r (lek m)) none ∧
      Relinked m m2 (l ++ r) := by
  match l, r, hl, hr, hnd, hstr, hl0, hr0, hfuel with
  | a :: l1, b :: r1, hl, hr, hnd, hstr, _, _, hfuel =>
    obtain ⟨hlhs, na, hna, hl1⟩ := hl
    obtain ⟨hrhs, nb, hnb, hr1⟩ := hr
    subst hlhs; subst hrhs
    have hcmp : value_le m (some a) (some b) = .ok (lek m a b) :=
      value_le_spec (allStr_mono hstr (by simp)) (allStr_mono hstr (by simp))
    match fuel, hfuel with
    | 0, hfuel => simp at hfuel
    | fuel + 1, hfuel =>
      cases hle : lek m a b with
      | true =>
        rw [hle] at hcmp
        obtain ⟨m2, tn2, hrun, hn2, hseg, hrel⟩ :=
          merge_tail_spec fuel m l1 (b :: r1) na.next (some b) a a na hl1
            ⟨rfl, nb, hnb, hr1⟩ (by simpa using hnd) hna
            (allStr_mono hstr (by intro c hc; simp at hc ⊢; tauto)) (by simp)
            (by simp at hfuel ⊢; omega)
        refine ⟨m2, ?_, ?_, relinked_mono hrel (by intro c hc; simpa using hc)⟩
        · rw [List.cons_merge_cons_pos _ _ _ hle, merge_first_left hcmp hna]
          simpa using hrun
        · rw [List.cons_merge_cons_pos _ _ _ hle]
          exact ⟨rfl, tn2, hn2, hseg⟩
      | false =>
        rw [hle] at hcmp
        have hnd2 : (b :: (a :: l1 ++ r1)).Nodup :=
          (List.perm_middle : (a :: l1 ++ b :: r1).Perm _).nodup_iff.mp hnd
        obtain ⟨m2, tn2, hrun, hn2, hseg, hrel⟩ :=
          merge_tail_spec fuel m (a :: l1) r1 (some a) nb.next b b nb
            ⟨rfl, na, hna, hl1⟩ hr1 hnd2 hnb
            (allStr_mono hstr (by intro c hc; simp at hc ⊢; tauto)) (by simp)
            (by simp at hfuel ⊢; omega)
        refine ⟨m2, ?_, ?_, relinked_mono hrel (by intro c hc; simp at hc ⊢; tauto)⟩
        · rw [List.cons_merge_cons_neg _ _ _ (by simp [hle]), merge_first_right hcmp hnb]
          simpa using hrun
        · rw [List.cons_merge_cons_neg _ _ _ (by simp [hle])]
          exact ⟨rfl, tn2, hn2, hseg⟩

theorem mergeSort_unfold (le : Ptr → Ptr → Bool) (a b : Ptr) (xs : List Ptr) :
    (a :: b :: xs).mergeSort le =
      List.merge (((a :: b :: xs).take ((xs.length + 3) / 2)).mergeSort le)
        (((a :: b :: xs).drop ((xs.length + 3) / 2)).mergeSort le) le := by
  rw [List.mergeSort]
  simp only [List.splitInTwo_fst, List.splitInTwo_snd, List.length_cons]

theorem mergeSort_step {fuel : Nat} {m : Mem} {a b : Ptr} {na : list_ele_t}
    (ha : m.nodes a = some na) (hb : na.next = some b) :
    mergeSort (fuel + 1) m (some a) = (do
      let slow ← split_loop fuel m (some b) (some a)
      let s ← load_ele m slow
      let m1 ← store_next m slow none
      let r1 ← mergeSort fuel m1 (some a)
      let r2 ← mergeSort fuel r1.1 s.next
      merge fuel r2.1 r1.2 r2.2) := by
  simp only [mergeSort, load_ele, ha, hb, bind, Except.bind]
  rfl

/-- The function `mergeSort` on a chain of elements that own strings: it
returns the first element of the sorted list and links the elements in the
order of the list merge sort by their strings, assigning `next` fields of
these elements only. -/
theorem mergeSort_spec : ∀ (fuel : Nat) (m : Mem) (head : Option Ptr) (ps : List Ptr),
    lseg m.nodes head ps none → AllStr m ps → ps.length < fuel →
    ∃ m2, mergeSort fuel m head = .ok (m2, (ps.mergeSort (lek m)).head?) ∧
      lseg m2.nodes (ps.mergeSort (lek m)).head? (ps.mergeSort (lek m)) none ∧
      Relinked m m2 ps := by
  intro fuel
  induction fuel with
  | zero => intro m head ps _ _ h; omega
  | succ fuel ih =>
    intro m head ps hseg hstr hfuel
    match ps, hseg, hstr, hfuel with
    | [], hseg, _, _ =>
      simp only [lseg] at hseg; subst hseg
      exact ⟨m, by simp [mergeSort], by simp [lseg], relinked_refl _ _⟩
    | [a], hseg, _, _ =>
      obtain ⟨hp, na, hna, hrest⟩ := hseg
      simp only [lseg] at hrest
      subst hp
      refine ⟨m, by simp [mergeSort, load_ele, hna, hrest, bind, Except.bind], ?_,
        relinked_refl _ _⟩
      simpa using (show lseg m.nodes (some a) [a] none from ⟨rfl, na, hna, hrest⟩)
    | a :: b :: rest, hseg, hstr, hfuel =>
      have hseg0 := hseg
      obtain ⟨hp, na, hna, hp2, nb, hnb, hrest⟩ := hseg
      subst hp
      have hnd := lseg_nodup hseg0
      simp only [List.length_cons] at hfuel
      -- the walk
      have hwalk := split_loop_spec fuel m (b :: rest) a (b :: rest) (some b) hseg0
        ⟨rfl, nb, hnb, hrest⟩ (Nat.le_refl _) (by simp; omega)
      have hi : (b :: rest).length / 2 < (a :: b :: rest).length := by simp; omega
      rw [List.getElem?_eq_getElem hi] at hwalk
      obtain ⟨ns, hns, hL, hR⟩ := lseg_cut hseg0 _ hi
      have hk : (b :: rest).length / 2 + 1 = (rest.length + 3) / 2 := by simp; omega
      rw [hk] at hL hR
      generalize hsl : (a :: b :: rest)[(b :: rest).length / 2] = sl at hwalk hns hL hR
      have hslmem : sl ∈ a :: b :: rest := hsl ▸ List.getElem_mem _
      generalize hLdef : (a :: b :: rest).take ((rest.length + 3) / 2) = L at hL
      generalize hRdef : (a :: b :: rest).drop ((rest.length + 3) / 2) = R at hR
      have hLR : L ++ R = a :: b :: rest := by rw [← hLdef, ← hRdef, List.take_append_drop]
      have hLlen : L.length = (rest.length + 3) / 2 := by
        rw [← hLdef, List.length_take]; simp; omega
      have hRlen : R.length = (rest.length + 2) / 2 := by
        rw [← hRdef, List.length_drop]; simp; omega
      have hnd' : (L ++ R).Nodup := hLR ▸ hnd
      have hdisj := (List.nodup_append.mp hnd').2.2
      have hLsub : ∀ c ∈ L, c ∈ a :: b :: rest := fun c hc => hLR ▸ List.mem_append_left _ hc
      have hRsub : ∀ c ∈ R, c ∈ a :: b :: rest := fun c hc => hLR ▸ List.mem_append_right _ hc
      -- the cut
      generalize hm1 :
        ({ m with nodes := Function.update m.nodes sl (some { ns with next := none }) } : Mem)
          = m1 at *
      have hrel1 : Relinked m m1 [sl] := hm1 ▸ relinked_update hns none
      have hL1 : lseg m1.nodes (some a) L none := by rw [← hm1]; exact hL
      have hR1 : lseg m1.nodes ns.next R none := by rw [← hm1]; exact hR
      -- the left half
      obtain ⟨m2, hrun2, hseg2, hrel2⟩ := ih m1 (some a) L hL1
        ((relinked_allStr hrel1) (allStr_mono hstr hLsub)) (by omega)
      rw [(relinked_lek hrel1)] at hrun2 hseg2
      have hR2 : lseg m2.nodes ns.next R none :=
        lseg_frame (fun c hc => hrel2.2.2.1 c (fun hcl => hdisj hcl hc)) hR1
      have hrel12 := relinked_trans hrel1 hrel2 (S := a :: b :: rest)
        (by intro c hc; simp at hc; exact hc ▸ hslmem) hLsub
      -- the right half
      obtain ⟨m3, hrun3, hseg3, hrel3⟩ := ih m2 ns.next R hR2
        ((relinked_allStr hrel12) (allStr_mono hstr hRsub)) (by omega)
      rw [(relinked_lek hrel12)] at hrun3 hseg3
      have hL3 : lseg m3.nodes (L.mergeSort (lek m)).head? (L.mergeSort (lek m)) none :=
        lseg_frame (fun c hc => hrel3.2.2.1 c
          (fun hcr => hdisj (List.mem_mergeSort.mp hc) hcr)) hseg2
      have hrel13 := relinked_trans hrel12 hrel3 (S := a :: b :: rest) (fun _ h => h) hRsub
      -- the merge
      have hperm : (L.mergeSort (lek m) ++ R.mergeSort (lek m)).Perm (L ++ R) :=
        (List.mergeSort_perm L _).append (List.mergeSort_perm R _)
      obtain ⟨m4, hrun4, hseg4, hrel4⟩ := merge_spec fuel m3 (L.mergeSort (lek m))
        (R.mergeSort (lek m)) _ _ hL3 hseg3 (hperm.nodup_iff.mpr hnd')
        ((relinked_allStr hrel13) (allStr_mono hstr (fun c hc => hLR ▸ hperm.mem_iff.mp hc)))
        (by intro h; have h2 := @List.length_mergeSort _ (lek m) L
            rw [h, List.length_nil] at h2; omega)
        (by intro h; have h2 := @List.length_mergeSort _ (lek m) R
            rw [h, List.length_nil] at h2; omega)
        (by simp; omega)
      rw [(relinked_lek hrel13)] at hrun4 hseg4
      have hunf := mergeSort_unfold (lek m) a b rest
      rw [hLdef, hRdef] at hunf
      refine ⟨m4, ?_, hunf ▸ hseg4, relinked_trans hrel13 hrel4 (fun _ h => h)
        (fun c hc => hLR ▸ hperm.mem_iff.mp hc)⟩
      rw [mergeSort_step hna hp2, hunf]
      simp [hwalk, load_ele_ok hns, store_next_ok hns, hm1, hrun2, hrun3, hrun4, bind,
        Except.bind]

/-! ## The function `q_sort` -/

theorem load_q_ok {m : Mem} {q : Ptr} {qv : queue_t} (h : m.queues q = some qv) :
    load_q m q = .ok qv := by
  simp [load_q, h]

theorem store_q_ok {m : Mem} {q : Ptr} {qv : queue_t} (h : m.queues q = some qv)
    (v : queue_t) :
    store_q m q v = .ok { m with queues := Function.update m.queues q (some v) } := by
  simp [store_q, h]

/-- The walk to the last element: from a `tail` that points into a
null-terminated chain, the loop of `q_sort` leaves `tail` on the last element
of that chain and changes nothing else. -/
theorem tail_loop_spec : ∀ (fuel : Nat) (m : Mem) (q : Ptr) (qv : queue_t) (t : Ptr)
    (rest : List Ptr), m.queues q = some qv → qv.tail = some t →
    lseg m.nodes (some t) (t :: rest) none → rest.length < fuel →
    tail_loop fuel m q = .ok
      { m with queues := Function.update m.queues q (some { qv with tail := (t :: rest).getLast? }) } := by
  intro fuel
  induction fuel with
  | zero => intro m q qv t rest _ _ _ h; omega
  | succ fuel ih =>
    intro m q qv t rest hq ht hseg hfuel
    obtain ⟨_, tn, htn, hrest⟩ := hseg
    match rest, hrest, hfuel with
    | [], hrest, _ =>
      simp only [lseg] at hrest
      have hqv : ({ qv with tail := [t].getLast? } : queue_t) = qv := by
        cases qv; simp at ht ⊢; exact ht.symm
      rw [hqv, ← hq, Function.update_eq_self]
      simp [tail_loop, load_q, hq, ht, load_ele, htn, hrest, bind, Except.bind]
    | t2 :: rest2, hrest, hfuel =>
      have ht2 : tn.next = some t2 := hrest.1
      have := ih { m with queues := Function.update m.queues q (some { qv with tail := some t2 }) }
        q { qv with tail := some t2 } t2 rest2 (by simp) rfl (ht2 ▸ hrest)
        (by simp at hfuel; omega)
      simp only [tail_loop, load_q, hq, ht, load_ele, htn, ht2, store_q, bind, Except.bind]
      simp only [reduceCtorEq, if_false]
      rw [this]
      simp [List.getLast?_cons_cons]

/-- The `next` fields along a segment are fixed by the segment. -/
theorem lseg_next_eq {n1 n2 : Ptr → Option list_ele_t} {ps : List Ptr} :
    ∀ {p e}, lseg n1 p ps e → lseg n2 p ps e →
      ∀ a ∈ ps, (n1 a).map (·.next) = (n2 a).map (·.next) := by
  induction ps with
  | nil => intro p e _ _ a ha; simp at ha
  | cons b ps ih =>
    intro p e h1 h2 a ha
    obtain ⟨_, x, hx, hr1⟩ := h1
    obtain ⟨_, y, hy, hr2⟩ := h2
    have hxy : x.next = y.next := (lseg_head hr1).trans (lseg_head hr2).symm
    by_cases hab : a = b
    · subst hab; simp [hx, hy, hxy]
    · have ha' : a ∈ ps := by
        rcases List.mem_cons.mp ha with h | h
        · exact absurd h hab
        · exact h
      exact ih hr1 (hxy ▸ hr2) a ha'

/-- Relinking a chain into the order it already has changes no element. -/
theorem relinked_same_chain {m1 m2 : Mem} {ps : List Ptr} {p : Option Ptr}
    (hrel : Relinked m1 m2 ps) (h1 : lseg m1.nodes p ps none) (h2 : lseg m2.nodes p ps none) :
    m2.nodes = m1.nodes := by
  funext a
  by_cases ha : a ∈ ps
  · have hn := lseg_next_eq h2 h1 a ha
    have hv := hrel.2.2.2 a
    cases h2a : m2.nodes a <;> cases h1a : m1.nodes a <;> simp [h1a, h2a] at hn hv ⊢
    rename_i x y
    cases x; cases y; simp at hn hv ⊢; exact ⟨hv, hn⟩
  · exact hrel.2.2.1 a ha

theorem mem_ext {m1 m2 : Mem} (hq : m1.queues = m2.queues) (hn : m1.nodes = m2.nodes)
    (hs : m1.strs = m2.strs) : m1 = m2 := by
  cases m1; cases m2; simp at hq hn hs; simp [hq, hn, hs]

/-- The function `q_sort` on a queue that satisfies the invariant: the elements
are relinked into the order of the list merge sort by their strings, `head`
and `tail` become the first and the last element of that order. -/
theorem q_sort_spec (fuel : Nat) (m : Mem) (q : Ptr) (ps : List Ptr)
    (hinv : QueueInv m q ps) (hfuel : ps.length < fuel) :
    ∃ m1 qv, m.queues q = some qv ∧ Relinked m m1 ps ∧
      lseg m1.nodes (ps.mergeSort (lek m)).head? (ps.mergeSort (lek m)) none ∧
      q_sort fuel m (some q) = .ok
        { m1 with queues := Function.update m.queues q (some ⟨(ps.mergeSort (lek m)).head?, (ps.mergeSort (lek m)).getLast?, qv.size⟩) } := by
  obtain ⟨⟨qv, hq, hseg, htail, hsize⟩, hstr, _⟩ := hinv
  match ps, hseg, htail, hsize, hstr, hfuel with
  | [], hseg, htail, _, _, _ =>
    simp only [lseg] at hseg
    refine ⟨m, qv, hq, relinked_refl _ _, by simp [lseg], ?_⟩
    have hqv : (⟨none, none, qv.size⟩ : queue_t) = qv := by
      cases qv; simp at hseg htail ⊢; exact ⟨hseg.symm, htail.symm⟩
    simp only [List.mergeSort_nil, List.head?_nil, List.getLast?_nil]
    rw [hqv, ← hq, Function.update_eq_self]
    simp [q_sort, load_q, hq, hseg, bind, Except.bind]
  | a :: rest, hseg, htail, _, hstr, hfuel =>
    have hhead : qv.head = some a := hseg.1
    obtain ⟨m1, hrun, hseg1, hrel⟩ := mergeSort_spec fuel m qv.head (a :: rest) hseg hstr hfuel
    refine ⟨m1, qv, hq, hrel, hseg1, ?_⟩
    generalize hsorted : (a :: rest).mergeSort (lek m) = sorted at hrun hseg1 ⊢
    have hq1 : m1.queues q = some qv := by rw [hrel.1]; exact hq
    obtain ⟨t, ht⟩ : ∃ t, (a :: rest).getLast? = some t :=
      ⟨(a :: rest).getLast (by simp), List.getLast?_eq_getLast _ _⟩
    have htmem : t ∈ sorted := by
      rw [← hsorted, List.mem_mergeSort]
      exact List.mem_of_getLast?_eq_some ht
    obtain ⟨pre, post, hsplit⟩ := List.append_of_mem htmem
    have hseg2 : lseg m1.nodes (some t) (t :: post) none := by
      rw [hsplit] at hseg1
      obtain ⟨x, _, hx⟩ := lseg_append.mp hseg1
      have hxt : x = some t := hx.1
      exact hxt ▸ hx
    have hlen : post.length < fuel := by
      have h1 := congrArg List.length hsplit
      have h2 : sorted.length = (a :: rest).length := by rw [← hsorted]; simp
      simp at h1 h2 hfuel
      omega
    have hlast : (t :: post).getLast? = sorted.getLast? := by
      rw [hsplit, List.getLast?_append, List.getLast?_eq_getLast (t :: post) (by simp)]
      rfl
    have hwalk := tail_loop_spec fuel
      { m1 with queues := Function.update m1.queues q (some { qv with head := sorted.head? }) }
      q { qv with head := sorted.head? } t post (by simp) (by simp [htail, ht]) hseg2 hlen
    rw [hhead] at hrun
    simp only [q_sort, load_q, hq, hhead, hrun, hq1, store_q, bind, Except.bind]
    simp only [reduceCtorEq, if_false]
    rw [hwalk, hlast, hrel.1]
    simp

/-- Putting the invariant together again after a relinking. -/
theorem queueInv_relinked {m m1 : Mem} {q : Ptr} {ps ps2 : List Ptr} {sz : Int}
    (hinv : QueueInv m q ps) (hrel : Relinked m m1 ps) (hperm : ps2.Perm ps)
    (hseg : lseg m1.nodes ps2.head? ps2 none) (hsz : sz = (ps.length : Int)) :
    QueueInv
      { m1 with queues := Function.update m.queues q (some ⟨ps2.head?, ps2.getLast?, sz⟩) }
      q ps2 := by
  obtain ⟨_, hstr, hnd⟩ := hinv
  refine ⟨⟨_, Function.update_same _ _ _, hseg, rfl, ?_⟩, ?_, ?_⟩
  · simp [hsz, hperm.length_eq]
  · have h1 : AllStr m1 ps2 := relinked_allStr hrel (allStr_mono hstr (fun a ha => hperm.mem_iff.mp ha))
    exact h1
  · have := relinked_value_ptrs hrel
    simp only at this ⊢
    rw [this]
    exact (hperm.map _).nodup_iff.mpr hnd

/-! ## Claims on `q_sort` -/

theorem inv_banana_apple : QueueInv mem_banana_apple 100 [1, 2] := by
  refine ⟨⟨⟨some 1, some 2, 2⟩, rfl, ?_, rfl, rfl⟩, ?_, ?_⟩
  · exact ⟨rfl, ⟨some 11, some 2⟩, rfl, rfl, ⟨some 12, none⟩, rfl, rfl⟩
  · intro a ha
    simp only [List.mem_cons, List.mem_singleton, List.not_mem_nil, or_false] at ha
    rcases ha with rfl | rfl
    · exact ⟨⟨some 11, some 2⟩, 11, banana ++ [0], rfl, rfl, rfl, by decide⟩
    · exact ⟨⟨some 12, none⟩, 12, apple ++ [0], rfl, rfl, rfl, by decide⟩
  · decide

/-- Reading the strings along a chain gives the strings of its elements. -/
theorem read_strs_eq_values {m : Mem} : ∀ (n : Nat) {p : Option Ptr} {ps : List Ptr},
    lseg m.nodes p ps none → ps.length ≤ n → read_strs m n p = values m ps := by
  intro n
  induction n with
  | zero =>
    intro p ps _ hlen
    have : ps = [] := List.eq_nil_of_length_eq_zero (by omega)
    subst this; simp [read_strs, values]
  | succ n ih =>
    intro p ps hseg hlen
    match ps, hseg, hlen with
    | [], hseg, _ => simp only [lseg] at hseg; subst hseg; simp [read_strs, values]
    | a :: rest, hseg, hlen =>
      obtain ⟨hp, na, hna, hrest⟩ := hseg
      subst hp
      have := ih hrest (by simp at hlen; omega)
      simp [read_strs, hna, this, values]

/-- The strings read from the head of a queue that satisfies the invariant. -/
theorem q_strs_eq_values {m : Mem} {q : Ptr} {ps : List Ptr} (hinv : QueueInv m q ps)
    (n : Nat) (hn : ps.length ≤ n) : q_strs m q n = values m ps := by
  obtain ⟨⟨qv, hq, hseg, _, _⟩, _, _⟩ := hinv
  simp [q_strs, hq, read_strs_eq_values n hseg hn]

/-- The function `q_sort` on a queue that satisfies the invariant, without the
intermediate memory: what the memory after the call keeps and what it sets. -/
theorem q_sort_inv (fuel : Nat) (m : Mem) (q : Ptr) (ps : List Ptr)
    (hinv : QueueInv m q ps) (hfuel : ps.length < fuel) :
    ∃ m2, q_sort fuel m (some q) = .ok m2 ∧ QueueInv m2 q (ps.mergeSort (lek m)) ∧
      node_buf m2 = node_buf m ∧ m2.strs = m.strs ∧
      (∀ a, (m2.nodes a).map (·.value) = (m.nodes a).map (·.value)) ∧
      (∀ a, a ∉ ps → m2.nodes a = m.nodes a) ∧
      m2.queues = Function.update m.queues q
        (some ⟨(ps.mergeSort (lek m)).head?, (ps.mergeSort (lek m)).getLast?, ps.length⟩) := by
  obtain ⟨m1, qv, hq, hrel, hseg, hrun⟩ := q_sort_spec fuel m q ps hinv hfuel
  have hsz : qv.size = (ps.length : Int) := by
    obtain ⟨⟨qv2, hq2, _, _, hsize⟩, _, _⟩ := hinv
    rw [hq] at hq2
    have : qv = qv2 := by simpa using hq2
    rw [this]; exact hsize
  have hinv2 := queueInv_relinked hinv hrel (List.mergeSort_perm ps (lek m)) hseg hsz
  refine ⟨_, hrun, hinv2, ?_, hrel.2.1, hrel.2.2.2, hrel.2.2.1, ?_⟩
  · funext a
    exact relinked_node_buf hrel a
  · simp [hsz]

theorem lek_congr {m1 m2 : Mem} (h : node_buf m2 = node_buf m1) : lek m2 = lek m1 := by
  funext a b; simp [lek, key, h]

theorem node_str_congr {m1 m2 : Mem} (h : node_buf m2 = node_buf m1) :
    node_str m2 = node_str m1 := by
  funext a; simp [node_str, h]

/-- The strings of elements that own strings are their sort keys. -/
theorem values_eq_keys {m : Mem} {ps : List Ptr} (h : AllStr m ps) :
    values m ps = (ps.map (key m)).map some := by
  rw [AllStr_iff_node_buf] at h
  simp only [values, List.map_map]
  apply List.map_congr_left
  intro a ha
  obtain ⟨b, hb, h0⟩ := h a ha
  simp [node_str, key, hb, h0]

/-- C1: on a queue that satisfies the data-model invariant `q_sort` returns, the
queue satisfies the invariant again, and every two adjacent elements `a`, `b`
of the chain from the new head pass the comparison of the code,
`strcmp(a->value, b->value) <= 0`; the strings read from head to tail are
non-decreasing in the byte-wise lexicographic order. -/
theorem q_sort_sorted (fuel : Nat) (m : Mem) (q : Ptr) (ps : List Ptr)
    (hinv : QueueInv m q ps) (hfuel : ps.length < fuel) :
    ∃ m2 ps2, q_sort fuel m (some q) = .ok m2 ∧ QueueInv m2 q ps2 ∧
      (∀ pre a b post, ps2 = pre ++ a :: b :: post →
        value_le m2 (some a) (some b) = .ok true) ∧
      (∃ vs : List (List Nat), q_strs m2 q ps2.length = vs.map some ∧
        vs.Pairwise (fun x y => str_le x y = true)) := by
  obtain ⟨m2, hrun, hinv2, hbuf, _, _, _, _⟩ := q_sort_inv fuel m q ps hinv hfuel
  have hsorted : (ps.mergeSort (lek m)).Pairwise (fun a b => lek m a b = true) :=
    List.sorted_mergeSort (lek_trans m) (lek_total m) ps
  rw [← lek_congr hbuf] at hsorted hinv2
  generalize ps.mergeSort (lek m2) = ps2 at hsorted hinv2
  refine ⟨m2, ps2, hrun, hinv2, ?_, (ps2.map (key m2)), ?_, ?_⟩
  · intro pre a b post hsplit
    have hstr := hinv2.2.1
    rw [hsplit] at hsorted hstr
    have hab : lek m2 a b = true :=
      List.rel_of_pairwise_cons (List.pairwise_append.mp hsorted).2.1 (List.mem_cons_self _ _)
    rw [value_le_spec (allStr_mono hstr (by simp)) (allStr_mono hstr (by simp)), hab]
  · rw [q_strs_eq_values hinv2 _ (Nat.le_refl _), values_eq_keys hinv2.2.1]
  · rw [List.pairwise_map]
    exact hsorted

/-- C1, the scenario of the specification: sorting `["banana", "apple"]` gives
`["apple", "banana"]`. -/
theorem q_sort_sorted_witness :
    (QueueInv mem_banana_apple 100 [1, 2] ∧ [1, 2].length < 3) ∧
    (∃ m2 ps2, q_sort 3 mem_banana_apple (some 100) = .ok m2 ∧ QueueInv m2 100 ps2 ∧
      (∀ pre a b post, ps2 = pre ++ a :: b :: post →
        value_le m2 (some a) (some b) = .ok true) ∧
      (∃ vs : List (List Nat), q_strs m2 100 ps2.length = vs.map some ∧
        vs.Pairwise (fun x y => str_le x y = true))) ∧
    (q_sort 3 mem_banana_apple (some 100)).toOption.map (fun m2 => q_strs m2 100 2) =
      some [some apple, some banana] :=
  ⟨⟨inv_banana_apple, by decide⟩,
    q_sort_sorted 3 mem_banana_apple 100 [1, 2] inv_banana_apple (by decide), by decide⟩

/-- C2: on a queue that satisfies the data-model invariant `q_sort` returns and
the chain from the new head holds the same elements as before, each once (a
permutation of the addresses), with their strings (a permutation of the
strings); no element or buffer is allocated, freed or copied; the `size`
field and the result of `q_size` are what they were, the number of elements
(as an `int`, so the number itself when it is at most `INT_MAX`). -/
theorem q_sort_perm (fuel : Nat) (m : Mem) (q : Ptr) (ps : List Ptr)
    (hinv : QueueInv m q ps) (hfuel : ps.length < fuel) :
    ∃ m2 ps2, q_sort fuel m (some q) = .ok m2 ∧ QueueInv m2 q ps2 ∧
      ps2.Perm ps ∧ (values m2 ps2).Perm (values m ps) ∧
      node_str m2 = node_str m ∧ m2.strs = m.strs ∧
      (∀ a, (m2.nodes a).map (·.value) = (m.nodes a).map (·.value)) ∧
      (m2.queues q).map (·.size) = (m.queues q).map (·.size) ∧
      q_size m2 (some q) = q_size m (some q) ∧
      q_size m2 (some q) = .ok (to_int (ps.length : Int)) ∧
      ((ps.length : Int) ≤ INT_MAX → q_size m2 (some q) = .ok (ps.length : Int)) := by
  obtain ⟨m2, hrun, hinv2, hbuf, hstrs, hval, _, hqs⟩ := q_sort_inv fuel m q ps hinv hfuel
  have hperm := List.mergeSort_perm ps (lek m)
  obtain ⟨⟨qv, hq, hseg, _, hsize⟩, _, _⟩ := hinv
  have hsz1 : q_size m (some q) = .ok (to_int (ps.length : Int)) := by
    cases ps with
    | nil =>
      simp only [lseg] at hseg
      simp [q_size, load_q, hq, hseg, bind, Except.bind, to_int]
    | cons a rest =>
      have hh : qv.head = some a := hseg.1
      simp [q_size, load_q, hq, hh, bind, Except.bind, hsize]
  have hsz2 : q_size m2 (some q) = .ok (to_int (ps.length : Int)) := by
    cases hs : ps.mergeSort (lek m) with
    | nil =>
      have := hperm.length_eq
      rw [hs] at this
      have hnil : ps = [] := List.eq_nil_of_length_eq_zero this.symm
      simp [q_size, load_q, hqs, hs, hnil, bind, Except.bind, to_int]
    | cons a rest =>
      simp [q_size, load_q, hqs, hs, bind, Except.bind]
  refine ⟨m2, _, hrun, hinv2, hperm, ?_, node_str_congr hbuf, hstrs, hval, ?_,
    hsz2.trans hsz1.symm, hsz2, fun hle => ?_⟩
  · simp only [values, node_str_congr hbuf]
    exact hperm.map _
  · simp [hqs, hq, hsize]
  · rw [hsz2, to_int_of_le (Int.natCast_nonneg _) hle]

/-- C2 on the queue `["banana", "apple"]`. -/
theorem q_sort_perm_witness :
    (QueueInv mem_banana_apple 100 [1, 2] ∧ [1, 2].length < 3) ∧
    ∃ m2 ps2, q_sort 3 mem_banana_apple (some 100) = .ok m2 ∧ QueueInv m2 100 ps2 ∧
      ps2.Perm [1, 2] ∧ (values m2 ps2).Perm (values mem_banana_apple [1, 2]) ∧
      node_str m2 = node_str mem_banana_apple ∧ m2.strs = mem_banana_apple.strs ∧
      (∀ a, (m2.nodes a).map (·.value) = (mem_banana_apple.nodes a).map (·.value)) ∧
      (m2.queues 100).map (·.size) = (mem_banana_apple.queues 100).map (·.size) ∧
      q_size m2 (some 100) = q_size mem_banana_apple (some 100) ∧
      q_size m2 (some 100) = .ok (to_int (([1, 2] : List Ptr).length : Int)) ∧
      (((([1, 2] : List Ptr).length : Nat) : Int) ≤ INT_MAX →
        q_size m2 (some 100) = .ok (([1, 2] : List Ptr).length : Int)) :=
  ⟨⟨inv_banana_apple, by decide⟩,
    q_sort_perm 3 mem_banana_apple 100 [1, 2] inv_banana_apple (by decide)⟩

/-- C10: on a queue that satisfies the data-model invariant, a second `q_sort`
right after the first returns and leaves the memory exactly as the first call
left it: the same chain, strings, `head`, `tail` and `size`. -/
theorem q_sort_idempotent (fuel : Nat) (m : Mem) (q : Ptr) (ps : List Ptr)
    (hinv : QueueInv m q ps) (hfuel : ps.length < fuel) :
    ∃ m2, q_sort fuel m (some q) = .ok m2 ∧ q_sort fuel m2 (some q) = .ok m2 := by
  obtain ⟨m2, hrun, hinv2, hbuf, _, _, _, hqs⟩ := q_sort_inv fuel m q ps hinv hfuel
  refine ⟨m2, hrun, ?_⟩
  have hsorted : (ps.mergeSort (lek m)).Pairwise (fun a b => lek m a b = true) :=
    List.sorted_mergeSort (lek_trans m) (lek_total m) ps
  rw [← lek_congr hbuf] at hsorted hinv2 hqs
  have hlen : (ps.mergeSort (lek m2)).length = ps.length := List.length_mergeSort ps
  generalize ps.mergeSort (lek m2) = ps2 at hsorted hinv2 hqs hlen
  obtain ⟨m3, qv, hq, hrel, hseg, hrun2⟩ := q_sort_spec fuel m2 q ps2 hinv2 (by omega)
  rw [List.mergeSort_of_sorted hsorted] at hseg hrun2
  rw [hrun2]
  obtain ⟨⟨qv2, hq2, hseg2, htail2, hsize2⟩, _, _⟩ := hinv2
  have hqv : qv2 = qv := by rw [hq] at hq2; simpa using hq2.symm
  subst hqv
  have hh : qv2.head = ps2.head? := by
    have := lseg_head hseg2
    cases ps2 <;> simpa using this
  congr 1
  apply mem_ext
  · have hrec : (⟨ps2.head?, ps2.getLast?, qv2.size⟩ : queue_t) = qv2 := by
      cases qv2; simp at hh htail2 ⊢; exact ⟨hh.symm, htail2.symm⟩
    show Function.update m2.queues q _ = _
    rw [hrec, ← hq, Function.update_eq_self]
  · show m3.nodes = m2.nodes
    exact relinked_same_chain hrel (hh ▸ hseg2) hseg
  · exact hrel.2.1

/-- C10 on the queue `["banana", "apple"]`. -/
theorem q_sort_idempotent_witness :
    (QueueInv mem_banana_apple 100 [1, 2] ∧ [1, 2].length < 3) ∧
    ∃ m2, q_sort 3 mem_banana_apple (some 100) = .ok m2 ∧ q_sort 3 m2 (some 100) = .ok m2 :=
  ⟨⟨inv_banana_apple, by decide⟩,
    q_sort_idempotent 3 mem_banana_apple 100 [1, 2] inv_banana_apple (by decide)⟩

/-! ## The function `q_reverse` -/

/-- The loop of `q_reverse`: with `r` the elements from `next` on, it returns
the last element of `c :: r` as `curr` and leaves the elements of `r` linked
backwards, down to `c`; the link of `c` is not assigned. -/
theorem reverse_loop_spec : ∀ (fuel : Nat) (m : Mem) (c : Ptr) (r : List Ptr)
    (next : Option Ptr), lseg m.nodes next r none → c ∉ r → r.length < fuel →
    ∃ m2, reverse_loop fuel m (some c) next = .ok (m2, (c :: r).getLast?) ∧
      lseg m2.nodes (c :: r).getLast? r.reverse (some c) ∧ Relinked m m2 r := by
  intro fuel
  induction fuel with
  | zero => intro m c r next _ _ h; omega
  | succ fuel ih =>
    intro m c r next hseg hc hfuel
    match r, hseg, hc, hfuel with
    | [], hseg, _, _ =>
      simp only [lseg] at hseg; subst hseg
      exact ⟨m, by simp [reverse_loop], by simp [lseg], relinked_refl _ _⟩
    | x :: r2, hseg, hc, hfuel =>
      have hnd := lseg_nodup hseg
      obtain ⟨hp, nx, hnx, hrest⟩ := hseg
      subst hp
      have hx : x ∉ r2 := (List.nodup_cons.mp hnd).1
      have hrel1 := relinked_update hnx (some c)
      obtain ⟨m2, hrun, hseg2, hrel2⟩ :=
        ih { m with nodes := Function.update m.nodes x (some { nx with next := some c }) }
          x r2 nx.next
          (lseg_frame (fun a ha => Function.update_noteq
            (fun (e : a = x) => hx (e ▸ ha)) _ _) hrest)
          hx (by simp at hfuel; omega)
      refine ⟨m2, ?_, ?_, relinked_trans hrel1 hrel2 (by simp) (by intro a ha; simp [ha])⟩
      · simp only [reverse_loop, load_ele, hnx, store_next, bind, Except.bind]
        rw [hrun, List.getLast?_cons_cons]
      · rw [List.getLast?_cons_cons, List.reverse_cons]
        refine lseg_append.mpr ⟨some x, hseg2, rfl, { nx with next := some c }, ?_, rfl⟩
        rw [hrel2.2.2.1 x hx]
        simp

/-- The function `q_reverse` on a queue that satisfies the invariant: the
elements are relinked into the reverse order, `head` and `tail` become the
first and the last element of that order. -/
theorem q_reverse_spec (fuel : Nat) (m : Mem) (q : Ptr) (ps : List Ptr)
    (hinv : QueueInv m q ps) (hfuel : ps.length ≤ fuel) :
    ∃ m1 qv, m.queues q = some qv ∧ Relinked m m1 ps ∧
      lseg m1.nodes ps.reverse.head? ps.reverse none ∧
      q_reverse fuel m (some q) = .ok
        { m1 with queues := Function.update m.queues q (some ⟨ps.reverse.head?, ps.reverse.getLast?, qv.size⟩) } := by
  obtain ⟨⟨qv, hq, hseg, htail, hsize⟩, hstr, _⟩ := hinv
  match ps, hseg, htail, hsize, hstr, hfuel with
  | [], hseg, htail, hsize, _, _ =>
    simp only [lseg] at hseg
    refine ⟨m, qv, hq, relinked_refl _ _, by simp [lseg], ?_⟩
    have hqv : (⟨none, none, qv.size⟩ : queue_t) = qv := by
      cases qv; simp at hseg htail ⊢; exact ⟨hseg.symm, htail.symm⟩
    have hz : qv.size = 0 := by simpa using hsize
    simp only [List.reverse_nil, List.head?_nil, List.getLast?_nil]
    rw [hqv, ← hq, Function.update_eq_self]
    simp [q_reverse, load_q, hq, hz, bind, Except.bind]
  | c :: r, hseg, htail, hsize, _, hfuel =>
    have hnd := lseg_nodup hseg
    obtain ⟨hhead, nc, hnc, hrest⟩ := hseg
    have hc : c ∉ r := (List.nodup_cons.mp hnd).1
    have hnz : qv.size ≠ 0 := by
      rw [hsize]; simp only [List.length_cons]; omega
    obtain ⟨m2, hrun, hseg2, hrel2⟩ := reverse_loop_spec fuel
      { m with queues := Function.update m.queues q (some { qv with tail := qv.head }) }
      c r nc.next hrest hc (by simp at hfuel; omega)
    have hnc2 : m2.nodes c = some nc := by rw [hrel2.2.2.1 c hc]; exact hnc
    have hq2 : m2.queues q = some { qv with tail := qv.head } := by
      rw [hrel2.1]; simp
    refine ⟨{ queues := m.queues,
              nodes := Function.update m2.nodes c (some { nc with next := none }),
              strs := m2.strs }, qv, hq, ?_, ?_, ?_⟩
    · have h1 : Relinked m { m2 with queues := m.queues } (c :: r) :=
        ⟨rfl, hrel2.2.1, fun a ha => hrel2.2.2.1 a (fun h => ha (List.mem_cons_of_mem _ h)),
          hrel2.2.2.2⟩
      have h2 := relinked_update (m := { m2 with queues := m.queues }) hnc2 none
      exact relinked_trans h1 h2 (fun _ h => h) (by intro a ha; simp at ha; simp [ha])
    · have hh : (c :: r).reverse.head? = (c :: r).getLast? := List.head?_reverse _
      rw [hh, List.reverse_cons]
      refine lseg_append.mpr ⟨some c, lseg_frame ?_ hseg2, rfl, _, Function.update_same _ _ _,
        rfl⟩
      intro a ha
      exact Function.update_noteq (fun (e : a = c) => hc (by simpa [e] using ha)) _ _
    · rw [List.head?_reverse, List.getLast?_reverse]
      rw [hhead] at hrun hq2
      have hq3 := hrel2.1
      rw [hhead] at hq3
      simp only [q_reverse, load_q, hq, hnz, hhead, load_ele, hnc, store_q, hrun, hq2,
        store_next, hnc2, bind, Except.bind]
      simp [hq3]

/-- The last element of a null-terminated chain has no successor. -/
theorem lseg_last_next {nodes : Ptr → Option list_ele_t} {p : Option Ptr} {l : List Ptr}
    {t : Ptr} (h : lseg nodes p (l ++ [t]) none) : (nodes t).map (·.next) = some none := by
  obtain ⟨x, _, _, n, hn, hnone⟩ := lseg_append.mp h
  simp only [lseg] at hnone
  simp [hn, hnone]

/-- The record of a queue that satisfies the invariant. -/
theorem queueInv_record {m : Mem} {q : Ptr} {ps : List Ptr} (hinv : QueueInv m q ps) :
    m.queues q = some ⟨ps.head?, ps.getLast?, ps.length⟩ := by
  obtain ⟨⟨qv, hq, hseg, htail, hsize⟩, _, _⟩ := hinv
  have hh : qv.head = ps.head? := by
    have := lseg_head hseg
    cases ps <;> simpa using this
  rw [hq]; cases qv; simp at hh htail hsize ⊢; exact ⟨hh, htail, hsize⟩

/-- C3: on a queue that satisfies the data-model invariant `q_reverse` returns;
the chain from the new head holds the elements in reverse order, so the
strings read from the head are the old ones reversed; the new `head` is the old
`tail`, the new `tail` is the old `head`, an element whose `next` is `NULL`;
`size` is unchanged.  With at most one element the memory is left as it was,
and so it is for a `NULL` queue. -/
theorem q_reverse_correct (fuel : Nat) (m : Mem) (q : Ptr) (ps : List Ptr)
    (hinv : QueueInv m q ps) (hfuel : ps.length ≤ fuel) :
    ∃ m2 qv, m.queues q = some qv ∧ q_reverse fuel m (some q) = .ok m2 ∧
      QueueInv m2 q ps.reverse ∧
      values m2 ps.reverse = (values m ps).reverse ∧
      q_strs m2 q ps.length = (q_strs m q ps.length).reverse ∧
      m2.queues q = some ⟨qv.tail, qv.head, qv.size⟩ ∧
      (∀ t, qv.head = some t → (m2.nodes t).map (·.next) = some none) ∧
      (ps.length ≤ 1 → m2 = m) ∧
      q_reverse fuel m none = .ok m := by
  obtain ⟨m1, qv, hq, hrel, hseg, hrun⟩ := q_reverse_spec fuel m q ps hinv hfuel
  have hrec := queueInv_record hinv
  have hqv : qv = ⟨ps.head?, ps.getLast?, ps.length⟩ := by
    rw [hq] at hrec; simpa using hrec
  have hinv2 := queueInv_relinked hinv hrel (List.reverse_perm ps) hseg
    (show qv.size = (ps.length : Int) by rw [hqv])
  have hvals : values
      { m1 with queues := Function.update m.queues q (some ⟨ps.reverse.head?, ps.reverse.getLast?, qv.size⟩) }
      ps.reverse = (values m ps).reverse := by
    have h1 : node_str m1 = node_str m := relinked_node_str hrel
    show ps.reverse.map (node_str m1) = (ps.map (node_str m)).reverse
    rw [h1, List.map_reverse]
  refine ⟨_, qv, hq, hrun, hinv2, hvals, ?_, ?_, ?_, ?_, rfl⟩
  · rw [q_strs_eq_values hinv _ (Nat.le_refl _), ← hvals,
      q_strs_eq_values hinv2 _ (by simp)]
  · simp [hqv]
  · intro t ht
    have ht2 : ps.head? = some t := by rw [hqv] at ht; exact ht
    match ps, hinv2, ht2 with
    | c :: r, hinv2, ht2 =>
      have hct : c = t := by simpa using ht2
      subst hct
      obtain ⟨⟨_, _, hseg2, _, _⟩, _, _⟩ := hinv2
      rw [List.reverse_cons] at hseg2
      exact lseg_last_next hseg2
  · intro hlen
    have hrev : ps.reverse = ps := by
      match ps, hlen with
      | [], _ => rfl
      | [_], _ => rfl
      | _ :: _ :: _, hlen => simp at hlen
    rw [hrev] at hseg
    obtain ⟨⟨qv2, hq2, hseg0, _, _⟩, _, _⟩ := hinv
    have hh : qv2.head = ps.head? := by
      rw [hq] at hq2
      have : qv = qv2 := by simpa using hq2
      rw [← this, hqv]
    apply mem_ext
    · show Function.update m.queues q _ = _
      have hrecq : (⟨ps.head?, ps.getLast?, qv.size⟩ : queue_t) = qv := by rw [hqv]
      rw [hrev, hrecq, ← hq, Function.update_eq_self]
    · show m1.nodes = m.nodes
      exact relinked_same_chain hrel (hh ▸ hseg0) hseg
    · exact hrel.2.1

/-- C3 on the queue `["banana", "apple"]`: reversed it reads
`["apple", "banana"]`. -/
theorem q_reverse_correct_witness :
    (QueueInv mem_banana_apple 100 [1, 2] ∧ [1, 2].length ≤ 2) ∧
    (∃ m2 qv, mem_banana_apple.queues 100 = some qv ∧
      q_reverse 2 mem_banana_apple (some 100) = .ok m2 ∧
      QueueInv m2 100 [1, 2].reverse ∧
      values m2 [1, 2].reverse = (values mem_banana_apple [1, 2]).reverse ∧
      q_strs m2 100 [1, 2].length = (q_strs mem_banana_apple 100 [1, 2].length).reverse ∧
      m2.queues 100 = some ⟨qv.tail, qv.head, qv.size⟩ ∧
      (∀ t, qv.head = some t → (m2.nodes t).map (·.next) = some none) ∧
      ([1, 2].length ≤ 1 → m2 = mem_banana_apple) ∧
      q_reverse 2 mem_banana_apple none = .ok mem_banana_apple) ∧
    (q_reverse 2 mem_banana_apple (some 100)).toOption.map (fun m2 => q_strs m2 100 2) =
      some [some apple, some banana] :=
  ⟨⟨inv_banana_apple, by decide⟩,
    q_reverse_correct 2 mem_banana_apple 100 [1, 2] inv_banana_apple (by decide), by decide⟩

/-- C9: on a queue that satisfies the data-model invariant (empty, one element
or many) a second `q_reverse` right after the first returns the memory as it
was before the first: the same chain, strings, `head`, `tail` and `size`; on a
`NULL` queue each call leaves the memory as it is. -/
theorem q_reverse_involution (fuel : Nat) (m : Mem) (q : Ptr) (ps : List Ptr)
    (hinv : QueueInv m q ps) (hfuel : ps.length ≤ fuel) :
    (∃ m2, q_reverse fuel m (some q) = .ok m2 ∧ q_reverse fuel m2 (some q) = .ok m) ∧
    q_reverse fuel m none = .ok m := by
  refine ⟨?_, rfl⟩
  obtain ⟨m1, qv, hq, hrel, hseg, hrun⟩ := q_reverse_spec fuel m q ps hinv hfuel
  have hrec := queueInv_record hinv
  have hqv : qv = ⟨ps.head?, ps.getLast?, ps.length⟩ := by
    rw [hq] at hrec; simpa using hrec
  have hinv2 := queueInv_relinked hinv hrel (List.reverse_perm ps) hseg
    (show qv.size = (ps.length : Int) by rw [hqv])
  refine ⟨_, hrun, ?_⟩
  obtain ⟨m3, qv3, hq3, hrel3, hseg3, hrun3⟩ := q_reverse_spec fuel _ q ps.reverse hinv2
    (by simpa using hfuel)
  rw [hrun3]
  rw [List.reverse_reverse] at hseg3 ⊢
  obtain ⟨⟨qv0, hq0, hseg0, _, _⟩, _, _⟩ := hinv
  have hh : qv0.head = ps.head? := by
    rw [hq] at hq0
    have : qv = qv0 := by simpa using hq0
    rw [← this, hqv]
  have hsz3 : qv3.size = qv.size := by
    have : (some (⟨ps.reverse.head?, ps.reverse.getLast?, qv.size⟩ : queue_t)) = some qv3 := by
      rw [← hq3]; simp
    have := Option.some.inj this
    rw [← this]
  have hrel13 : Relinked m { m3 with queues := m.queues } ps :=
    relinked_trans hrel
      (show Relinked m1 { m3 with queues := m.queues } ps.reverse from
        ⟨hrel.1.symm, hrel3.2.1, hrel3.2.2.1, hrel3.2.2.2⟩)
      (fun _ h => h) (fun a ha => List.mem_reverse.mp ha)
  congr 1
  apply mem_ext
  · show Function.update (Function.update m.queues q _) q _ = _
    rw [Function.update_idem, hsz3]
    have : (⟨ps.head?, ps.getLast?, qv.size⟩ : queue_t) = qv := by rw [hqv]
    rw [this, ← hq, Function.update_eq_self]
  · have hseg4 : lseg ({ m3 with queues := m.queues } : Mem).nodes ps.head? ps none := hseg3
    have h5 := relinked_same_chain hrel13 (hh ▸ hseg0) hseg4
    exact h5
  · show m3.strs = m.strs
    exact hrel13.2.1

/-- C9 on the queue `["banana", "apple"]`. -/
theorem q_reverse_involution_witness :
    (QueueInv mem_banana_apple 100 [1, 2] ∧ [1, 2].length ≤ 2) ∧
    (∃ m2, q_reverse 2 mem_banana_apple (some 100) = .ok m2 ∧
      q_reverse 2 m2 (some 100) = .ok mem_banana_apple) ∧
    q_reverse 2 mem_banana_apple none = .ok mem_banana_apple :=
  ⟨⟨inv_banana_apple, by decide⟩,
    q_reverse_involution 2 mem_banana_apple 100 [1, 2] inv_banana_apple (by decide)⟩

/-! ## Insertion and removal -/

/-- The memory after a successful `q_insert_head`. -/
theorem q_insert_head_run {m : Mem} {q : Ptr} {qv : queue_t} (hq : m.queues q = some qv)
    {s : List Nat} (hs : 0 ∈ s) (newh tmp : Ptr) (j1 : list_ele_t) (j2 : Nat → Nat) :
    q_insert_head m (some q) s (some newh) (some tmp) j1 j2 = .ok
      ({ queues := Function.update m.queues q
          (some ⟨some newh, if qv.size = 0 then some newh else qv.tail, qv.size + 1⟩),
         nodes := Function.update m.nodes newh (some ⟨some tmp, qv.head⟩),
         strs := Function.update m.strs tmp (some (cstr s ++ [0])) }, true) := by
  have hcpy := strncpy_full ((List.range ((cstr s).length + 1)).map j2) s hs (by simp)
  rw [List.drop_eq_nil_of_le (by simp)] at hcpy
  by_cases hz : qv.size = 0 <;>
  simp [q_insert_head, alloc_ele, alloc_str, strlen_spec s hs, store_value, load_ele, load_str,
    hcpy, store_str, load_q, hq, store_next, store_q, hz, bind, Except.bind]

/-- The memory after a successful `q_insert_tail` on an empty queue. -/
theorem q_insert_tail_run_empty {m : Mem} {q : Ptr} {qv : queue_t} (hq : m.queues q = some qv)
    (hz : qv.size = 0) {s : List Nat} (hs : 0 ∈ s) (newh tmp : Ptr) (j1 : list_ele_t)
    (j2 : Nat → Nat) :
    q_insert_tail m (some q) s (some newh) (some tmp) j1 j2 = .ok
      ({ queues := Function.update m.queues q (some ⟨some newh, some newh, qv.size + 1⟩),
         nodes := Function.update m.nodes newh (some ⟨some tmp, none⟩),
         strs := Function.update m.strs tmp (some (cstr s ++ [0])) }, true) := by
  have hcpy := strncpy_full ((List.range ((cstr s).length + 1)).map j2) s hs (by simp)
  rw [List.drop_eq_nil_of_le (by simp)] at hcpy
  simp [q_insert_tail, alloc_ele, alloc_str, strlen_spec s hs, store_value, load_ele, load_str,
    hcpy, store_str, load_q, hq, store_next, store_q, hz, bind, Except.bind]

/-- The memory after a successful `q_insert_tail` on a queue with elements:
the new element is linked behind the element `tail` points to; no other
element is read or written. -/
theorem q_insert_tail_run {m : Mem} {q : Ptr} {qv : queue_t} (hq : m.queues q = some qv)
    (hz : qv.size ≠ 0) {t : Ptr} {tn : list_ele_t} (ht : qv.tail = some t)
    (htn : m.nodes t = some tn) {s : List Nat} (hs : 0 ∈ s) (newh tmp : Ptr)
    (j1 : list_ele_t) (j2 : Nat → Nat)
    (hne : t ≠ newh) :
    q_insert_tail m (some q) s (some newh) (some tmp) j1 j2 = .ok
      ({ queues := Function.update m.queues q (some ⟨qv.head, some newh, qv.size + 1⟩),
         nodes := Function.update (Function.update m.nodes newh (some ⟨some tmp, none⟩)) t
          (some { tn with next := some newh }),
         strs := Function.update m.strs tmp (some (cstr s ++ [0])) }, true) := by
  have hcpy := strncpy_full ((List.range ((cstr s).length + 1)).map j2) s hs (by simp)
  rw [List.drop_eq_nil_of_le (by simp)] at hcpy
  simp [q_insert_tail, alloc_ele, alloc_str, strlen_spec s hs, store_value, load_ele, load_str,
    hcpy, store_str, load_q, hq, store_next, store_q, hz, ht, Function.update_noteq hne, htn,
    bind, Except.bind]

/-- What `q_remove_head` writes to the caller's buffer: the first
`min n (bufsize - 1)` bytes of the string, then a terminator. -/
theorem remove_copy {v buf : List Nat} {bufsize : Nat} (h1 : 1 ≤ bufsize)
    (h2 : bufsize < SIZE_RANGE) (h3 : bufsize ≤ buf.length) :
    (if bufsize > (cstr v).length then (do
        let buf ← strncpy buf v (cstr v).length
        store_byte buf (cstr v).length 0)
      else (do
        let buf ← strncpy buf v ((bufsize + SIZE_RANGE - 1) % SIZE_RANGE)
        store_byte buf ((bufsize + SIZE_RANGE - 1) % SIZE_RANGE) 0)) =
    .ok ((cstr v).take (min (cstr v).length (bufsize - 1)) ++
      0 :: buf.drop (min (cstr v).length (bufsize - 1) + 1)) := by
  have hk : (bufsize + SIZE_RANGE - 1) % SIZE_RANGE = bufsize - 1 := by
    generalize SIZE_RANGE = R at h2
    have : bufsize + R - 1 = (bufsize - 1) + R := by omega
    rw [this, Nat.add_mod_right, Nat.mod_eq_of_lt (by omega)]
  have hset : ∀ (k : Nat), k ≤ (cstr v).length → k < buf.length →
      (do let b ← strncpy buf v k; store_byte b k 0 : Exec (List Nat)) =
        .ok ((cstr v).take k ++ 0 :: buf.drop (k + 1)) := by
    intro k hk1 hk2
    rw [strncpy_short buf v k hk1 (by omega)]
    have hlen : ((cstr v).take k).length = k := by simp; omega
    have hst : store_byte ((cstr v).take k ++ buf.drop k) k 0 =
        .ok ((cstr v).take k ++ 0 :: buf.drop (k + 1)) := by
      unfold store_byte
      rw [if_pos (by rw [List.length_append, hlen, List.length_drop]; omega),
        List.set_append_right _ _ (by omega), hlen, Nat.sub_self,
        List.drop_eq_getElem_cons hk2, List.set_cons_zero]
    simpa [bind, Except.bind] using hst
  by_cases hgt : bufsize > (cstr v).length
  · rw [if_pos hgt, hset _ (Nat.le_refl _) (by omega), Nat.min_eq_left (by omega)]
  · rw [if_neg hgt, hk, hset _ (by omega) (by omega), Nat.min_eq_right (by omega)]

/-- The memory and the buffer after a successful `q_remove_head`. -/
theorem q_remove_head_run {m : Mem} {q : Ptr} {qv : queue_t} (hq : m.queues q = some qv)
    {a : Ptr} (hh : qv.head = some a) {na : list_ele_t} (hna : m.nodes a = some na)
    {v : Ptr} (hv : na.value = some v) {b : List Nat} (hb : m.strs v = some b) (h0 : 0 ∈ b)
    {buf : List Nat} {bufsize : Nat} (h1 : 1 ≤ bufsize) (h2 : bufsize < SIZE_RANGE)
    (h3 : bufsize ≤ buf.length) :
    q_remove_head m (some q) (some buf) bufsize = .ok
      ({ queues := Function.update m.queues q
          (some ⟨na.next, if qv.size - 1 = 0 then none else qv.tail, qv.size - 1⟩),
         nodes := Function.update m.nodes a none,
         strs := Function.update m.strs v none },
       some ((cstr b).take (min (cstr b).length (bufsize - 1)) ++
          0 :: buf.drop (min (cstr b).length (bufsize - 1) + 1)), true) := by
  have hcopy := remove_copy (v := b) h1 h2 h3
  simp only [bind, Except.bind] at hcopy
  by_cases hz : qv.size - 1 = 0 <;>
  simp [q_remove_head, load_q, hq, hh, load_ele, hna, load_str, hv, hb, strlen_spec b h0, hcopy,
    store_q, free_str, free_ele, hz, bind, Except.bind]

theorem node_buf_frame {m m2 : Mem} {a : Ptr} (hn : m2.nodes a = m.nodes a)
    (hs : ∀ n v, m.nodes a = some n → n.value = some v → m2.strs v = m.strs v) :
    node_buf m2 a = node_buf m a := by
  unfold node_buf
  rw [hn]
  cases hna : m.nodes a with
  | none => rfl
  | some n =>
    cases hv : n.value with
    | none => simp only [hv]
    | some v => simp only [hv]; exact hs n v hna hv

theorem allStr_frame {m m2 : Mem} {ps : List Ptr} (h : AllStr m ps)
    (hb : ∀ a ∈ ps, node_buf m2 a = node_buf m a) : AllStr m2 ps := by
  rw [AllStr_iff_node_buf] at h ⊢
  intro a ha
  rw [hb a ha]; exact h a ha

theorem values_frame {m m2 : Mem} {ps : List Ptr}
    (hb : ∀ a ∈ ps, node_buf m2 a = node_buf m a) : values m2 ps = values m ps := by
  unfold values
  apply List.map_congr_left
  intro a ha
  simp [node_str, hb a ha]

/-- An address that is not allocated is none of the elements, and a buffer
that is not allocated is none of their buffers. -/
theorem allStr_fresh {m : Mem} {ps : List Ptr} (h : AllStr m ps) {newh tmp : Ptr}
    (hn : m.nodes newh = none) (ht : m.strs tmp = none) :
    newh ∉ ps ∧ ∀ a ∈ ps, (m.nodes a).bind (·.value) ≠ some tmp := by
  constructor
  · intro hmem
    obtain ⟨n, _, _, hna, _⟩ := h newh hmem
    rw [hn] at hna; cases hna
  · intro a ha heq
    obtain ⟨n, v, b, hna, hv, hb, _⟩ := h a ha
    rw [hna] at heq
    simp only [Option.bind, hv] at heq
    have : v = tmp := by simpa using heq
    rw [this, ht] at hb; cases hb

/-- The buffers of the old elements after an insertion. -/
theorem insert_frame {m : Mem} {ps : List Ptr} (h : AllStr m ps) {newh tmp : Ptr}
    (hn : m.nodes newh = none) (ht : m.strs tmp = none) (qs : Ptr → Option queue_t)
    (e : list_ele_t) (b : List Nat) :
    ∀ a ∈ ps, node_buf ⟨qs, Function.update m.nodes newh (some e),
      Function.update m.strs tmp (some b)⟩ a = node_buf m a := by
  intro a ha
  obtain ⟨hnot, hval⟩ := allStr_fresh h hn ht
  have hane : a ≠ newh := fun e => hnot (e ▸ ha)
  apply node_buf_frame
  · exact Function.update_noteq hane _ _
  · intro n v hna hv
    have hvne : v ≠ tmp := by
      intro e
      apply hval a ha
      simp [hna, hv, e]
    exact Function.update_noteq hvne _ _

/-- The invariant after a successful `q_insert_head`. -/
theorem queueInv_insert_head {m : Mem} {q : Ptr} {ps : List Ptr} (hinv : QueueInv m q ps)
    {newh tmp : Ptr} (hn : m.nodes newh = none) (ht : m.strs tmp = none) {b : List Nat}
    (h0 : 0 ∈ b) :
    QueueInv
      { queues := Function.update m.queues q (some ⟨some newh, if ps = [] then some newh else ps.getLast?, ps.length + 1⟩),
        nodes := Function.update m.nodes newh (some ⟨some tmp, ps.head?⟩),
        strs := Function.update m.strs tmp (some b) }
      q (newh :: ps) := by
  have hrec := queueInv_record hinv
  obtain ⟨⟨qv, hq, hseg, htail, hsize⟩, hstr, hnd⟩ := hinv
  obtain ⟨hnot, hval⟩ := allStr_fresh hstr hn ht
  have hfr := insert_frame hstr hn ht
    (Function.update m.queues q (some ⟨some newh, if ps = [] then some newh else ps.getLast?, ps.length + 1⟩))
    ⟨some tmp, ps.head?⟩ b
  have hqv : qv = ⟨ps.head?, ps.getLast?, ps.length⟩ := by
    rw [hq] at hrec; simpa using hrec
  refine ⟨⟨_, Function.update_same _ _ _, ⟨rfl, _, Function.update_same _ _ _, ?_⟩, ?_, ?_⟩,
    ?_, ?_⟩
  · refine lseg_frame ?_ (show lseg m.nodes ps.head? ps none by rw [hqv] at hseg; exact hseg)
    intro a ha
    exact Function.update_noteq (fun (e : a = newh) => hnot (e ▸ ha)) _ _
  · cases ps with
    | nil => simp
    | cons a r => simp [List.getLast?_cons_cons]
  · simp
  · intro a ha
    rcases List.mem_cons.mp ha with rfl | ha
    · exact ⟨_, tmp, b, Function.update_same _ _ _, rfl, Function.update_same _ _ _, h0⟩
    · exact allStr_frame hstr hfr a ha
  · rw [List.map_cons, List.nodup_cons]
    have hmap : ps.map (fun a => (Function.update m.nodes newh (some ⟨some tmp, ps.head?⟩) a).bind (·.value)) =
        ps.map (fun a => (m.nodes a).bind (·.value)) := by
      apply List.map_congr_left
      intro a ha
      have hane : a ≠ newh := fun e => hnot (e ▸ ha)
      simp [Function.update_noteq hane]
    constructor
    · show _ ∉ ps.map (fun a => (Function.update m.nodes newh (some ⟨some tmp, ps.head?⟩) a).bind (·.value))
      rw [hmap]
      simp only [Function.update_same, Option.bind]
      intro hmem
      obtain ⟨a, ha, heq⟩ := List.mem_map.mp hmem
      exact hval a ha heq
    · show (ps.map (fun a => (Function.update m.nodes newh (some ⟨some tmp, ps.head?⟩) a).bind (·.value))).Nodup
      rw [hmap]; exact hnd

/-- The invariant after a successful `q_insert_tail`; `tn` is the element
`tail` points to when there is one. -/
theorem queueInv_insert_tail {m : Mem} {q : Ptr} {ps : List Ptr} (hinv : QueueInv m q ps)
    {newh tmp : Ptr} (hn : m.nodes newh = none) (ht : m.strs tmp = none) {b : List Nat}
    (h0 : 0 ∈ b) (nodes2 : Ptr → Option list_ele_t)
    (hnew : nodes2 newh = some ⟨some tmp, none⟩)
    (hlast : ∀ t, ps.getLast? = some t →
      ∃ tn, m.nodes t = some tn ∧ nodes2 t = some { tn with next := some newh })
    (hother : ∀ a, a ≠ newh → ps.getLast? ≠ some a → nodes2 a = m.nodes a) :
    QueueInv
      { queues := Function.update m.queues q (some ⟨if ps = [] then some newh else ps.head?, some newh, ps.length + 1⟩),
        nodes := nodes2,
        strs := Function.update m.strs tmp (some b) }
      q (ps ++ [newh]) := by
  have hnd0 := lseg_nodup (hinv.1.choose_spec.2.1)
  obtain ⟨⟨qv, hq, hseg, htail, hsize⟩, hstr, hnd⟩ := hinv
  obtain ⟨hnot, hval⟩ := allStr_fresh hstr hn ht
  have hbuf : ∀ a ∈ ps, node_buf ⟨Function.update m.queues q (some ⟨if ps = [] then some newh else ps.head?, some newh, ps.length + 1⟩),
      nodes2, Function.update m.strs tmp (some b)⟩ a = node_buf m a := by
    intro a ha
    have hane : a ≠ newh := fun e => hnot (e ▸ ha)
    obtain ⟨n, v, b2, hna, hv, hb2, _⟩ := hstr a ha
    have hvne : v ≠ tmp := by
      intro e
      apply hval a ha
      simp [hna, hv, e]
    by_cases hal : ps.getLast? = some a
    · obtain ⟨tn, htn, hn2⟩ := hlast a hal
      rw [hna] at htn
      have : n = tn := by simpa using htn
      subst this
      simp [node_buf, hn2, hna, hv, Function.update_noteq hvne]
    · simp [node_buf, hother a hane hal, hna, hv, Function.update_noteq hvne]
  have hvalptr : ∀ a ∈ ps, (nodes2 a).bind (·.value) = (m.nodes a).bind (·.value) := by
    intro a ha
    have hane : a ≠ newh := fun e => hnot (e ▸ ha)
    by_cases hal : ps.getLast? = some a
    · obtain ⟨tn, htn, hn2⟩ := hlast a hal
      simp [hn2, htn]
    · rw [hother a hane hal]
  refine ⟨⟨_, Function.update_same _ _ _, ?_, ?_, ?_⟩, ?_, ?_⟩
  · show lseg nodes2 _ (ps ++ [newh]) none
    rcases List.eq_nil_or_concat ps with hnil | ⟨pre, t, hcat⟩
    · subst hnil
      exact ⟨rfl, _, hnew, rfl⟩
    · rw [List.concat_eq_append] at hcat
      subst hcat
      have hne : pre ++ [t] ≠ [] := by simp
      rw [if_neg hne]
      obtain ⟨tn, htn, hn2⟩ := hlast t (List.getLast?_concat pre)
      have hh : qv.head = (pre ++ [t]).head? := by
        have := lseg_head hseg
        cases hp : pre ++ [t] with
        | nil => exact absurd hp hne
        | cons x xs => rw [hp] at this; simpa using this
      rw [hh] at hseg
      obtain ⟨x, h1, hx, n, hnn, hnone⟩ := lseg_append.mp hseg
      simp only [lseg] at hnone
      rw [htn] at hnn
      have : tn = n := by simpa using hnn
      subst this
      have htpre : t ∉ pre := by
        intro hmem
        have := (List.nodup_append.mp hnd0).2.2 hmem (List.mem_singleton.mpr rfl)
        exact this
      rw [List.append_assoc]
      refine lseg_append.mpr ⟨x, lseg_frame ?_ h1, hx, _, hn2, rfl, _, hnew, rfl⟩
      intro a ha
      apply hother
      · exact fun e => hnot (by rw [← e]; exact List.mem_append_left _ ha)
      · rw [List.getLast?_concat]
        intro e
        exact htpre ((Option.some.inj e) ▸ ha)
  · simp
  · simp
  · intro a ha
    rcases List.mem_append.mp ha with ha | ha
    · exact allStr_frame hstr hbuf a ha
    · have : a = newh := by simpa using ha
      subst this
      exact ⟨_, tmp, b, hnew, rfl, Function.update_same _ _ _, h0⟩
  · show ((ps ++ [newh]).map (fun a => (nodes2 a).bind (·.value))).Nodup
    rw [List.map_append, List.map_congr_left hvalptr]
    apply List.Nodup.append hnd (by simp)
    intro x hx1 hx2
    obtain ⟨a, ha, heq⟩ := List.mem_map.mp hx1
    simp only [List.map_cons, List.map_nil, List.mem_singleton, hnew, Option.bind] at hx2
    exact hval a ha (heq.trans hx2)

theorem size_zero_iff (ps : List Ptr) : ((ps.length : Int) = 0) ↔ ps = [] := by
  cases ps with
  | nil => simp
  | cons a r => simp; omega

theorem node_str_new (qs : Ptr → Option queue_t) {nodes : Ptr → Option list_ele_t}
    {strs : Ptr → Option (List Nat)} {a tmp : Ptr} {e : list_ele_t} (he : nodes a = some e)
    (hv : e.value = some tmp) {V : List Nat} (hV : 0 ∉ V) (hs : strs tmp = some (V ++ [0])) :
    node_str ⟨qs, nodes, strs⟩ a = some V := by
  simp [node_str, node_buf, he, hv, hs, cstr_append V [] hV]

/-- C5: on a queue that satisfies the data-model invariant, with strings `S`,
and for every string `V` (bytes without `0`, then the terminator, then
whatever follows it in the caller's buffer), `q_insert_head` with both
allocations successful returns `true`; the queue satisfies the invariant with
the new element in front, its strings are `V` followed by `S`, `V` in full;
`size` is one more; `tail` is the new element when the queue was empty and is
unchanged otherwise.  Nothing is left of what the two blocks of `malloc`
held: the new element has the new buffer and the old `head` as its fields,
and the buffer holds `V` and its terminator. -/
theorem q_insert_head_correct (m : Mem) (q : Ptr) (ps : List Ptr) (hinv : QueueInv m q ps)
    (V junk : List Nat) (hV : 0 ∉ V) (newh tmp : Ptr) (j1 : list_ele_t) (j2 : Nat → Nat)
    (hn : m.nodes newh = none) (ht : m.strs tmp = none) :
    ∃ m2 qv, m.queues q = some qv ∧
      q_insert_head m (some q) (V ++ 0 :: junk) (some newh) (some tmp) j1 j2 = .ok (m2, true) ∧
      QueueInv m2 q (newh :: ps) ∧
      values m2 (newh :: ps) = some V :: values m ps ∧
      q_strs m2 q (ps.length + 1) = some V :: q_strs m q ps.length ∧
      m2.queues q = some ⟨some newh, if ps = [] then some newh else qv.tail, qv.size + 1⟩ ∧
      m2.nodes newh = some ⟨some tmp, qv.head⟩ ∧ m2.strs tmp = some (V ++ [0]) := by
  have hrec := queueInv_record hinv
  have hs : 0 ∈ V ++ 0 :: junk := by simp
  have hrun := q_insert_head_run hrec hs newh tmp j1 j2
  simp only [cstr_append V junk hV, size_zero_iff] at hrun
  have hinv2 := queueInv_insert_head hinv hn ht (show 0 ∈ V ++ [0] by simp)
  have hvals : values
      { queues := Function.update m.queues q (some ⟨some newh, if ps = [] then some newh else ps.getLast?, ps.length + 1⟩),
        nodes := Function.update m.nodes newh (some ⟨some tmp, ps.head?⟩),
        strs := Function.update m.strs tmp (some (V ++ [0])) }
      (newh :: ps) = some V :: values m ps := by
    have h1 := values_frame (insert_frame hinv.2.1 hn ht
      (Function.update m.queues q (some ⟨some newh, if ps = [] then some newh else ps.getLast?, ps.length + 1⟩))
      ⟨some tmp, ps.head?⟩ (V ++ [0]))
    have h2 := node_str_new
      (Function.update m.queues q (some ⟨some newh, if ps = [] then some newh else ps.getLast?, ps.length + 1⟩))
      (Function.update_same newh (some (⟨some tmp, ps.head?⟩ : list_ele_t)) m.nodes) rfl hV
      (Function.update_same tmp (some (V ++ [0])) m.strs)
    show _ :: values _ ps = _
    rw [h1, h2]
  refine ⟨_, _, hrec, hrun, hinv2, hvals, ?_, by simp, by simp, by simp⟩
  rw [q_strs_eq_values hinv _ (Nat.le_refl _), ← hvals, q_strs_eq_values hinv2 _ (by simp)]

/-- C5, the scenario of the specification: `insert_tail("banana")`,
`insert_tail("apple")`, `insert_head("cherry")` on a new queue give
`["cherry", "banana", "apple"]` and size 3. -/
theorem q_insert_head_correct_witness :
    (QueueInv mem_banana_apple 100 [1, 2] ∧ 0 ∉ cherry ∧ mem_banana_apple.nodes 3 = none ∧
      mem_banana_apple.strs 13 = none) ∧
    (∃ m2 qv, mem_banana_apple.queues 100 = some qv ∧
      q_insert_head mem_banana_apple (some 100) (cherry ++ 0 :: [7, 7]) (some 3) (some 13)
          junk_ele junk_bytes =
        .ok (m2, true) ∧
      QueueInv m2 100 [3, 1, 2] ∧
      values m2 [3, 1, 2] = some cherry :: values mem_banana_apple [1, 2] ∧
      q_strs m2 100 ([1, 2].length + 1) = some cherry :: q_strs mem_banana_apple 100 [1, 2].length ∧
      m2.queues 100 =
        some ⟨some 3, if [1, 2] = ([] : List Ptr) then some 3 else qv.tail, qv.size + 1⟩ ∧
      m2.nodes 3 = some ⟨some 13, qv.head⟩ ∧ m2.strs 13 = some (cherry ++ [0])) ∧
    Except.toOption (do
      let (m, q) ← q_new Mem.empty (some 100) junk_q
      let (m, _) ← q_insert_tail m q (banana ++ [0]) (some 1) (some 11) junk_ele junk_bytes
      let (m, _) ← q_insert_tail m q (apple ++ [0]) (some 2) (some 12) junk_ele junk_bytes
      let (m, r) ← q_insert_head m q (cherry ++ [0]) (some 3) (some 13) junk_ele junk_bytes
      let n ← q_size m q
      .ok (r, q_strs m 100 5, n) : Exec (Bool × List (Option (List Nat)) × Int)) =
      some (true, [some cherry, some banana, some apple], 3) :=
  ⟨⟨inv_banana_apple, by decide, rfl, rfl⟩,
    q_insert_head_correct mem_banana_apple 100 [1, 2] inv_banana_apple cherry [7, 7]
      (by decide) 3 13 junk_ele junk_bytes rfl rfl,
    by decide⟩

/-- The buffers of the old elements after an insertion at the tail. -/
theorem insert_tail_frame {m : Mem} {ps : List Ptr} (hstr : AllStr m ps) {newh tmp : Ptr}
    (hn : m.nodes newh = none) (ht : m.strs tmp = none) (qs : Ptr → Option queue_t)
    (b : List Nat) (nodes2 : Ptr → Option list_ele_t)
    (hlast : ∀ t, ps.getLast? = some t →
      ∃ tn, m.nodes t = some tn ∧ nodes2 t = some { tn with next := some newh })
    (hother : ∀ a, a ≠ newh → ps.getLast? ≠ some a → nodes2 a = m.nodes a) :
    ∀ a ∈ ps, node_buf ⟨qs, nodes2, Function.update m.strs tmp (some b)⟩ a = node_buf m a := by
  obtain ⟨hnot, hval⟩ := allStr_fresh hstr hn ht
  intro a ha
  have hane : a ≠ newh := fun e => hnot (e ▸ ha)
  obtain ⟨n, v, b2, hna, hv, hb2, _⟩ := hstr a ha
  have hvne : v ≠ tmp := by
    intro e
    apply hval a ha
    simp [hna, hv, e]
  by_cases hal : ps.getLast? = some a
  · obtain ⟨tn, htn, hn2⟩ := hlast a hal
    rw [hna] at htn
    have : n = tn := by simpa using htn
    subst this
    simp [node_buf, hn2, hna, hv, Function.update_noteq hvne]
  · simp [node_buf, hother a hane hal, hna, hv, Function.update_noteq hvne]

/-- The element heap after a successful `q_insert_tail` on a queue that
satisfies the invariant: the new element is allocated with no successor, the
old last element points to it, every other element is as before. -/
theorem q_insert_tail_nodes {m : Mem} {q : Ptr} {ps : List Ptr} (hinv : QueueInv m q ps)
    {s : List Nat} (hs : 0 ∈ s) (newh tmp : Ptr) (j1 : list_ele_t) (j2 : Nat → Nat)
    (hn : m.nodes newh = none) (ht : m.strs tmp = none) :
    ∃ nodes2 : Ptr → Option list_ele_t,
      q_insert_tail m (some q) s (some newh) (some tmp) j1 j2 = .ok
        (⟨Function.update m.queues q (some ⟨if ps = [] then some newh else ps.head?, some newh, ps.length + 1⟩),
          nodes2, Function.update m.strs tmp (some (cstr s ++ [0]))⟩, true) ∧
      nodes2 newh = some ⟨some tmp, none⟩ ∧
      (∀ t, ps.getLast? = some t →
        ∃ tn, m.nodes t = some tn ∧ nodes2 t = some { tn with next := some newh }) ∧
      (∀ a, a ≠ newh → ps.getLast? ≠ some a → nodes2 a = m.nodes a) := by
  have hrec := queueInv_record hinv
  obtain ⟨hnot, _⟩ := allStr_fresh hinv.2.1 hn ht
  rcases List.eq_nil_or_concat ps with hnil | ⟨pre, t, hcat⟩
  · subst hnil
    have := q_insert_tail_run_empty hrec rfl hs newh tmp j1 j2
    exact ⟨_, by simpa using this, Function.update_same _ _ _, by simp,
      fun a ha _ => Function.update_noteq ha _ _⟩
  · rw [List.concat_eq_append] at hcat
    subst hcat
    have htm : t ∈ pre ++ [t] := by simp
    obtain ⟨tn, _, _, htn, _⟩ := hinv.2.1 t htm
    have htne : t ≠ newh := fun e => hnot (e ▸ htm)
    have := q_insert_tail_run hrec (by simp; omega) (by simp) htn hs newh tmp j1 j2 htne
    refine ⟨_, by simpa using this, ?_, ?_, ?_⟩
    · rw [Function.update_noteq (Ne.symm htne), Function.update_same]
    · intro t2 ht2
      have : t = t2 := by simpa using ht2
      subst this
      exact ⟨tn, htn, Function.update_same _ _ _⟩
    · intro a ha hal
      have hat : a ≠ t := by
        intro e; apply hal; simp [e]
      rw [Function.update_noteq hat, Function.update_noteq ha]

/-- A successful `q_insert_tail` keeps the invariant, the new element last. -/
theorem q_insert_tail_inv {m : Mem} {q : Ptr} {ps : List Ptr} (hinv : QueueInv m q ps)
    {s : List Nat} (hs : 0 ∈ s) (newh tmp : Ptr) (j1 : list_ele_t) (j2 : Nat → Nat)
    (hn : m.nodes newh = none) (ht : m.strs tmp = none) :
    ∃ m2, q_insert_tail m (some q) s (some newh) (some tmp) j1 j2 = .ok (m2, true) ∧
      QueueInv m2 q (ps ++ [newh]) := by
  obtain ⟨nodes2, hrun, hnew, hlast, hother⟩ := q_insert_tail_nodes hinv hs newh tmp j1 j2 hn ht
  exact ⟨_, hrun, queueInv_insert_tail hinv hn ht (show 0 ∈ cstr s ++ [0] by simp) nodes2 hnew
    hlast hother⟩

/-- A successful `q_insert_head` keeps the invariant, the new element first. -/
theorem q_insert_head_inv {m : Mem} {q : Ptr} {ps : List Ptr} (hinv : QueueInv m q ps)
    {s : List Nat} (hs : 0 ∈ s) (newh tmp : Ptr) (j1 : list_ele_t) (j2 : Nat → Nat)
    (hn : m.nodes newh = none) (ht : m.strs tmp = none) :
    ∃ m2, q_insert_head m (some q) s (some newh) (some tmp) j1 j2 = .ok (m2, true) ∧
      QueueInv m2 q (newh :: ps) := by
  have hrun := q_insert_head_run (queueInv_record hinv) hs newh tmp j1 j2
  simp only [size_zero_iff] at hrun
  exact ⟨_, hrun, queueInv_insert_head hinv hn ht (show 0 ∈ cstr s ++ [0] by simp)⟩

/-- C6: on a queue that satisfies the data-model invariant, with strings `S`,
and for every string `V`, `q_insert_tail` with both allocations successful
returns `true`; the queue satisfies the invariant with the new element at the
end, its strings are `S` followed by `V`, `V` in full; `size` is one more; the
new element is `tail` and its `next` is `NULL`; `head` is the new element when
the queue was empty and is unchanged otherwise; no element other than the new
one and the old `tail` is written.  The last part holds in every memory,
whatever the chain from `head` looks like: on a record with `size` not `0` the
outcome is given by the record and the element `tail` points to.  Nothing is
left of what the two blocks of `malloc` held. -/
theorem q_insert_tail_correct (m : Mem) (q : Ptr) (ps : List Ptr) (hinv : QueueInv m q ps)
    (V junk : List Nat) (hV : 0 ∉ V) (newh tmp : Ptr) (j1 : list_ele_t) (j2 : Nat → Nat)
    (hn : m.nodes newh = none) (ht : m.strs tmp = none) :
    (∃ m2 qv, m.queues q = some qv ∧
      q_insert_tail m (some q) (V ++ 0 :: junk) (some newh) (some tmp) j1 j2 = .ok (m2, true) ∧
      QueueInv m2 q (ps ++ [newh]) ∧
      values m2 (ps ++ [newh]) = values m ps ++ [some V] ∧
      q_strs m2 q (ps.length + 1) = q_strs m q ps.length ++ [some V] ∧
      m2.queues q = some ⟨if ps = [] then some newh else qv.head, some newh, qv.size + 1⟩ ∧
      m2.nodes newh = some ⟨some tmp, none⟩ ∧ m2.strs tmp = some (V ++ [0]) ∧
      (∀ a, a ≠ newh → qv.tail ≠ some a → m2.nodes a = m.nodes a)) ∧
    (∀ (m0 : Mem) (qv0 : queue_t) (t : Ptr) (tn : list_ele_t), m0.queues q = some qv0 →
      qv0.size ≠ 0 → qv0.tail = some t → m0.nodes t = some tn → t ≠ newh →
      q_insert_tail m0 (some q) (V ++ 0 :: junk) (some newh) (some tmp) j1 j2 = .ok
        ({ queues := Function.update m0.queues q (some ⟨qv0.head, some newh, qv0.size + 1⟩),
           nodes := Function.update (Function.update m0.nodes newh (some ⟨some tmp, none⟩)) t
            (some { tn with next := some newh }),
           strs := Function.update m0.strs tmp (some (V ++ [0])) }, true)) := by
  have hs : 0 ∈ V ++ 0 :: junk := by simp
  have hcs := cstr_append V junk hV
  refine ⟨?_, ?_⟩
  swap
  · intro m0 qv0 t tn hq0 hz0 ht0 htn0 hne0
    have := q_insert_tail_run hq0 hz0 ht0 htn0 hs newh tmp j1 j2 hne0
    rw [hcs] at this
    exact this
  have hrec := queueInv_record hinv
  obtain ⟨nodes2, hrun, hnew, hlast, hother⟩ := q_insert_tail_nodes hinv hs newh tmp j1 j2 hn ht
  rw [hcs] at hrun
  have hinv2 := queueInv_insert_tail hinv hn ht (show 0 ∈ V ++ [0] by simp) nodes2 hnew hlast
    hother
  have hvals : values
      ⟨Function.update m.queues q (some ⟨if ps = [] then some newh else ps.head?, some newh, ps.length + 1⟩),
        nodes2, Function.update m.strs tmp (some (V ++ [0]))⟩
      (ps ++ [newh]) = values m ps ++ [some V] := by
    have h1 := values_frame (insert_tail_frame hinv.2.1 hn ht
      (Function.update m.queues q (some ⟨if ps = [] then some newh else ps.head?, some newh, ps.length + 1⟩))
      (V ++ [0]) nodes2 hlast hother)
    have h2 := node_str_new
      (Function.update m.queues q (some ⟨if ps = [] then some newh else ps.head?, some newh, ps.length + 1⟩))
      hnew rfl hV (Function.update_same tmp (some (V ++ [0])) m.strs)
    unfold values at h1 ⊢
    rw [List.map_append, h1, List.map_singleton, h2]
  refine ⟨_, _, hrec, hrun, hinv2, hvals, ?_, by simp, hnew, by simp, ?_⟩
  · rw [q_strs_eq_values hinv _ (Nat.le_refl _), ← hvals, q_strs_eq_values hinv2 _ (by simp)]
  · intro a ha hal
    exact hother a ha hal

/-- C6 on the queue `["banana", "apple"]`: with `"cherry"` inserted at the
tail it reads `["banana", "apple", "cherry"]`. -/
theorem q_insert_tail_correct_witness :
    (QueueInv mem_banana_apple 100 [1, 2] ∧ 0 ∉ cherry ∧ mem_banana_apple.nodes 3 = none ∧
      mem_banana_apple.strs 13 = none) ∧
    ((∃ m2 qv, mem_banana_apple.queues 100 = some qv ∧
      q_insert_tail mem_banana_apple (some 100) (cherry ++ 0 :: []) (some 3) (some 13)
          junk_ele junk_bytes =
        .ok (m2, true) ∧
      QueueInv m2 100 ([1, 2] ++ [3]) ∧
      values m2 ([1, 2] ++ [3]) = values mem_banana_apple [1, 2] ++ [some cherry] ∧
      q_strs m2 100 ([1, 2].length + 1) =
        q_strs mem_banana_apple 100 [1, 2].length ++ [some cherry] ∧
      m2.queues 100 =
        some ⟨if [1, 2] = ([] : List Ptr) then some 3 else qv.head, some 3, qv.size + 1⟩ ∧
      m2.nodes 3 = some ⟨some 13, none⟩ ∧ m2.strs 13 = some (cherry ++ [0]) ∧
      (∀ a, a ≠ 3 → qv.tail ≠ some a → m2.nodes a = mem_banana_apple.nodes a)) ∧
    (∀ (m0 : Mem) (qv0 : queue_t) (t : Ptr) (tn : list_ele_t), m0.queues 100 = some qv0 →
      qv0.size ≠ 0 → qv0.tail = some t → m0.nodes t = some tn → t ≠ 3 →
      q_insert_tail m0 (some 100) (cherry ++ 0 :: []) (some 3) (some 13) junk_ele junk_bytes = .ok
        ({ queues := Function.update m0.queues 100 (some ⟨qv0.head, some 3, qv0.size + 1⟩),
           nodes := Function.update (Function.update m0.nodes 3 (some ⟨some 13, none⟩)) t
            (some { tn with next := some 3 }),
           strs := Function.update m0.strs 13 (some (cherry ++ [0])) }, true))) ∧
    (q_insert_tail mem_banana_apple (some 100) (cherry ++ [0]) (some 3) (some 13)
        junk_ele junk_bytes).toOption.map
      (fun r => (r.2, q_strs r.1 100 5)) = some (true, [some banana, some apple, some cherry]) :=
  ⟨⟨inv_banana_apple, by decide, rfl, rfl⟩,
    q_insert_tail_correct mem_banana_apple 100 [1, 2] inv_banana_apple cherry []
      (by decide) 3 13 junk_ele junk_bytes rfl rfl,
    by decide⟩

theorem inv_cherry_banana_apple : QueueInv mem_cherry_banana_apple 100 [3, 1, 2] := by
  refine ⟨⟨⟨some 3, some 2, 3⟩, rfl, ?_, rfl, rfl⟩, ?_, ?_⟩
  · exact ⟨rfl, ⟨some 13, some 1⟩, rfl, rfl, ⟨some 11, some 2⟩, rfl, rfl, ⟨some 12, none⟩,
      rfl, rfl⟩
  · intro a ha
    simp only [List.mem_cons, List.mem_singleton, List.not_mem_nil, or_false] at ha
    rcases ha with rfl | rfl | rfl
    · exact ⟨⟨some 13, some 1⟩, 13, cherry ++ [0], rfl, rfl, rfl, by decide⟩
    · exact ⟨⟨some 11, some 2⟩, 11, banana ++ [0], rfl, rfl, rfl, by decide⟩
    · exact ⟨⟨some 12, none⟩, 12, apple ++ [0], rfl, rfl, rfl, by decide⟩
  · decide

theorem inv_empty_queue : QueueInv mem_empty_queue 100 [] :=
  ⟨⟨⟨none, none, 0⟩, rfl, rfl, rfl, rfl⟩, fun _ h => absurd h (List.not_mem_nil _),
    List.nodup_nil⟩

/-- The invariant after a successful `q_remove_head`. -/
theorem queueInv_remove_head {m : Mem} {q a : Ptr} {rest : List Ptr}
    (hinv : QueueInv m q (a :: rest)) {na : list_ele_t} (hna : m.nodes a = some na) {v : Ptr}
    (hv : na.value = some v) :
    na.next = rest.head? ∧
    (∀ c ∈ rest, node_buf
      ⟨Function.update m.queues q (some ⟨rest.head?, if rest = [] then none else (a :: rest).getLast?, rest.length⟩),
        Function.update m.nodes a none, Function.update m.strs v none⟩ c = node_buf m c) ∧
    QueueInv
      { queues := Function.update m.queues q (some ⟨rest.head?, if rest = [] then none else (a :: rest).getLast?, rest.length⟩),
        nodes := Function.update m.nodes a none,
        strs := Function.update m.strs v none }
      q rest := by
  obtain ⟨⟨qv, hq, hseg, htail, hsize⟩, hstr, hnd⟩ := hinv
  have hnd0 := lseg_nodup hseg
  obtain ⟨_, na2, hna2, hrest⟩ := hseg
  rw [hna] at hna2
  have hnn : na = na2 := by simpa using hna2
  subst hnn
  have hnext : na.next = rest.head? := by
    have := lseg_head hrest
    cases rest <;> simpa using this
  have hanot : a ∉ rest := (List.nodup_cons.mp hnd0).1
  rw [List.map_cons, List.nodup_cons] at hnd
  have hbuf : ∀ c ∈ rest, node_buf
      ⟨Function.update m.queues q (some ⟨rest.head?, if rest = [] then none else (a :: rest).getLast?, rest.length⟩),
        Function.update m.nodes a none, Function.update m.strs v none⟩ c = node_buf m c := by
    intro c hc
    have hca : c ≠ a := fun e => hanot (e ▸ hc)
    apply node_buf_frame
    · exact Function.update_noteq hca _ _
    · intro n vc hnc hvc
      have hvne : vc ≠ v := by
        intro e
        apply hnd.1
        refine List.mem_map.mpr ⟨c, hc, ?_⟩
        simp [hnc, hvc, e, hna, hv]
      exact Function.update_noteq hvne _ _
  refine ⟨hnext, hbuf, ⟨_, Function.update_same _ _ _, ?_, ?_, rfl⟩, ?_, ?_⟩
  · refine lseg_frame ?_ (hnext ▸ hrest)
    intro c hc
    exact Function.update_noteq (fun (e : c = a) => hanot (e ▸ hc)) _ _
  · cases rest with
    | nil => simp
    | cons b r => simp [List.getLast?_cons_cons]
  · exact allStr_frame (allStr_mono hstr (fun c hc => List.mem_cons_of_mem _ hc)) hbuf
  · have hmap : rest.map (fun c => (Function.update m.nodes a none c).bind (·.value)) =
        rest.map (fun c => (m.nodes c).bind (·.value)) := by
      apply List.map_congr_left
      intro c hc
      have hca : c ≠ a := fun e => hanot (e ▸ hc)
      simp [Function.update_noteq hca]
    show (rest.map (fun c => (Function.update m.nodes a none c).bind (·.value))).Nodup
    rw [hmap]; exact hnd.2

/-- C4: on a queue that satisfies the data-model invariant and is not empty,
with the string `V` in its first element and `rest` behind it, and for a
caller's buffer of at least `bufsize` bytes with `bufsize` at least `1`,
`q_remove_head` returns `true`; the buffer then holds the first
`min (length V) (bufsize - 1)` bytes of `V` and a terminator (the bytes behind
it are untouched), which is `V` cut short without any error when `V` is longer;
the queue satisfies the invariant with the elements `rest`, whose strings are
unchanged; `size` is one less; `tail` is `NULL` exactly when `rest` is empty;
the first element and its buffer are freed. -/
theorem q_remove_head_correct (m : Mem) (q a : Ptr) (rest : List Ptr)
    (hinv : QueueInv m q (a :: rest)) (V : List Nat) (hV : node_str m a = some V)
    (buf : List Nat) (bufsize : Nat) (h1 : 1 ≤ bufsize) (h2 : bufsize < SIZE_RANGE)
    (h3 : bufsize ≤ buf.length) :
    ∃ m2 out qv, m.queues q = some qv ∧
      q_remove_head m (some q) (some buf) bufsize = .ok (m2, some out, true) ∧
      out = V.take (min V.length (bufsize - 1)) ++
        0 :: buf.drop (min V.length (bufsize - 1) + 1) ∧
      cstr out = V.take (min V.length (bufsize - 1)) ∧
      QueueInv m2 q rest ∧ values m2 rest = values m rest ∧
      q_strs m2 q rest.length = (q_strs m q (rest.length + 1)).tail ∧
      m2.queues q = some ⟨rest.head?, if rest = [] then none else qv.tail, qv.size - 1⟩ ∧
      ((if rest = [] then none else qv.tail) = none ↔ rest = []) ∧
      m2.nodes a = none := by
  have hrec := queueInv_record hinv
  obtain ⟨na, v, b, hna, hv, hb, h0⟩ := hinv.2.1 a (List.mem_cons_self _ _)
  have hVb : V = cstr b := by
    simp [node_str, node_buf, hna, hv, hb, h0] at hV
    exact hV.symm
  subst hVb
  have hrun := q_remove_head_run hrec rfl hna hv hb h0 h1 h2 h3
  obtain ⟨hnext, hbuf, hinv2⟩ := queueInv_remove_head hinv hna hv
  have hsz : (((a :: rest).length : Nat) : Int) - 1 = (rest.length : Int) := by simp
  simp only [hsz, size_zero_iff, hnext] at hrun
  have hvals := values_frame hbuf
  have hnz : (0 : Nat) ∉ (cstr b).take (min (cstr b).length (bufsize - 1)) :=
    fun h => cstr_no_zero b (List.mem_of_mem_take h)
  refine ⟨_, _, _, hrec, hrun, rfl, cstr_append _ _ hnz, hinv2, hvals, ?_, ?_, ?_,
    Function.update_same _ _ _⟩
  · rw [q_strs_eq_values hinv2 _ (Nat.le_refl _), hvals,
      q_strs_eq_values hinv _ (by simp)]
    simp [values]
  · simp
  · cases rest with
    | nil => simp
    | cons c r => simp [List.getLast?_cons_cons]


/-- C4, the scenario of the specification: removing the head of
`["cherry", "banana", "apple"]` into a buffer of 4 bytes gives `"che"` and a
terminator, and leaves `["banana", "apple"]`, size 2. -/
theorem q_remove_head_correct_witness :
    (QueueInv mem_cherry_banana_apple 100 [3, 1, 2] ∧
      node_str mem_cherry_banana_apple 3 = some cherry ∧ 1 ≤ 4 ∧ 4 < SIZE_RANGE ∧
      4 ≤ [7, 7, 7, 7].length) ∧
    (∃ m2 out qv, mem_cherry_banana_apple.queues 100 = some qv ∧
      q_remove_head mem_cherry_banana_apple (some 100) (some [7, 7, 7, 7]) 4 =
        .ok (m2, some out, true) ∧
      out = cherry.take (min cherry.length (4 - 1)) ++
        0 :: [7, 7, 7, 7].drop (min cherry.length (4 - 1) + 1) ∧
      cstr out = cherry.take (min cherry.length (4 - 1)) ∧
      QueueInv m2 100 [1, 2] ∧ values m2 [1, 2] = values mem_cherry_banana_apple [1, 2] ∧
      q_strs m2 100 [1, 2].length =
        (q_strs mem_cherry_banana_apple 100 ([1, 2].length + 1)).tail ∧
      m2.queues 100 =
        some ⟨[1, 2].head?, if [1, 2] = ([] : List Ptr) then none else qv.tail, qv.size - 1⟩ ∧
      ((if [1, 2] = ([] : List Ptr) then none else qv.tail) = none ↔ [1, 2] = ([] : List Ptr)) ∧
      m2.nodes 3 = none) ∧
    Except.toOption (do
      let (m, q) ← q_new Mem.empty (some 100) junk_q
      let (m, _) ← q_insert_tail m q (banana ++ [0]) (some 1) (some 11) junk_ele junk_bytes
      let (m, _) ← q_insert_tail m q (apple ++ [0]) (some 2) (some 12) junk_ele junk_bytes
      let (m, _) ← q_insert_head m q (cherry ++ [0]) (some 3) (some 13) junk_ele junk_bytes
      let (m, out, r) ← q_remove_head m q (some [7, 7, 7, 7]) 4
      let n ← q_size m q
      .ok (r, out, q_strs m 100 5, n) :
        Exec (Bool × Option (List Nat) × List (Option (List Nat)) × Int)) =
      some (true, some [99, 104, 101, 0], [some banana, some apple], 2) :=
  ⟨⟨inv_cherry_banana_apple, by decide, by decide, by decide, by decide⟩,
    q_remove_head_correct mem_cherry_banana_apple 100 3 [1, 2] inv_cherry_banana_apple cherry
      (by decide) [7, 7, 7, 7] 4 (by decide) (by decide) (by decide),
    by decide⟩

/-- C8: on an empty queue that satisfies the data-model invariant, for every
string `V` and every caller's buffer of at least `bufsize` bytes with
`bufsize` at least `1`, `q_insert_tail` of `V` (both allocations successful)
followed by `q_remove_head` succeeds twice, whatever the blocks of `malloc`
held; the buffer then holds `V` cut to
its first `bufsize - 1` bytes, all of `V` when `bufsize` exceeds its length;
and the memory is what it was before the insertion, in particular the queue
is empty again, with `size` `0` and `head` and `tail` `NULL`. -/
theorem insert_tail_remove_head (m : Mem) (q : Ptr) (hinv : QueueInv m q [])
    (V junk : List Nat) (hV : 0 ∉ V) (newh tmp : Ptr) (j1 : list_ele_t) (j2 : Nat → Nat)
    (hn : m.nodes newh = none) (ht : m.strs tmp = none) (buf : List Nat) (bufsize : Nat)
    (h1 : 1 ≤ bufsize)
    (h2 : bufsize < SIZE_RANGE) (h3 : bufsize ≤ buf.length) :
    ∃ m1 out,
      q_insert_tail m (some q) (V ++ 0 :: junk) (some newh) (some tmp) j1 j2 = .ok (m1, true) ∧
      q_remove_head m1 (some q) (some buf) bufsize = .ok (m, some out, true) ∧
      out = V.take (bufsize - 1) ++ 0 :: buf.drop (min V.length (bufsize - 1) + 1) ∧
      cstr out = V.take (bufsize - 1) ∧
      (V.length < bufsize → cstr out = V) ∧
      m.queues q = some ⟨none, none, 0⟩ ∧ QueueInv m q [] := by
  have hrec := queueInv_record hinv
  simp only [List.head?_nil, List.getLast?_nil, List.length_nil, Nat.cast_zero] at hrec
  have hs : 0 ∈ V ++ 0 :: junk := by simp
  have hrun1 := q_insert_tail_run_empty hrec rfl hs newh tmp j1 j2
  rw [cstr_append V junk hV] at hrun1
  have hrun2 := q_remove_head_run
    (m := ⟨Function.update m.queues q (some ⟨some newh, some newh, 0 + 1⟩),
      Function.update m.nodes newh (some ⟨some tmp, none⟩),
      Function.update m.strs tmp (some (V ++ [0]))⟩)
    (Function.update_same _ _ _) rfl (Function.update_same _ _ _) rfl
    (Function.update_same _ _ _) (show 0 ∈ V ++ [0] by simp) h1 h2 h3
  rw [cstr_append V [] hV] at hrun2
  have hmem : (⟨Function.update (Function.update m.queues q (some ⟨some newh, some newh, 0 + 1⟩)) q
        (some ⟨none, if (0 : Int) + 1 - 1 = 0 then none else some newh, 0 + 1 - 1⟩),
      Function.update (Function.update m.nodes newh (some ⟨some tmp, none⟩)) newh none,
      Function.update (Function.update m.strs tmp (some (V ++ [0]))) tmp none⟩ : Mem) = m := by
    apply mem_ext
    · show Function.update (Function.update m.queues q _) q _ = m.queues
      rw [Function.update_idem]
      have : (⟨none, if (0 : Int) + 1 - 1 = 0 then none else some newh, 0 + 1 - 1⟩ : queue_t)
          = ⟨none, none, 0⟩ := by simp
      rw [this, ← hrec, Function.update_eq_self]
    · show Function.update (Function.update m.nodes newh _) newh none = m.nodes
      rw [Function.update_idem, ← hn, Function.update_eq_self]
    · show Function.update (Function.update m.strs tmp _) tmp none = m.strs
      rw [Function.update_idem, ← ht, Function.update_eq_self]
  rw [hmem] at hrun2
  have htake : V.take (min V.length (bufsize - 1)) = V.take (bufsize - 1) := by
    rcases Nat.le_total V.length (bufsize - 1) with h | h
    · rw [Nat.min_eq_left h, List.take_of_length_le (Nat.le_refl _), List.take_of_length_le h]
    · rw [Nat.min_eq_right h]
  rw [htake] at hrun2
  have hnz : (0 : Nat) ∉ V.take (bufsize - 1) := fun h => hV (List.mem_of_mem_take h)
  refine ⟨_, _, hrun1, hrun2, rfl, cstr_append _ _ hnz, ?_, hrec, hinv⟩
  intro hlt
  rw [cstr_append _ _ hnz, List.take_of_length_le (by omega)]

/-- C8 on an empty queue: `"cherry"` inserted and removed into a buffer of 4
bytes comes back as `"che"`, into one of 8 bytes in full. -/
theorem insert_tail_remove_head_witness :
    (QueueInv mem_empty_queue 100 [] ∧ 0 ∉ cherry ∧ mem_empty_queue.nodes 1 = none ∧
      mem_empty_queue.strs 11 = none ∧ 1 ≤ 4 ∧ 4 < SIZE_RANGE ∧ 4 ≤ [7, 7, 7, 7].length) ∧
    (∃ m1 out,
      q_insert_tail mem_empty_queue (some 100) (cherry ++ 0 :: []) (some 1) (some 11)
          junk_ele junk_bytes =
        .ok (m1, true) ∧
      q_remove_head m1 (some 100) (some [7, 7, 7, 7]) 4 = .ok (mem_empty_queue, some out, true) ∧
      out = cherry.take (4 - 1) ++ 0 :: [7, 7, 7, 7].drop (min cherry.length (4 - 1) + 1) ∧
      cstr out = cherry.take (4 - 1) ∧
      (cherry.length < 4 → cstr out = cherry) ∧
      mem_empty_queue.queues 100 = some ⟨none, none, 0⟩ ∧ QueueInv mem_empty_queue 100 []) ∧
    Except.toOption (do
      let (m, _) ← q_insert_tail mem_empty_queue (some 100) (cherry ++ [0]) (some 1) (some 11)
          junk_ele junk_bytes
      let (m, out, r) ← q_remove_head m (some 100) (some [7, 7, 7, 7, 7, 7, 7, 7]) 8
      let n ← q_size m (some 100)
      .ok (r, out, q_strs m 100 5, n) :
        Exec (Bool × Option (List Nat) × List (Option (List Nat)) × Int)) =
      some (true, some (cherry ++ [0, 7]), [], 0) :=
  ⟨⟨inv_empty_queue, by decide, rfl, rfl, by decide, by decide, by decide⟩,
    insert_tail_remove_head mem_empty_queue 100 inv_empty_queue cherry [] (by decide) 1 11
      junk_ele junk_bytes rfl rfl [7, 7, 7, 7] 4 (by decide) (by decide) (by decide),
    by decide⟩

/-! ## Sequences of calls -/

/-- The function `q_size` on a queue that satisfies the invariant. -/
theorem q_size_spec {m : Mem} {q : Ptr} {ps : List Ptr} (hinv : QueueInv m q ps) :
    q_size m (some q) = .ok (to_int (ps.length : Int)) := by
  have hrec := queueInv_record hinv
  cases ps with
  | nil => simp [q_size, load_q, hrec, bind, Except.bind, to_int]
  | cons a rest => simp [q_size, load_q, hrec, bind, Except.bind]

/-- The call `q_insert_head` when the second allocation fails: the element is
released again and the memory is as before. -/
theorem q_insert_head_fail {m : Mem} {q : Ptr} {s : List Nat} (hs : 0 ∈ s) {newh : Ptr}
    (hn : m.nodes newh = none) {j1 : list_ele_t} {j2 : Nat → Nat} :
    q_insert_head m (some q) s (some newh) none j1 j2 = .ok (m, false) := by
  have hmem : (⟨m.queues, Function.update (Function.update m.nodes newh (some j1)) newh none,
      m.strs⟩ : Mem) = m := by
    refine mem_ext rfl ?_ rfl
    show Function.update (Function.update m.nodes newh _) newh none = m.nodes
    rw [Function.update_idem, ← hn, Function.update_eq_self]
  simp only [q_insert_head, alloc_ele, strlen_spec s hs, free_ele, Function.update_same, bind,
    Except.bind]
  rw [hmem]

@[inherit_doc q_insert_head_fail]
theorem q_insert_tail_fail {m : Mem} {q : Ptr} {s : List Nat} (hs : 0 ∈ s) {newh : Ptr}
    (hn : m.nodes newh = none) {j1 : list_ele_t} {j2 : Nat → Nat} :
    q_insert_tail m (some q) s (some newh) none j1 j2 = .ok (m, false) := by
  have hmem : (⟨m.queues, Function.update (Function.update m.nodes newh (some j1)) newh none,
      m.strs⟩ : Mem) = m := by
    refine mem_ext rfl ?_ rfl
    show Function.update (Function.update m.nodes newh _) newh none = m.nodes
    rw [Function.update_idem, ← hn, Function.update_eq_self]
  simp only [q_insert_tail, alloc_ele, strlen_spec s hs, free_ele, Function.update_same, bind,
    Except.bind]
  rw [hmem]

/-- A successful `q_remove_head` keeps the invariant, the first element gone. -/
theorem q_remove_head_inv {m : Mem} {q a : Ptr} {rest : List Ptr}
    (hinv : QueueInv m q (a :: rest)) {buf : List Nat} {bufsize : Nat} (h1 : 1 ≤ bufsize)
    (h2 : bufsize < SIZE_RANGE) (h3 : bufsize ≤ buf.length) :
    ∃ m2 out, q_remove_head m (some q) (some buf) bufsize = .ok (m2, some out, true) ∧
      QueueInv m2 q rest := by
  obtain ⟨na, v, b, hna, hv, hb, h0⟩ := hinv.2.1 a (List.mem_cons_self _ _)
  have hrun := q_remove_head_run (queueInv_record hinv) rfl hna hv hb h0 h1 h2 h3
  obtain ⟨hnext, _, hinv2⟩ := queueInv_remove_head hinv hna hv
  have hsz : (((a :: rest).length : Nat) : Int) - 1 = (rest.length : Int) := by simp
  simp only [hsz, size_zero_iff, hnext] at hrun
  exact ⟨_, _, hrun, hinv2⟩

/-- The function `q_reverse` keeps the invariant, the elements reversed. -/
theorem q_reverse_inv {fuel : Nat} {m : Mem} {q : Ptr} {ps : List Ptr}
    (hinv : QueueInv m q ps) (hfuel : ps.length ≤ fuel) :
    ∃ m2, q_reverse fuel m (some q) = .ok m2 ∧ QueueInv m2 q ps.reverse := by
  obtain ⟨m1, qv, hq, hrel, hseg, hrun⟩ := q_reverse_spec fuel m q ps hinv hfuel
  have hrec := queueInv_record hinv
  have hqv : qv = ⟨ps.head?, ps.getLast?, ps.length⟩ := by
    rw [hq] at hrec; simpa using hrec
  exact ⟨_, hrun, queueInv_relinked hinv hrel (List.reverse_perm ps) hseg
    (show qv.size = (ps.length : Int) by rw [hqv])⟩

/-- One valid call on a queue that satisfies the invariant returns, and keeps
the invariant; the number of elements changes by what the call reports. -/
theorem call_step {m : Mem} {q : Ptr} {ps : List Ptr} (hinv : QueueInv m q ps) (c : Call)
    (hvalid : c.valid m q = true) :
    ∃ m2 i r ps2, c.run m q = .ok (m2, i, r) ∧ QueueInv m2 q ps2 ∧
      (ps2.length : Int) = (ps.length : Int) + (i : Int) - (r : Int) := by
  have hrec := queueInv_record hinv
  cases c with
  | insert_head s r1 r2 j1 j2 =>
    simp only [Call.valid, Bool.and_eq_true, decide_eq_true_eq] at hvalid
    obtain ⟨⟨hs, h1⟩, h2⟩ := hvalid
    cases r1 with
    | none => exact ⟨m, 0, 0, ps, by simp [Call.run, q_insert_head, bind, Except.bind], hinv,
        by simp⟩
    | some newh =>
      have hn : m.nodes newh = none := by simpa [fresh_ele] using h1
      cases r2 with
      | none =>
        exact ⟨m, 0, 0, ps, by simp [Call.run, q_insert_head_fail hs hn, bind, Except.bind],
          hinv, by simp⟩
      | some tmp =>
        have ht : m.strs tmp = none := by simpa [fresh_str] using h2
        obtain ⟨m2, hrun, hinv2⟩ := q_insert_head_inv hinv hs newh tmp j1 j2 hn ht
        exact ⟨m2, 1, 0, newh :: ps, by simp [Call.run, hrun, bind, Except.bind], hinv2,
          by simp⟩
  | insert_tail s r1 r2 j1 j2 =>
    simp only [Call.valid, Bool.and_eq_true, decide_eq_true_eq] at hvalid
    obtain ⟨⟨hs, h1⟩, h2⟩ := hvalid
    cases r1 with
    | none => exact ⟨m, 0, 0, ps, by simp [Call.run, q_insert_tail, bind, Except.bind], hinv,
        by simp⟩
    | some newh =>
      have hn : m.nodes newh = none := by simpa [fresh_ele] using h1
      cases r2 with
      | none =>
        exact ⟨m, 0, 0, ps, by simp [Call.run, q_insert_tail_fail hs hn, bind, Except.bind],
          hinv, by simp⟩
      | some tmp =>
        have ht : m.strs tmp = none := by simpa [fresh_str] using h2
        obtain ⟨m2, hrun, hinv2⟩ := q_insert_tail_inv hinv hs newh tmp j1 j2 hn ht
        exact ⟨m2, 1, 0, ps ++ [newh], by simp [Call.run, hrun, bind, Except.bind], hinv2,
          by simp⟩
  | remove_head sp bufsize =>
    simp only [Call.valid, Bool.and_eq_true, decide_eq_true_eq] at hvalid
    obtain ⟨hsz, hbuf⟩ := hvalid
    cases sp with
    | none => exact ⟨m, 0, 0, ps, by simp [Call.run, q_remove_head, bind, Except.bind], hinv,
        by simp⟩
    | some buf =>
      cases ps with
      | nil =>
        exact ⟨m, 0, 0, [], by simp [Call.run, q_remove_head, load_q, hrec, bind, Except.bind],
          hinv, by simp⟩
      | cons a rest =>
        simp [hrec] at hbuf
        obtain ⟨m2, out, hrun, hinv2⟩ := q_remove_head_inv hinv hbuf.1 hsz hbuf.2
        exact ⟨m2, 0, 1, rest, by simp [Call.run, hrun, bind, Except.bind], hinv2,
          by simp⟩
  | reverse fuel =>
    simp only [Call.valid, hrec, decide_eq_true_eq] at hvalid
    obtain ⟨m2, hrun, hinv2⟩ := q_reverse_inv hinv (show ps.length ≤ fuel by omega)
    exact ⟨m2, 0, 0, ps.reverse, by simp [Call.run, hrun, bind, Except.bind], hinv2, by simp⟩
  | sort fuel =>
    simp only [Call.valid, hrec, decide_eq_true_eq] at hvalid
    obtain ⟨m2, hrun, hinv2, _⟩ := q_sort_inv fuel m q ps hinv (by omega)
    exact ⟨m2, 0, 0, _, by simp [Call.run, hrun, bind, Except.bind], hinv2, by simp⟩

/-- A sequence of valid calls on a queue that satisfies the invariant returns,
and keeps the invariant; the number of elements changes by the insertions that
returned `true` less the removals that returned `true`. -/
theorem run_calls_inv {q : Ptr} : ∀ (cs : List Call) (m : Mem) (ps : List Ptr),
    QueueInv m q ps → admissible m q cs = true →
    ∃ m2 i r ps2, run_calls m q cs = .ok (m2, i, r) ∧ QueueInv m2 q ps2 ∧
      (ps2.length : Int) = (ps.length : Int) + (i : Int) - (r : Int) := by
  intro cs
  induction cs with
  | nil => intro m ps hinv _; exact ⟨m, 0, 0, ps, rfl, hinv, by simp⟩
  | cons c cs ih =>
    intro m ps hinv hadm
    simp only [admissible, Bool.and_eq_true] at hadm
    obtain ⟨m1, i1, r1, ps1, hrun1, hinv1, hlen1⟩ := call_step hinv c hadm.1
    have hadm2 := hadm.2
    rw [hrun1] at hadm2
    obtain ⟨m2, i2, r2, ps2, hrun2, hinv2, hlen2⟩ := ih m1 ps1 hinv1 hadm2
    refine ⟨m2, i1 + i2, r1 + r2, ps2, ?_, hinv2, ?_⟩
    · simp [run_calls, hrun1, hrun2, bind, Except.bind]
    · rw [hlen2, hlen1]; push_cast; ring


/-- The function `q_new` when `malloc` returns a block: it returns the block,
whose three fields it has assigned; nothing of what the block held is left. -/
theorem q_new_run (m0 : Mem) (q : Ptr) (j0 : queue_t) :
    q_new m0 (some q) j0 =
      .ok ({ m0 with queues := Function.update m0.queues q (some ⟨none, none, 0⟩) }, some q) := by
  simp [q_new, alloc_q, load_q, store_q, bind, Except.bind]

/-- The function `q_new` when `malloc` returns a block: the queue at the block
is empty and satisfies the invariant, whatever the block held. -/
theorem q_new_inv {m0 m1 : Mem} {q : Ptr} {j0 : queue_t}
    (hnew : q_new m0 (some q) j0 = .ok (m1, some q)) :
    QueueInv m1 q [] := by
  simp [q_new, alloc_q, load_q, store_q, bind, Except.bind] at hnew
  subst hnew
  exact ⟨⟨⟨none, none, 0⟩, Function.update_same _ _ _, rfl, rfl, rfl⟩,
    fun _ h => absurd h (List.not_mem_nil _), List.nodup_nil⟩

/-- When the count stays in `int` along a sequence of calls, it is in `int`
at the end. -/
theorem within_int_final {q : Ptr} : ∀ (cs : List Call) (m m2 : Mem) (i r : Nat),
    within_int m q cs = true → run_calls m q cs = .ok (m2, i, r) →
    size_in_int m2 q = true := by
  intro cs
  induction cs with
  | nil =>
    intro m m2 i r hint hrun
    simp only [run_calls, Except.ok.injEq, Prod.mk.injEq] at hrun
    rw [← hrun.1]
    exact hint
  | cons c cs ih =>
    intro m m2 i r hint hrun
    simp only [within_int, Bool.and_eq_true] at hint
    cases hc : c.run m q with
    | error e => simp [run_calls, hc, bind, Except.bind] at hrun
    | ok r1 =>
      have hint2 := hint.2
      rw [hc] at hint2
      cases hcs : run_calls r1.1 q cs with
      | error e => simp [run_calls, hc, hcs, bind, Except.bind] at hrun
      | ok r2 =>
        simp only [run_calls, hc, hcs, bind, Except.bind, Except.ok.injEq,
          Prod.mk.injEq] at hrun
        rw [← hrun.1]
        exact ih r1.1 r2.1 r2.2.1 r2.2.2 hint2 hcs

/-- C7: take the queue `q_new` returns and make any finite sequence of calls
of `q_insert_head`, `q_insert_tail`, `q_remove_head`, `q_reverse` and `q_sort`
on it, each valid where it is made, whether it returns `true` or `false`,
with the count at most `INT_MAX` all along.  Then all calls return, and
`q_size` returns the number of insertions that returned `true` less the
number of removals that returned `true`; this is the number of elements of
the queue and the value of the `size` field, and `head` is `NULL` exactly
when the `size` field is `0`, so the test of `head` in `q_size` agrees with
the field.  On a `NULL` queue `q_size` returns `0`. -/
theorem q_size_counts (m0 : Mem) (q : Ptr) (j0 : queue_t) (cs : List Call) (m1 : Mem)
    (hnew : q_new m0 (some q) j0 = .ok (m1, some q)) (hadm : admissible m1 q cs = true)
    (hint : within_int m1 q cs = true) :
    (∃ m2 ins rem ps, run_calls m1 q cs = .ok (m2, ins, rem) ∧
      q_size m2 (some q) = .ok ((ins : Int) - (rem : Int)) ∧
      QueueInv m2 q ps ∧ (ps.length : Int) = (ins : Int) - (rem : Int) ∧
      ∃ qv, m2.queues q = some qv ∧ qv.size = (ins : Int) - (rem : Int) ∧
        (qv.head = none ↔ qv.size = 0)) ∧
    (∀ m, q_size m none = .ok 0) := by
  refine ⟨?_, fun _ => rfl⟩
  obtain ⟨m2, i, r, ps, hrun, hinv, hlen⟩ := run_calls_inv cs m1 [] (q_new_inv hnew) hadm
  have hlen2 : (ps.length : Int) = (i : Int) - (r : Int) := by simpa using hlen
  have hle : (ps.length : Int) ≤ INT_MAX := by
    have h := within_int_final cs m1 m2 i r hint hrun
    simpa [size_in_int, queueInv_record hinv] using h
  refine ⟨m2, i, r, ps, hrun, ?_, hinv, hlen2, _, queueInv_record hinv, hlen2, ?_⟩
  · rw [q_size_spec hinv, to_int_of_le (Int.natCast_nonneg _) hle, hlen2]
  · show ps.head? = none ↔ (ps.length : Int) = 0
    rw [size_zero_iff]
    cases ps <;> simp

theorem q_new_empty (j : queue_t) :
    q_new Mem.empty (some 100) j = .ok (mem_empty_queue, some 100) := by
  simp only [q_new, alloc_q, load_q, store_q, Function.update_same, bind, Except.bind]
  congr 2
  apply mem_ext
  · funext a
    by_cases h : a = 100
    · subst h; simp [mem_empty_queue]
    · simp [mem_empty_queue, Mem.empty, Function.update_noteq h, h]
  · rfl
  · rfl

/-- C7 on a sequence of three insertions and a removal that succeed, two
insertions and a removal that fail, a reversal and a sort: the size is 2. -/
theorem q_size_counts_witness :
    (q_new Mem.empty (some 100) junk_q = .ok (mem_empty_queue, some 100) ∧
      admissible mem_empty_queue 100
        [.insert_tail (banana ++ [0]) (some 1) (some 11) junk_ele junk_bytes,
         .insert_tail (apple ++ [0]) (some 2) (some 12) junk_ele junk_bytes,
         .insert_head (cherry ++ [0]) (some 3) (some 13) junk_ele junk_bytes,
         .remove_head (some [7, 7, 7, 7]) 4,
         .insert_head (cherry ++ [0]) (some 3) none junk_ele junk_bytes,
         .insert_tail (cherry ++ [0]) none none junk_ele junk_bytes,
         .remove_head none 4,
         .reverse 3,
         .sort 3] = true ∧
      within_int mem_empty_queue 100
        [.insert_tail (banana ++ [0]) (some 1) (some 11) junk_ele junk_bytes,
         .insert_tail (apple ++ [0]) (some 2) (some 12) junk_ele junk_bytes,
         .insert_head (cherry ++ [0]) (some 3) (some 13) junk_ele junk_bytes,
         .remove_head (some [7, 7, 7, 7]) 4,
         .insert_head (cherry ++ [0]) (some 3) none junk_ele junk_bytes,
         .insert_tail (cherry ++ [0]) none none junk_ele junk_bytes,
         .remove_head none 4,
         .reverse 3,
         .sort 3] = true) ∧
    ((∃ m2 ins rem ps, run_calls mem_empty_queue 100
        [.insert_tail (banana ++ [0]) (some 1) (some 11) junk_ele junk_bytes,
         .insert_tail (apple ++ [0]) (some 2) (some 12) junk_ele junk_bytes,
         .insert_head (cherry ++ [0]) (some 3) (some 13) junk_ele junk_bytes,
         .remove_head (some [7, 7, 7, 7]) 4,
         .insert_head (cherry ++ [0]) (some 3) none junk_ele junk_bytes,
         .insert_tail (cherry ++ [0]) none none junk_ele junk_bytes,
         .remove_head none 4,
         .reverse 3,
         .sort 3] = .ok (m2, ins, rem) ∧
      q_size m2 (some 100) = .ok ((ins : Int) - (rem : Int)) ∧
      QueueInv m2 100 ps ∧ (ps.length : Int) = (ins : Int) - (rem : Int) ∧
      ∃ qv, m2.queues 100 = some qv ∧ qv.size = (ins : Int) - (rem : Int) ∧
        (qv.head = none ↔ qv.size = 0)) ∧
    (∀ m, q_size m none = .ok 0)) ∧
    (run_calls mem_empty_queue 100
        [.insert_tail (banana ++ [0]) (some 1) (some 11) junk_ele junk_bytes,
         .insert_tail (apple ++ [0]) (some 2) (some 12) junk_ele junk_bytes,
         .insert_head (cherry ++ [0]) (some 3) (some 13) junk_ele junk_bytes,
         .remove_head (some [7, 7, 7, 7]) 4,
         .insert_head (cherry ++ [0]) (some 3) none junk_ele junk_bytes,
         .insert_tail (cherry ++ [0]) none none junk_ele junk_bytes,
         .remove_head none 4,
         .reverse 3,
         .sort 3]).toOption.map
      (fun r => (r.2, (q_size r.1 (some 100)).toOption, q_strs r.1 100 5)) =
      some ((3, 1), some 2, [some apple, some banana]) :=
  ⟨⟨q_new_empty junk_q, by decide, by decide⟩,
    q_size_counts Mem.empty 100 junk_q _ mem_empty_queue
      (q_new_empty junk_q) (by decide) (by decide),
    by decide⟩

/-- Each of `n` insertions at the head with unallocated blocks returns `true`,
on a queue that satisfies the invariant and in a memory where the blocks at
the addresses below `n` are not allocated. -/
theorem many_inserts_run {q : Ptr} : ∀ (n : Nat) (m : Mem) (ps : List Ptr), QueueInv m q ps →
    (∀ a, a < n → m.nodes a = none ∧ m.strs a = none) →
    admissible m q (many_inserts n) = true ∧
    ∃ m2 ps2, run_calls m q (many_inserts n) = .ok (m2, n, 0) ∧ QueueInv m2 q ps2 ∧
      ps2.length = ps.length + n := by
  intro n
  induction n with
  | zero => intro m ps hinv _; exact ⟨rfl, m, ps, rfl, hinv, rfl⟩
  | succ n ih =>
    intro m ps hinv hfresh
    obtain ⟨hn, ht⟩ := hfresh n (Nat.lt_succ_self n)
    have hrun := q_insert_head_run (queueInv_record hinv) (show 0 ∈ [0] by simp) n n
      ⟨none, none⟩ (fun _ => 0)
    simp only [size_zero_iff] at hrun
    have hinv1 := queueInv_insert_head hinv hn ht (show 0 ∈ cstr [0] ++ [0] by simp)
    have hstep : ∃ m1, q_insert_head m (some q) [0] (some n) (some n) ⟨none, none⟩ (fun _ => 0) =
        .ok (m1, true) ∧ QueueInv m1 q (n :: ps) ∧
        ∀ a, a < n → m1.nodes a = none ∧ m1.strs a = none :=
      ⟨_, hrun, hinv1, fun a ha => by
        have hne : a ≠ n := Nat.ne_of_lt ha
        obtain ⟨h1, h2⟩ := hfresh a (Nat.lt_succ_of_lt ha)
        exact ⟨by simp [Function.update_noteq hne, h1], by simp [Function.update_noteq hne, h2]⟩⟩
    obtain ⟨m1, hrun1, hinv1, hfresh1⟩ := hstep
    have hcall : (Call.insert_head [0] (some n) (some n) ⟨none, none⟩ (fun _ => 0)).run m q =
        .ok (m1, 1, 0) := by
      simp only [Call.run, hrun1, bind, Except.bind, if_true]
    obtain ⟨hadm, m2, ps2, hrun2, hinv2, hlen2⟩ := ih m1 (n :: ps) hinv1 hfresh1
    refine ⟨?_, m2, ps2, ?_, hinv2, ?_⟩
    · simp only [many_inserts, admissible, Call.valid, hcall, hadm, fresh_ele, fresh_str, hn, ht]
      simp
    · simp only [many_inserts, run_calls, hcall, hrun2, bind, Except.bind]
      simp [Nat.add_comm]
    · rw [hlen2]; simp; omega

/-- C7 as it is stated, at a sequence on which it fails: `2147483648` calls of
`q_insert_head` on the queue `q_new` returns are valid and all return `true`,
no removal is made, and `q_size` on the queue of `2147483648` elements returns
`-2147483648`: the count is more than an `int` holds. -/
theorem q_size_wraps :
    q_new Mem.empty (some 100) ⟨none, none, 0⟩ = .ok (mem_empty_queue, some 100) ∧
    admissible mem_empty_queue 100 (many_inserts 2147483648) = true ∧
    ∃ m2, run_calls mem_empty_queue 100 (many_inserts 2147483648) = .ok (m2, 2147483648, 0) ∧
      q_size m2 (some 100) = .ok (-2147483648) ∧
      q_size m2 (some 100) ≠ .ok (((2147483648 : Nat) : Int) - ((0 : Nat) : Int)) := by
  obtain ⟨hadm, m2, ps2, hrun, hinv, hlen⟩ :=
    many_inserts_run 2147483648 mem_empty_queue [] inv_empty_queue (fun _ _ => ⟨rfl, rfl⟩)
  have hsize : q_size m2 (some 100) = .ok (-2147483648) := by
    rw [q_size_spec hinv, hlen]
    rfl
  refine ⟨q_new_empty _, hadm, m2, hrun, hsize, ?_⟩
  rw [hsize]
  intro h
  injection h with h
  omega

/-! ## Failing calls -/

/-- C11: `q_remove_head` returns `false` when the queue is `NULL`, in every
memory; when the caller's buffer is `NULL`, on every queue, whatever elements
it has; and when the queue has no element (`head` is `NULL`).  In each case
the memory, and with it the chain, `head`, `tail` and `size`, is what it was,
and so is the caller's buffer.  So it is on the queue `q_new` returns,
whatever the block of `malloc` held: `q_remove_head` returns `false` and
`q_size` is still `0`. -/
theorem q_remove_head_fails (m : Mem) (q : Ptr) (qv : queue_t) (sp : Option (List Nat))
    (bufsize : Nat) (hq : m.queues q = some qv) (hempty : qv.head = none) :
    (∀ mx : Mem, q_remove_head mx none sp bufsize = .ok (mx, sp, false)) ∧
    (∀ (mx : Mem) (qx : Ptr), q_remove_head mx (some qx) none bufsize = .ok (mx, none, false)) ∧
    q_remove_head m (some q) sp bufsize = .ok (m, sp, false) ∧
    q_size m (some q) = .ok 0 ∧
    (∀ (mx : Mem) (qx : Ptr) (j0 : queue_t), ∃ m1, q_new mx (some qx) j0 = .ok (m1, some qx) ∧
      q_remove_head m1 (some qx) sp bufsize = .ok (m1, sp, false) ∧
      q_size m1 (some qx) = .ok 0) := by
  refine ⟨fun _ => rfl, fun _ _ => rfl, ?_, ?_, fun mx qx j0 => ⟨_, q_new_run mx qx j0, ?_, ?_⟩⟩
  · cases sp with
    | none => rfl
    | some buf => simp [q_remove_head, load_q, hq, hempty, bind, Except.bind]
  · simp [q_size, load_q, hq, hempty, bind, Except.bind]
  · cases sp with
    | none => rfl
    | some buf => simp [q_remove_head, load_q, bind, Except.bind]
  · simp [q_size, load_q, bind, Except.bind]

/-- C11, the scenario of the specification: `q_remove_head` on a newly created
queue fails and the size stays `0`; and on the queue
`["cherry", "banana", "apple"]` a call with a `NULL` buffer fails and leaves
the three strings and the size. -/
theorem q_remove_head_fails_witness :
    (mem_empty_queue.queues 100 = some ⟨none, none, 0⟩ ∧
      (⟨none, none, 0⟩ : queue_t).head = none) ∧
    ((∀ mx : Mem, q_remove_head mx none (some [7, 7, 7, 7]) 4 =
        .ok (mx, some [7, 7, 7, 7], false)) ∧
      (∀ (mx : Mem) (qx : Ptr), q_remove_head mx (some qx) none 4 = .ok (mx, none, false)) ∧
      q_remove_head mem_empty_queue (some 100) (some [7, 7, 7, 7]) 4 =
        .ok (mem_empty_queue, some [7, 7, 7, 7], false) ∧
      q_size mem_empty_queue (some 100) = .ok 0 ∧
      (∀ (mx : Mem) (qx : Ptr) (j0 : queue_t), ∃ m1,
        q_new mx (some qx) j0 = .ok (m1, some qx) ∧
        q_remove_head m1 (some qx) (some [7, 7, 7, 7]) 4 = .ok (m1, some [7, 7, 7, 7], false) ∧
        q_size m1 (some qx) = .ok 0)) ∧
    Except.toOption (do
      let (m, q) ← q_new Mem.empty (some 100) junk_q
      let (m, out, r) ← q_remove_head m q (some [7, 7, 7, 7]) 4
      let n ← q_size m q
      .ok (r, out, q_strs m 100 5, n) :
        Exec (Bool × Option (List Nat) × List (Option (List Nat)) × Int)) =
      some (false, some [7, 7, 7, 7], [], 0) ∧
    (q_remove_head mem_cherry_banana_apple (some 100) none 4).toOption.map
      (fun r => (r.2.2, q_strs r.1 100 5, (q_size r.1 (some 100)).toOption,
        r.1.queues 100)) =
      some (false, [some cherry, some banana, some apple], some 3,
        some ⟨some 3, some 2, 3⟩) :=
  ⟨⟨rfl, rfl⟩,
    q_remove_head_fails mem_empty_queue 100 ⟨none, none, 0⟩ (some [7, 7, 7, 7]) 4 rfl rfl,
    by decide, by decide⟩

/-- C12: the code at the input where it departs from the comment above
`q_remove_head`: on the queue `["banana", "apple"]`, which is neither `NULL`
nor empty, a call with `sp` `NULL` returns `false` and removes nothing. -/
theorem q_remove_head_null_buffer :
    QueueInv mem_banana_apple 100 [1, 2] ∧
    q_remove_head mem_banana_apple (some 100) none 4 = .ok (mem_banana_apple, none, false) ∧
    (q_remove_head mem_banana_apple (some 100) none 4).toOption.map
      (fun r => (r.2.2, q_strs r.1 100 5, (q_size r.1 (some 100)).toOption)) =
      some (false, [some banana, some apple], some 2) :=
  ⟨inv_banana_apple, rfl, by decide⟩

/-- C13: `q_insert_head` and `q_insert_tail` return `false` when the queue is
`NULL`, when the allocation of the element fails, and when the allocation of
the copy of the string fails (the element, a block that was not allocated
before, is released again); in each case the memory, and with it the chain,
the strings, `head`, `tail`, the links and `size`, is what it was before the
call. -/
theorem insert_failure_atomic (m : Mem) (q : Ptr) (s : List Nat) (r1 r2 : Option Ptr)
    (j1 : list_ele_t) (j2 : Nat → Nat)
    (newh : Ptr) (hs : 0 ∈ s) (hn : m.nodes newh = none) :
    (q_insert_head m none s r1 r2 j1 j2 = .ok (m, false) ∧
      q_insert_head m (some q) s none r2 j1 j2 = .ok (m, false) ∧
      q_insert_head m (some q) s (some newh) none j1 j2 = .ok (m, false)) ∧
    (q_insert_tail m none s r1 r2 j1 j2 = .ok (m, false) ∧
      q_insert_tail m (some q) s none r2 j1 j2 = .ok (m, false) ∧
      q_insert_tail m (some q) s (some newh) none j1 j2 = .ok (m, false)) :=
  ⟨⟨rfl, rfl, q_insert_head_fail hs hn⟩, ⟨rfl, rfl, q_insert_tail_fail hs hn⟩⟩

/-- C13 on the queue `["banana", "apple"]`: after each failing insertion it
still reads `["banana", "apple"]`, size 2. -/
theorem insert_failure_atomic_witness :
    (0 ∈ cherry ++ [0] ∧ mem_banana_apple.nodes 3 = none) ∧
    ((q_insert_head mem_banana_apple none (cherry ++ [0]) (some 3) (some 13) junk_ele junk_bytes =
        .ok (mem_banana_apple, false) ∧
      q_insert_head mem_banana_apple (some 100) (cherry ++ [0]) none (some 13) junk_ele junk_bytes =
        .ok (mem_banana_apple, false) ∧
      q_insert_head mem_banana_apple (some 100) (cherry ++ [0]) (some 3) none junk_ele junk_bytes =
        .ok (mem_banana_apple, false)) ∧
    (q_insert_tail mem_banana_apple none (cherry ++ [0]) (some 3) (some 13) junk_ele junk_bytes =
        .ok (mem_banana_apple, false) ∧
      q_insert_tail mem_banana_apple (some 100) (cherry ++ [0]) none (some 13) junk_ele junk_bytes =
        .ok (mem_banana_apple, false) ∧
      q_insert_tail mem_banana_apple (some 100) (cherry ++ [0]) (some 3) none junk_ele junk_bytes =
        .ok (mem_banana_apple, false))) ∧
    (q_insert_head mem_banana_apple (some 100) (cherry ++ [0]) (some 3) none
        junk_ele junk_bytes).toOption.map
      (fun r => (r.2, q_strs r.1 100 5, (q_size r.1 (some 100)).toOption,
        r.1.nodes 3, r.1.queues 100)) =
      some (false, [some banana, some apple], some 2, none, some ⟨some 1, some 2, 2⟩) :=
  ⟨⟨by decide, rfl⟩,
    insert_failure_atomic mem_banana_apple 100 (cherry ++ [0]) (some 3) (some 13)
      junk_ele junk_bytes 3 (by decide) rfl,
    rfl⟩

/-! ## The structural invariant on its own -/

theorem queueInv_chainInv {m : Mem} {q : Ptr} {ps : List Ptr} (hinv : QueueInv m q ps) :
    ChainInv m q ps := hinv.1

/-- The record of a queue whose chain is `ps`. -/
theorem chainInv_record {m : Mem} {q : Ptr} {ps : List Ptr} (hinv : ChainInv m q ps) :
    m.queues q = some ⟨ps.head?, ps.getLast?, ps.length⟩ := by
  obtain ⟨qv, hq, hseg, htail, hsize⟩ := hinv
  have hh : qv.head = ps.head? := by
    have := lseg_head hseg
    cases ps <;> simpa using this
  rw [hq]; cases qv; simp at hh htail hsize ⊢; exact ⟨hh, htail, hsize⟩

/-- Every element of a segment is allocated. -/
theorem lseg_alloc {nodes : Ptr → Option list_ele_t} {ps : List Ptr} :
    ∀ {p e}, lseg nodes p ps e → ∀ a ∈ ps, ∃ n, nodes a = some n := by
  induction ps with
  | nil => intro p e _ a ha; simp at ha
  | cons b ps ih =>
    intro p e h a ha
    obtain ⟨_, n, hn, hrest⟩ := h
    rcases List.mem_cons.mp ha with rfl | ha
    · exact ⟨n, hn⟩
    · exact ih hrest a ha

/-- The structural invariant is the predicate of the specification for a
count that is not negative. -/
theorem chainInv_iff_specInv (m : Mem) (q : Ptr) :
    (∃ ps, ChainInv m q ps) ↔
      (SpecInv m q ∧ ∃ qv, m.queues q = some qv ∧ 0 ≤ qv.size) := by
  constructor
  · rintro ⟨ps, hinv⟩
    have hrec := chainInv_record hinv
    obtain ⟨qv, hq, hseg, _, _⟩ := hinv
    have hqv : qv = ⟨ps.head?, ps.getLast?, ps.length⟩ := by
      rw [hq] at hrec; simpa using hrec
    subst hqv
    refine ⟨⟨_, hq, ?_, ?_⟩, _, hq, by simp⟩
    · show ((ps.length : Int) = 0) ↔ (ps.head? = none ∧ ps.getLast? = none)
      rw [size_zero_iff]
      cases ps <;> simp
    · intro hpos
      rcases List.eq_nil_or_concat ps with hnil | ⟨pre, t, hcat⟩
      · subst hnil; simp at hpos
      · rw [List.concat_eq_append] at hcat
        subst hcat
        obtain ⟨x, _, _, nt, hnt, hnone⟩ := lseg_append.mp hseg
        simp only [lseg] at hnone
        exact ⟨pre ++ [t], t, nt, hseg, lseg_nodup hseg, rfl, List.getLast?_concat pre,
          List.getLast?_concat pre, hnt, hnone⟩
  · rintro ⟨⟨qv, hq, hzero, hpos⟩, qv2, hq2, hnn⟩
    rw [hq] at hq2
    have : qv = qv2 := by simpa using hq2
    subst this
    rcases lt_or_eq_of_le hnn with hlt | heq
    · obtain ⟨ps, t, nt, hseg, _, hlen, hlast, htail, _, _⟩ := hpos hlt
      exact ⟨ps, qv, hq, hseg, htail.trans hlast.symm, hlen.symm⟩
    · obtain ⟨hh, ht⟩ := hzero.mp heq.symm
      exact ⟨[], qv, hq, hh, ht, by simp [← heq]⟩

theorem chainInv_specInv {m : Mem} {q : Ptr} {ps : List Ptr} (hinv : ChainInv m q ps) :
    SpecInv m q :=
  ((chainInv_iff_specInv m q).mp ⟨ps, hinv⟩).1

/-- The structural invariant after a successful `q_insert_head`. -/
theorem chainInv_insert_head {m : Mem} {q : Ptr} {ps : List Ptr} (hinv : ChainInv m q ps)
    {s : List Nat} (hs : 0 ∈ s) (newh tmp : Ptr) (j1 : list_ele_t) (j2 : Nat → Nat)
    (hn : m.nodes newh = none) :
    ∃ m2, q_insert_head m (some q) s (some newh) (some tmp) j1 j2 = .ok (m2, true) ∧
      ChainInv m2 q (newh :: ps) := by
  have hrec := chainInv_record hinv
  have hrun := q_insert_head_run hrec hs newh tmp j1 j2
  simp only [size_zero_iff] at hrun
  obtain ⟨qv, hq, hseg, _, _⟩ := hinv
  have hqv : qv = ⟨ps.head?, ps.getLast?, ps.length⟩ := by
    rw [hq] at hrec; simpa using hrec
  subst hqv
  have hnot : newh ∉ ps := by
    intro hmem
    obtain ⟨n, hnn⟩ := lseg_alloc hseg newh hmem
    rw [hn] at hnn; cases hnn
  refine ⟨_, hrun, _, Function.update_same _ _ _, ⟨rfl, _, Function.update_same _ _ _, ?_⟩,
    ?_, ?_⟩
  · refine lseg_frame ?_ hseg
    intro a ha
    exact Function.update_noteq (fun (e : a = newh) => hnot (e ▸ ha)) _ _
  · cases ps with
    | nil => simp
    | cons a r => simp [List.getLast?_cons_cons]
  · simp

/-- The structural invariant after a successful `q_insert_tail`. -/
theorem chainInv_insert_tail {m : Mem} {q : Ptr} {ps : List Ptr} (hinv : ChainInv m q ps)
    {s : List Nat} (hs : 0 ∈ s) (newh tmp : Ptr) (j1 : list_ele_t) (j2 : Nat → Nat)
    (hn : m.nodes newh = none) :
    ∃ m2, q_insert_tail m (some q) s (some newh) (some tmp) j1 j2 = .ok (m2, true) ∧
      ChainInv m2 q (ps ++ [newh]) := by
  have hrec := chainInv_record hinv
  obtain ⟨qv, hq, hseg, _, _⟩ := hinv
  have hqv : qv = ⟨ps.head?, ps.getLast?, ps.length⟩ := by
    rw [hq] at hrec; simpa using hrec
  subst hqv
  have hnd := lseg_nodup hseg
  have hnot : newh ∉ ps := by
    intro hmem
    obtain ⟨n, hnn⟩ := lseg_alloc hseg newh hmem
    rw [hn] at hnn; cases hnn
  rcases List.eq_nil_or_concat ps with hnil | ⟨pre, t, hcat⟩
  · subst hnil
    have hrun := q_insert_tail_run_empty hrec rfl hs newh tmp j1 j2
    exact ⟨_, hrun, _, Function.update_same _ _ _, ⟨rfl, _, Function.update_same _ _ _, rfl⟩,
      by simp, by simp⟩
  · rw [List.concat_eq_append] at hcat
    subst hcat
    have htm : t ∈ pre ++ [t] := by simp
    obtain ⟨x, h1, hx, tn, htn, hnone⟩ := lseg_append.mp hseg
    simp only [lseg] at hnone
    have htne : t ≠ newh := fun e => hnot (e ▸ htm)
    have htpre : t ∉ pre := by
      intro hmem
      exact (List.nodup_append.mp hnd).2.2 hmem (List.mem_singleton.mpr rfl)
    have hrun := q_insert_tail_run hrec (by simp; omega) (by simp) htn hs newh tmp j1 j2 htne
    refine ⟨_, hrun, _, Function.update_same _ _ _, ?_, by simp, by simp; omega⟩
    generalize hnodes : Function.update (Function.update m.nodes newh (some ⟨some tmp, none⟩)) t
      (some { tn with next := some newh }) = nodes2
    have hnode_t : nodes2 t = some { tn with next := some newh } := by
      rw [← hnodes, Function.update_same]
    have hnode_new : nodes2 newh = some ⟨some tmp, none⟩ := by
      rw [← hnodes, Function.update_noteq (Ne.symm htne), Function.update_same]
    have hin : lseg nodes2 (some t) ([t] ++ [newh]) none :=
      ⟨rfl, _, hnode_t, rfl, _, hnode_new, rfl⟩
    show lseg nodes2 (pre ++ [t]).head? (pre ++ [t] ++ [newh]) none
    rw [List.append_assoc]
    refine lseg_append.mpr ⟨x, lseg_frame ?_ h1, hx ▸ hin⟩
    intro a ha
    have hat : a ≠ t := fun e => htpre (e ▸ ha)
    have han : a ≠ newh := fun e => hnot (by rw [← e]; exact List.mem_append_left _ ha)
    rw [← hnodes, Function.update_noteq hat, Function.update_noteq han]

/-- The structural invariant after a successful `q_remove_head`. -/
theorem chainInv_remove_head {m : Mem} {q a : Ptr} {rest : List Ptr}
    (hinv : ChainInv m q (a :: rest)) (hstr : AllStr m [a]) {buf : List Nat} {bufsize : Nat}
    (h1 : 1 ≤ bufsize) (h2 : bufsize < SIZE_RANGE) (h3 : bufsize ≤ buf.length) :
    ∃ m2 out, q_remove_head m (some q) (some buf) bufsize = .ok (m2, some out, true) ∧
      ChainInv m2 q rest := by
  have hrec := chainInv_record hinv
  obtain ⟨na, v, b, hna, hv, hb, h0⟩ := hstr a (List.mem_singleton.mpr rfl)
  have hrun := q_remove_head_run hrec rfl hna hv hb h0 h1 h2 h3
  obtain ⟨qv, hq, hseg, _, _⟩ := hinv
  have hnd := lseg_nodup hseg
  obtain ⟨_, na2, hna2, hrest⟩ := hseg
  rw [hna] at hna2
  have hnn : na = na2 := by simpa using hna2
  subst hnn
  have hnext : na.next = rest.head? := by
    have := lseg_head hrest
    cases rest <;> simpa using this
  have hanot : a ∉ rest := (List.nodup_cons.mp hnd).1
  have hsz : (((a :: rest).length : Nat) : Int) - 1 = (rest.length : Int) := by simp
  simp only [hsz, size_zero_iff, hnext] at hrun
  refine ⟨_, _, hrun, _, Function.update_same _ _ _, ?_, ?_, rfl⟩
  · refine lseg_frame ?_ (hnext ▸ hrest)
    intro c hc
    exact Function.update_noteq (fun (e : c = a) => hanot (e ▸ hc)) _ _
  · cases rest with
    | nil => simp
    | cons b r => simp [List.getLast?_cons_cons]

/-- The function `q_reverse` on a queue whose chain is `ps`, whatever the
strings are: the elements are relinked into the reverse order, `head` and
`tail` become the first and the last element of that order. -/
theorem q_reverse_chain (fuel : Nat) (m : Mem) (q : Ptr) (ps : List Ptr)
    (hinv : ChainInv m q ps) (hfuel : ps.length ≤ fuel) :
    ∃ m1 qv, m.queues q = some qv ∧ Relinked m m1 ps ∧
      lseg m1.nodes ps.reverse.head? ps.reverse none ∧
      q_reverse fuel m (some q) = .ok
        { m1 with queues := Function.update m.queues q (some ⟨ps.reverse.head?, ps.reverse.getLast?, qv.size⟩) } := by
  obtain ⟨qv, hq, hseg, htail, hsize⟩ := hinv
  match ps, hseg, htail, hsize, hfuel with
  | [], hseg, htail, hsize, _ =>
    simp only [lseg] at hseg
    refine ⟨m, qv, hq, relinked_refl _ _, by simp [lseg], ?_⟩
    have hqv : (⟨none, none, qv.size⟩ : queue_t) = qv := by
      cases qv; simp at hseg htail ⊢; exact ⟨hseg.symm, htail.symm⟩
    have hz : qv.size = 0 := by simpa using hsize
    simp only [List.reverse_nil, List.head?_nil, List.getLast?_nil]
    rw [hqv, ← hq, Function.update_eq_self]
    simp [q_reverse, load_q, hq, hz, bind, Except.bind]
  | c :: r, hseg, htail, hsize, hfuel =>
    have hnd := lseg_nodup hseg
    obtain ⟨hhead, nc, hnc, hrest⟩ := hseg
    have hc : c ∉ r := (List.nodup_cons.mp hnd).1
    have hnz : qv.size ≠ 0 := by
      rw [hsize]; simp only [List.length_cons]; omega
    obtain ⟨m2, hrun, hseg2, hrel2⟩ := reverse_loop_spec fuel
      { m with queues := Function.update m.queues q (some { qv with tail := qv.head }) }
      c r nc.next hrest hc (by simp at hfuel; omega)
    have hnc2 : m2.nodes c = some nc := by rw [hrel2.2.2.1 c hc]; exact hnc
    have hq2 : m2.queues q = some { qv with tail := qv.head } := by
      rw [hrel2.1]; simp
    refine ⟨{ queues := m.queues,
              nodes := Function.update m2.nodes c (some { nc with next := none }),
              strs := m2.strs }, qv, hq, ?_, ?_, ?_⟩
    · have h1 : Relinked m { m2 with queues := m.queues } (c :: r) :=
        ⟨rfl, hrel2.2.1, fun a ha => hrel2.2.2.1 a (fun h => ha (List.mem_cons_of_mem _ h)),
          hrel2.2.2.2⟩
      have h2 := relinked_update (m := { m2 with queues := m.queues }) hnc2 none
      exact relinked_trans h1 h2 (fun _ h => h) (by intro a ha; simp at ha; simp [ha])
    · have hh : (c :: r).reverse.head? = (c :: r).getLast? := List.head?_reverse _
      rw [hh, List.reverse_cons]
      refine lseg_append.mpr ⟨some c, lseg_frame ?_ hseg2, rfl, _, Function.update_same _ _ _,
        rfl⟩
      intro a ha
      exact Function.update_noteq (fun (e : a = c) => hc (by simpa [e] using ha)) _ _
    · rw [List.head?_reverse, List.getLast?_reverse]
      rw [hhead] at hrun hq2
      have hq3 := hrel2.1
      rw [hhead] at hq3
      simp only [q_reverse, load_q, hq, hnz, hhead, load_ele, hnc, store_q, hrun, hq2,
        store_next, hnc2, bind, Except.bind]
      simp [hq3]

/-- The function `q_sort` on a queue whose chain is `ps` and whose elements
own terminated strings, shared or not: the elements are relinked into the
order of the list merge sort by their strings, `head` and `tail` become the
first and the last element of that order. -/
theorem q_sort_chain (fuel : Nat) (m : Mem) (q : Ptr) (ps : List Ptr)
    (hinv : ChainInv m q ps) (hstr : AllStr m ps) (hfuel : ps.length < fuel) :
    ∃ m1 qv, m.queues q = some qv ∧ Relinked m m1 ps ∧
      lseg m1.nodes (ps.mergeSort (lek m)).head? (ps.mergeSort (lek m)) none ∧
      q_sort fuel m (some q) = .ok
        { m1 with queues := Function.update m.queues q (some ⟨(ps.mergeSort (lek m)).head?, (ps.mergeSort (lek m)).getLast?, qv.size⟩) } := by
  obtain ⟨qv, hq, hseg, htail, hsize⟩ := hinv
  match ps, hseg, htail, hsize, hstr, hfuel with
  | [], hseg, htail, _, _, _ =>
    simp only [lseg] at hseg
    refine ⟨m, qv, hq, relinked_refl _ _, by simp [lseg], ?_⟩
    have hqv : (⟨none, none, qv.size⟩ : queue_t) = qv := by
      cases qv; simp at hseg htail ⊢; exact ⟨hseg.symm, htail.symm⟩
    simp only [List.mergeSort_nil, List.head?_nil, List.getLast?_nil]
    rw [hqv, ← hq, Function.update_eq_self]
    simp [q_sort, load_q, hq, hseg, bind, Except.bind]
  | a :: rest, hseg, htail, _, hstr, hfuel =>
    have hhead : qv.head = some a := hseg.1
    obtain ⟨m1, hrun, hseg1, hrel⟩ := mergeSort_spec fuel m qv.head (a :: rest) hseg hstr hfuel
    refine ⟨m1, qv, hq, hrel, hseg1, ?_⟩
    generalize hsorted : (a :: rest).mergeSort (lek m) = sorted at hrun hseg1 ⊢
    have hq1 : m1.queues q = some qv := by rw [hrel.1]; exact hq
    obtain ⟨t, ht⟩ : ∃ t, (a :: rest).getLast? = some t :=
      ⟨(a :: rest).getLast (by simp), List.getLast?_eq_getLast _ _⟩
    have htmem : t ∈ sorted := by
      rw [← hsorted, List.mem_mergeSort]
      exact List.mem_of_getLast?_eq_some ht
    obtain ⟨pre, post, hsplit⟩ := List.append_of_mem htmem
    have hseg2 : lseg m1.nodes (some t) (t :: post) none := by
      rw [hsplit] at hseg1
      obtain ⟨x, _, hx⟩ := lseg_append.mp hseg1
      have hxt : x = some t := hx.1
      exact hxt ▸ hx
    have hlen : post.length < fuel := by
      have h1 := congrArg List.length hsplit
      have h2 : sorted.length = (a :: rest).length := by rw [← hsorted]; simp
      simp at h1 h2 hfuel
      omega
    have hlast : (t :: post).getLast? = sorted.getLast? := by
      rw [hsplit, List.getLast?_append, List.getLast?_eq_getLast (t :: post) (by simp)]
      rfl
    have hwalk := tail_loop_spec fuel
      { m1 with queues := Function.update m1.queues q (some { qv with head := sorted.head? }) }
      q { qv with head := sorted.head? } t post (by simp) (by simp [htail, ht]) hseg2 hlen
    rw [hhead] at hrun
    simp only [q_sort, load_q, hq, hhead, hrun, hq1, store_q, bind, Except.bind]
    simp only [reduceCtorEq, if_false]
    rw [hwalk, hlast, hrel.1]
    simp

/-- The structural invariant after a relinking. -/
theorem chainInv_relinked {m m1 : Mem} {q : Ptr} {ps ps2 : List Ptr} {sz : Int}
    (hperm : ps2.Perm ps) (hseg : lseg m1.nodes ps2.head? ps2 none)
    (hsz : sz = (ps.length : Int)) :
    ChainInv
      { m1 with queues := Function.update m.queues q (some ⟨ps2.head?, ps2.getLast?, sz⟩) }
      q ps2 :=
  ⟨_, Function.update_same _ _ _, hseg, rfl, by simp [hsz, hperm.length_eq]⟩

/-- The function `q_reverse` keeps the structural invariant, the elements
reversed. -/
theorem q_reverse_chainInv {fuel : Nat} {m : Mem} {q : Ptr} {ps : List Ptr}
    (hinv : ChainInv m q ps) (hfuel : ps.length ≤ fuel) :
    ∃ m2, q_reverse fuel m (some q) = .ok m2 ∧ ChainInv m2 q ps.reverse := by
  obtain ⟨m1, qv, hq, hrel, hseg, hrun⟩ := q_reverse_chain fuel m q ps hinv hfuel
  have hrec := chainInv_record hinv
  have hqv : qv = ⟨ps.head?, ps.getLast?, ps.length⟩ := by
    rw [hq] at hrec; simpa using hrec
  exact ⟨_, hrun, chainInv_relinked (List.reverse_perm ps) hseg
    (show qv.size = (ps.length : Int) by rw [hqv])⟩

/-- The function `q_sort` keeps the structural invariant, the elements in the
order of the list merge sort. -/
theorem q_sort_chainInv {fuel : Nat} {m : Mem} {q : Ptr} {ps : List Ptr}
    (hinv : ChainInv m q ps) (hstr : AllStr m ps) (hfuel : ps.length < fuel) :
    ∃ m2, q_sort fuel m (some q) = .ok m2 ∧ ChainInv m2 q (ps.mergeSort (lek m)) := by
  obtain ⟨m1, qv, hq, hrel, hseg, hrun⟩ := q_sort_chain fuel m q ps hinv hstr hfuel
  have hrec := chainInv_record hinv
  have hqv : qv = ⟨ps.head?, ps.getLast?, ps.length⟩ := by
    rw [hq] at hrec; simpa using hrec
  exact ⟨_, hrun, chainInv_relinked (List.mergeSort_perm ps (lek m)) hseg
    (show qv.size = (ps.length : Int) by rw [hqv])⟩

/-- One valid call on a queue with the structural invariant, the strings it
reads terminated, returns and keeps the structural invariant; the number of
elements changes by what the call reports. -/
theorem call_step_chain {m : Mem} {q : Ptr} {ps : List Ptr} (hinv : ChainInv m q ps)
    (c : Call) (hvalid : c.valid m q = true) (hstr : c.strings_ok m ps) :
    ∃ m2 i r ps2, c.run m q = .ok (m2, i, r) ∧ ChainInv m2 q ps2 ∧
      (ps2.length : Int) = (ps.length : Int) + (i : Int) - (r : Int) := by
  have hrec := chainInv_record hinv
  cases c with
  | insert_head s r1 r2 j1 j2 =>
    simp only [Call.valid, Bool.and_eq_true, decide_eq_true_eq] at hvalid
    obtain ⟨⟨hs, h1⟩, _⟩ := hvalid
    cases r1 with
    | none => exact ⟨m, 0, 0, ps, by simp [Call.run, q_insert_head, bind, Except.bind], hinv,
        by simp⟩
    | some newh =>
      have hn : m.nodes newh = none := by simpa [fresh_ele] using h1
      cases r2 with
      | none =>
        exact ⟨m, 0, 0, ps, by simp [Call.run, q_insert_head_fail hs hn, bind, Except.bind],
          hinv, by simp⟩
      | some tmp =>
        obtain ⟨m2, hrun, hinv2⟩ := chainInv_insert_head hinv hs newh tmp j1 j2 hn
        exact ⟨m2, 1, 0, newh :: ps, by simp [Call.run, hrun, bind, Except.bind], hinv2,
          by simp⟩
  | insert_tail s r1 r2 j1 j2 =>
    simp only [Call.valid, Bool.and_eq_true, decide_eq_true_eq] at hvalid
    obtain ⟨⟨hs, h1⟩, _⟩ := hvalid
    cases r1 with
    | none => exact ⟨m, 0, 0, ps, by simp [Call.run, q_insert_tail, bind, Except.bind], hinv,
        by simp⟩
    | some newh =>
      have hn : m.nodes newh = none := by simpa [fresh_ele] using h1
      cases r2 with
      | none =>
        exact ⟨m, 0, 0, ps, by simp [Call.run, q_insert_tail_fail hs hn, bind, Except.bind],
          hinv, by simp⟩
      | some tmp =>
        obtain ⟨m2, hrun, hinv2⟩ := chainInv_insert_tail hinv hs newh tmp j1 j2 hn
        exact ⟨m2, 1, 0, ps ++ [newh], by simp [Call.run, hrun, bind, Except.bind], hinv2,
          by simp⟩
  | remove_head sp bufsize =>
    simp only [Call.valid, Bool.and_eq_true, decide_eq_true_eq] at hvalid
    obtain ⟨hsz, hbuf⟩ := hvalid
    cases sp with
    | none => exact ⟨m, 0, 0, ps, by simp [Call.run, q_remove_head, bind, Except.bind], hinv,
        by simp⟩
    | some buf =>
      cases ps with
      | nil =>
        exact ⟨m, 0, 0, [], by simp [Call.run, q_remove_head, load_q, hrec, bind, Except.bind],
          hinv, by simp⟩
      | cons a rest =>
        simp [hrec] at hbuf
        have hstr1 : AllStr m [a] := by
          have := hstr (by simp)
          simpa using this
        obtain ⟨m2, out, hrun, hinv2⟩ := chainInv_remove_head hinv hstr1 hbuf.1 hsz hbuf.2
        exact ⟨m2, 0, 1, rest, by simp [Call.run, hrun, bind, Except.bind], hinv2,
          by simp⟩
  | reverse fuel =>
    simp only [Call.valid, hrec, decide_eq_true_eq] at hvalid
    obtain ⟨m2, hrun, hinv2⟩ := q_reverse_chainInv hinv (show ps.length ≤ fuel by omega)
    exact ⟨m2, 0, 0, ps.reverse, by simp [Call.run, hrun, bind, Except.bind], hinv2, by simp⟩
  | sort fuel =>
    simp only [Call.valid, hrec, decide_eq_true_eq] at hvalid
    obtain ⟨m2, hrun, hinv2⟩ := q_sort_chainInv hinv hstr (show ps.length < fuel by omega)
    exact ⟨m2, 0, 0, _, by simp [Call.run, hrun, bind, Except.bind], hinv2, by simp⟩

/-- C14: `q_new`, when `malloc` hands out a block, whatever the block holds,
returns a queue that satisfies the predicate of the
specification (`size` is `0` exactly when `head` and `tail` are both `NULL`;
when `size` is positive the chain from `head` is acyclic, has `size` elements
and ends at `tail`, whose `next` is `NULL`), and every valid call of
`q_insert_head`, `q_insert_tail`, `q_remove_head`, `q_reverse` and `q_sort`
on a queue that satisfies it with a count that is not negative, whether the
call returns `true` or `false`, returns and leaves a queue that satisfies it,
again with a count that is not negative, whatever the blocks hold that
`malloc` hands out.  Nothing is asked of the strings
but that those the call reads are terminated.  The full invariant of this
development, with the strings, is kept as well. -/
theorem data_model_invariant (m : Mem) (q : Ptr) (ps : List Ptr) (c : Call)
    (hspec : SpecInv m q) (hchain : lseg m.nodes ((m.queues q).bind (·.head)) ps none)
    (hcount : ∀ qv, m.queues q = some qv → 0 ≤ qv.size)
    (hvalid : c.valid m q = true) (hstr : c.strings_ok m ps) :
    (∀ m0 j0, ∃ m1, q_new m0 (some q) j0 = .ok (m1, some q) ∧
      SpecInv m1 q ∧ ∃ qv, m1.queues q = some qv ∧ 0 ≤ qv.size) ∧
    (∃ m2 i r, c.run m q = .ok (m2, i, r) ∧ SpecInv m2 q ∧
      ∃ qv, m2.queues q = some qv ∧ 0 ≤ qv.size) ∧
    (QueueInv m q ps → ∃ m2 i r ps2, c.run m q = .ok (m2, i, r) ∧ QueueInv m2 q ps2) := by
  refine ⟨?_, ?_, ?_⟩
  · intro m0 j0
    exact ⟨_, q_new_run m0 q j0,
      (chainInv_iff_specInv _ q).mp ⟨[], queueInv_chainInv (q_new_inv (q_new_run m0 q j0))⟩⟩
  · obtain ⟨qv, hq, _, _⟩ := hspec
    obtain ⟨ps0, hinv0⟩ := (chainInv_iff_specInv m q).mpr ⟨⟨qv, hq, by assumption, by assumption⟩,
      qv, hq, hcount qv hq⟩
    have hps : ps0 = ps := by
      obtain ⟨qv2, hq2, hseg2, _, _⟩ := hinv0
      rw [hq2] at hchain
      exact lseg_unique hseg2 hchain
    subst hps
    obtain ⟨m2, i, r, ps2, hrun, hinv2, _⟩ := call_step_chain hinv0 c hvalid hstr
    exact ⟨m2, i, r, hrun, (chainInv_iff_specInv m2 q).mp ⟨ps2, hinv2⟩⟩
  · intro hinv
    obtain ⟨m2, i, r, ps2, hrun, hinv2, _⟩ := call_step hinv c hvalid
    exact ⟨m2, i, r, ps2, hrun, hinv2⟩


/-- C14 on the queue `["banana", "apple"]` and a call of `q_insert_tail` whose
blocks from `malloc` hold other values than the code assigns: afterwards the
new element is `tail`, its `next` is `NULL` and `size` is `3`. -/
theorem data_model_invariant_witness :
    (SpecInv mem_banana_apple 100 ∧
      lseg mem_banana_apple.nodes ((mem_banana_apple.queues 100).bind (·.head)) [1, 2] none ∧
      (∀ qv, mem_banana_apple.queues 100 = some qv → 0 ≤ qv.size) ∧
      (Call.insert_tail (cherry ++ [0]) (some 3) (some 13) junk_ele junk_bytes).valid
        mem_banana_apple 100 = true ∧
      (Call.insert_tail (cherry ++ [0]) (some 3) (some 13) junk_ele junk_bytes).strings_ok
        mem_banana_apple [1, 2]) ∧
    ((∀ m0 j0, ∃ m1, q_new m0 (some 100) j0 = .ok (m1, some 100) ∧
        SpecInv m1 100 ∧ ∃ qv, m1.queues 100 = some qv ∧ 0 ≤ qv.size) ∧
      (∃ m2 i r,
        (Call.insert_tail (cherry ++ [0]) (some 3) (some 13) junk_ele junk_bytes).run
          mem_banana_apple 100 = .ok (m2, i, r) ∧ SpecInv m2 100 ∧
        ∃ qv, m2.queues 100 = some qv ∧ 0 ≤ qv.size) ∧
      (QueueInv mem_banana_apple 100 [1, 2] →
        ∃ m2 i r ps2,
          (Call.insert_tail (cherry ++ [0]) (some 3) (some 13) junk_ele junk_bytes).run
            mem_banana_apple 100 = .ok (m2, i, r) ∧
          QueueInv m2 100 ps2)) ∧
    ((Call.insert_tail (cherry ++ [0]) (some 3) (some 13) junk_ele junk_bytes).run
      mem_banana_apple 100).toOption.map
      (fun r => (r.1.queues 100, r.1.nodes 3, r.1.nodes 2)) =
      some (some ⟨some 1, some 3, 3⟩, some ⟨some 13, none⟩, some ⟨some 12, some 3⟩) ∧
    (q_new Mem.empty (some 100) junk_q).toOption.map (fun r => r.1.queues 100) =
      some (some ⟨none, none, 0⟩) :=
  have hchain : lseg mem_banana_apple.nodes ((mem_banana_apple.queues 100).bind (·.head))
      [1, 2] none := ⟨rfl, ⟨some 11, some 2⟩, rfl, rfl, ⟨some 12, none⟩, rfl, rfl⟩
  have hcount : ∀ qv, mem_banana_apple.queues 100 = some qv → 0 ≤ qv.size := by
    intro qv h
    have : qv = ⟨some 1, some 2, 2⟩ := (Option.some.inj h).symm
    rw [this]; decide
  ⟨⟨chainInv_specInv inv_banana_apple.1, hchain, hcount, by decide, trivial⟩,
    data_model_invariant mem_banana_apple 100 [1, 2]
      (.insert_tail (cherry ++ [0]) (some 3) (some 13) junk_ele junk_bytes)
      (chainInv_specInv inv_banana_apple.1) hchain hcount (by decide) trivial,
    by decide, by decide⟩

/-! ## The function `q_free` -/

/-- The loop of `q_free` on a chain whose elements own terminated strings, no
two the same buffer: it returns; every element of the chain and every buffer
of one is released, each by one call of `free` on an allocated block, and
nothing else changes but `head`, which ends as `NULL`. -/
theorem q_free_loop_spec : ∀ (fuel : Nat) (m : Mem) (q : Ptr) (qv : queue_t) (ps : List Ptr),
    m.queues q = some qv → lseg m.nodes qv.head ps none → AllStr m ps →
    (ps.map (fun a => (m.nodes a).bind (·.value))).Nodup → ps.length < fuel →
    ∃ m2, q_free_loop fuel m q = .ok m2 ∧
      m2.queues = Function.update m.queues q (some { qv with head := none }) ∧
      (∀ a, m2.nodes a = if a ∈ ps then none else m.nodes a) ∧
      (∀ v, m2.strs v =
        if some v ∈ ps.map (fun a => (m.nodes a).bind (·.value)) then none else m.strs v) := by
  intro fuel
  induction fuel with
  | zero => intro m q qv ps _ _ _ _ h; omega
  | succ fuel ih =>
    intro m q qv ps hq hseg hstr hnd hfuel
    match ps, hseg, hstr, hnd, hfuel with
    | [], hseg, _, _, _ =>
      simp only [lseg] at hseg
      refine ⟨m, by simp [q_free_loop, load_q, hq, hseg, bind, Except.bind], ?_, by simp,
        by simp⟩
      have : ({ qv with head := none } : queue_t) = qv := by
        cases qv; simp at hseg ⊢; exact hseg.symm
      rw [this, ← hq, Function.update_eq_self]
    | a :: rest, hseg, hstr, hnd, hfuel =>
      have hnd0 := lseg_nodup hseg
      obtain ⟨hhead, na, hna, hrest⟩ := hseg
      obtain ⟨na2, v, b, hna2, hv, hb, _⟩ := hstr a (List.mem_cons_self _ _)
      rw [hna] at hna2
      have hnn : na = na2 := by simpa using hna2
      subst hnn
      have hanot : a ∉ rest := (List.nodup_cons.mp hnd0).1
      rw [List.map_cons, List.nodup_cons] at hnd
      have hvnot : some v ∉ rest.map (fun c => (m.nodes c).bind (·.value)) := by
        have := hnd.1
        simpa [hna, hv] using this
      -- the memory after one round of the loop
      have hmap : rest.map (fun c => (Function.update m.nodes a none c).bind (·.value)) =
          rest.map (fun c => (m.nodes c).bind (·.value)) := by
        apply List.map_congr_left
        intro c hc
        have hca : c ≠ a := fun e => hanot (e ▸ hc)
        simp [Function.update_noteq hca]
      have hbuf : ∀ c ∈ rest, node_buf
          ⟨Function.update m.queues q (some { qv with head := na.next }),
            Function.update m.nodes a none, Function.update m.strs v none⟩ c = node_buf m c := by
        intro c hc
        have hca : c ≠ a := fun e => hanot (e ▸ hc)
        apply node_buf_frame
        · exact Function.update_noteq hca _ _
        · intro n vc hnc hvc
          have hvne : vc ≠ v := by
            intro e
            apply hvnot
            exact List.mem_map.mpr ⟨c, hc, by simp [hnc, hvc, e]⟩
          exact Function.update_noteq hvne _ _
      obtain ⟨m2, hrun, hq2, hn2, hs2⟩ := ih
        ⟨Function.update m.queues q (some { qv with head := na.next }),
          Function.update m.nodes a none, Function.update m.strs v none⟩
        q { qv with head := na.next } rest (Function.update_same _ _ _)
        (lseg_frame (fun c hc => Function.update_noteq
          (fun (e : c = a) => hanot (e ▸ hc)) _ _) hrest)
        (allStr_frame (allStr_mono hstr (fun c hc => List.mem_cons_of_mem _ hc)) hbuf)
        (by show (rest.map (fun c => (Function.update m.nodes a none c).bind (·.value))).Nodup
            rw [hmap]; exact hnd.2)
        (by simp at hfuel; omega)
      refine ⟨m2, ?_, ?_, ?_, ?_⟩
      · simp only [q_free_loop, load_q, hq, hhead, load_ele, hna, store_q, free_str, hv, hb,
          free_ele, bind, Except.bind]
        exact hrun
      · rw [hq2]
        show Function.update (Function.update m.queues q _) q _ = _
        rw [Function.update_idem]
      · intro c
        rw [hn2 c]
        by_cases hca : c = a
        · subst hca; simp
        · simp [hca, Function.update_noteq hca]
      · intro w
        rw [hs2 w]
        show (if some w ∈ rest.map (fun c => (Function.update m.nodes a none c).bind (·.value))
          then none else Function.update m.strs v none w) = _
        rw [hmap]
        by_cases hwv : w = v
        · subst hwv; simp [hna, hv]
        · have hne : ¬ (v = w) := fun e => hwv e.symm
          simp [hna, hv, Function.update_noteq hwv, hne, hwv]


/-- C15: on a queue that satisfies the data-model invariant, as every queue
does that is reached from `q_new` by valid calls, removals included, `q_free`
returns; afterwards every element of the queue, the buffer of every element
and the queue record are released, and every other block is as it was.  A
call of `free` on a block that is not allocated is a fault, and the elements
and their buffers are pairwise distinct, so each block is released by exactly
one call of `free`: none is left and none is released twice.  On a `NULL`
queue `q_free` leaves the memory as it is. -/
theorem q_free_releases (fuel : Nat) (m : Mem) (q : Ptr) (ps : List Ptr)
    (hinv : QueueInv m q ps) (hfuel : ps.length < fuel) :
    (∃ m2, q_free fuel m (some q) = .ok m2 ∧
      m2.queues = Function.update m.queues q none ∧
      (∀ a, m2.nodes a = if a ∈ ps then none else m.nodes a) ∧
      (∀ v, m2.strs v =
        if some v ∈ ps.map (fun a => (m.nodes a).bind (·.value)) then none else m.strs v)) ∧
    (ps.Nodup ∧ (ps.map (fun a => (m.nodes a).bind (·.value))).Nodup ∧
      ∀ a ∈ ps, ∃ n v b, m.nodes a = some n ∧ n.value = some v ∧ m.strs v = some b) ∧
    (∀ m0 m1 j0 cs, q_new m0 (some q) j0 = .ok (m1, some q) → admissible m1 q cs = true →
      ∃ m2 i r ps2, run_calls m1 q cs = .ok (m2, i, r) ∧ QueueInv m2 q ps2) ∧
    q_free fuel m none = .ok m := by
  obtain ⟨⟨qv, hq, hseg, htail, hsize⟩, hstr, hnd⟩ := hinv
  refine ⟨?_, ⟨lseg_nodup hseg, hnd, ?_⟩, ?_, rfl⟩
  · obtain ⟨m2, hrun, hq2, hn2, hs2⟩ := q_free_loop_spec fuel m q qv ps hq hseg hstr hnd hfuel
    have hqa : m2.queues q = some { qv with head := none } := by rw [hq2]; simp
    refine ⟨{ m2 with queues := Function.update m2.queues q none },
      by simp [q_free, hrun, free_q, hqa, bind, Except.bind], ?_, hn2, hs2⟩
    show Function.update m2.queues q none = _
    rw [hq2, Function.update_idem]
  · intro a ha
    obtain ⟨n, v, b, hn, hv, hb, _⟩ := hstr a ha
    exact ⟨n, v, b, hn, hv, hb⟩
  · intro m0 m1 j0 cs hnew hadm
    obtain ⟨m2, i, r, ps2, hrun, hinv2, _⟩ := run_calls_inv cs m1 [] (q_new_inv hnew) hadm
    exact ⟨m2, i, r, ps2, hrun, hinv2⟩

/-- C15 on the queue `["cherry", "banana", "apple"]`, and on the queue left by
three insertions and a removal: afterwards no element, buffer or record is
allocated. -/
theorem q_free_releases_witness :
    (QueueInv mem_cherry_banana_apple 100 [3, 1, 2] ∧ [3, 1, 2].length < 4) ∧
    ((∃ m2, q_free 4 mem_cherry_banana_apple (some 100) = .ok m2 ∧
      m2.queues = Function.update mem_cherry_banana_apple.queues 100 none ∧
      (∀ a, m2.nodes a = if a ∈ [3, 1, 2] then none else mem_cherry_banana_apple.nodes a) ∧
      (∀ v, m2.strs v =
        if some v ∈ [3, 1, 2].map (fun a => (mem_cherry_banana_apple.nodes a).bind (·.value))
        then none else mem_cherry_banana_apple.strs v)) ∧
    (([3, 1, 2] : List Ptr).Nodup ∧
      ([3, 1, 2].map (fun a => (mem_cherry_banana_apple.nodes a).bind (·.value))).Nodup ∧
      ∀ a ∈ [3, 1, 2], ∃ n v b, mem_cherry_banana_apple.nodes a = some n ∧ n.value = some v ∧
        mem_cherry_banana_apple.strs v = some b) ∧
    (∀ m0 m1 j0 cs, q_new m0 (some 100) j0 = .ok (m1, some 100) →
      admissible m1 100 cs = true →
      ∃ m2 i r ps2, run_calls m1 100 cs = .ok (m2, i, r) ∧ QueueInv m2 100 ps2) ∧
    q_free 4 mem_cherry_banana_apple none = .ok mem_cherry_banana_apple) ∧
    Except.toOption (do
      let r ← run_calls mem_empty_queue 100
        [.insert_tail (banana ++ [0]) (some 1) (some 11) junk_ele junk_bytes,
         .insert_tail (apple ++ [0]) (some 2) (some 12) junk_ele junk_bytes,
         .insert_head (cherry ++ [0]) (some 3) (some 13) junk_ele junk_bytes,
         .remove_head (some [7, 7, 7, 7]) 4]
      let m ← q_free 3 r.1 (some 100)
      .ok ([1, 2, 3].map (fun a => (m.nodes a).isNone),
        [11, 12, 13].map (fun a => (m.strs a).isNone), (m.queues 100).isNone) :
        Exec (List Bool × List Bool × Bool)) =
      some ([true, true, true], [true, true, true], true) :=
  ⟨⟨inv_cherry_banana_apple, by decide⟩,
    q_free_releases 4 mem_cherry_banana_apple 100 [3, 1, 2] inv_cherry_banana_apple (by decide),
    by decide⟩

/-! ## Stability of `q_sort` -/

theorem inv_banana_apple_apple : QueueInv mem_banana_apple_apple 100 [1, 2, 3] := by
  refine ⟨⟨⟨some 1, some 3, 3⟩, rfl, ?_, rfl, rfl⟩, ?_, ?_⟩
  · exact ⟨rfl, ⟨some 11, some 2⟩, rfl, rfl, ⟨some 12, some 3⟩, rfl, rfl, ⟨some 13, none⟩,
      rfl, rfl⟩
  · intro a ha
    simp only [List.mem_cons, List.mem_singleton, List.not_mem_nil, or_false] at ha
    rcases ha with rfl | rfl | rfl
    · exact ⟨⟨some 11, some 2⟩, 11, banana ++ [0], rfl, rfl, rfl, by decide⟩
    · exact ⟨⟨some 12, some 3⟩, 12, apple ++ [0], rfl, rfl, rfl, by decide⟩
    · exact ⟨⟨some 13, none⟩, 13, apple ++ [0, 7], rfl, rfl, rfl, by decide⟩
  · decide

/-- Two elements whose buffers `strcmp` finds not greater are in the order of
the sort keys. -/
theorem lek_of_strcmp {m : Mem} {a b : Ptr} {ba bb : List Nat} (ha : node_buf m a = some ba)
    (hb : node_buf m b = some bb) (h0a : 0 ∈ ba) (h0b : 0 ∈ bb) {c : Int}
    (hc : strcmp ba bb = .ok c) (hle : c ≤ 0) : lek m a b = true := by
  obtain ⟨c2, hc2, hdec⟩ := strcmp_spec ba bb h0a h0b
  rw [hc] at hc2
  have : c = c2 := by simpa using hc2
  subst this
  simp only [lek, key, ha, hb, ← hdec]
  simpa using hle

/-- C16: `q_sort` is stable.  On a queue that satisfies the data-model
invariant, take two elements `a`, `b`, told apart by their addresses, with `a`
before `b` in the chain and `strcmp(a->value, b->value)` equal to `0`: after
`q_sort` the element `a` is still before `b` in the chain.  More generally
every sequence of elements picked from the chain in order that is ascending
is found in the same order in the sorted chain. -/
theorem q_sort_stable (fuel : Nat) (m : Mem) (q : Ptr) (ps : List Ptr)
    (hinv : QueueInv m q ps) (hfuel : ps.length < fuel) :
    ∃ m2 ps2, q_sort fuel m (some q) = .ok m2 ∧ QueueInv m2 q ps2 ∧ ps2.Perm ps ∧
      (∀ a b ba bb, [a, b].Sublist ps → node_buf m a = some ba → node_buf m b = some bb →
        strcmp ba bb = .ok 0 → [a, b].Sublist ps2) ∧
      (∀ cs : List Ptr, cs.Sublist ps → cs.Pairwise (fun a b => lek m a b = true) →
        cs.Sublist ps2) := by
  obtain ⟨m2, hrun, hinv2, _⟩ := q_sort_inv fuel m q ps hinv hfuel
  refine ⟨m2, _, hrun, hinv2, List.mergeSort_perm ps (lek m), ?_, ?_⟩
  · intro a b ba bb hsub ha hb hcmp
    have hstr := (AllStr_iff_node_buf m ps).mp hinv.2.1
    have hamem : a ∈ ps := hsub.subset (by simp)
    have hbmem : b ∈ ps := hsub.subset (by simp)
    obtain ⟨ba2, hba2, h0a⟩ := hstr a hamem
    obtain ⟨bb2, hbb2, h0b⟩ := hstr b hbmem
    rw [ha] at hba2
    rw [hb] at hbb2
    have e1 : ba = ba2 := by simpa using hba2
    have e2 : bb = bb2 := by simpa using hbb2
    subst e1; subst e2
    exact List.pair_sublist_mergeSort (lek_trans m) (lek_total m)
      (lek_of_strcmp ha hb h0a h0b hcmp (Int.le_refl 0)) hsub
  · intro cs hsub hsorted
    exact List.sublist_mergeSort (lek_trans m) (lek_total m) hsorted hsub

/-- C16 on the queue `["banana", "apple", "apple"]` with elements `1`, `2`,
`3`: sorted, the chain is `2`, `3`, `1`, the two `"apple"` in their old order. -/
theorem q_sort_stable_witness :
    (QueueInv mem_banana_apple_apple 100 [1, 2, 3] ∧ [1, 2, 3].length < 4) ∧
    (∃ m2 ps2, q_sort 4 mem_banana_apple_apple (some 100) = .ok m2 ∧ QueueInv m2 100 ps2 ∧
      ps2.Perm [1, 2, 3] ∧
      (∀ a b ba bb, [a, b].Sublist [1, 2, 3] → node_buf mem_banana_apple_apple a = some ba →
        node_buf mem_banana_apple_apple b = some bb → strcmp ba bb = .ok 0 →
        [a, b].Sublist ps2) ∧
      (∀ cs : List Ptr, cs.Sublist [1, 2, 3] →
        cs.Pairwise (fun a b => lek mem_banana_apple_apple a b = true) → cs.Sublist ps2)) ∧
    (q_sort 4 mem_banana_apple_apple (some 100)).toOption.map
      (fun m2 => (m2.queues 100, m2.nodes 2, m2.nodes 3, m2.nodes 1)) =
      some (some ⟨some 2, some 1, 3⟩, some ⟨some 12, some 3⟩, some ⟨some 13, some 1⟩,
        some ⟨some 11, none⟩) :=
  ⟨⟨inv_banana_apple_apple, by decide⟩,
    q_sort_stable 4 mem_banana_apple_apple 100 [1, 2, 3] inv_banana_apple_apple (by decide),
    rfl⟩

/-! ## The function `merge` on its own -/

theorem sublist_merge_left (le : Ptr → Ptr → Bool) :
    ∀ (l r : List Ptr), l.Sublist (List.merge l r le) := by
  intro l
  induction l with
  | nil => intro r; exact List.nil_sublist _
  | cons x l ihl =>
    intro r
    induction r with
    | nil => rw [List.merge_right]
    | cons y r ihr =>
      by_cases h : le x y = true
      · rw [List.cons_merge_cons_pos _ _ _ h]
        exact (ihl (y :: r)).cons₂ x
      · rw [List.cons_merge_cons_neg _ _ _ h]
        exact ihr.cons y

theorem sublist_merge_right (le : Ptr → Ptr → Bool) :
    ∀ (l r : List Ptr), r.Sublist (List.merge l r le) := by
  intro l
  induction l with
  | nil => intro r; rw [List.nil_merge]
  | cons x l ihl =>
    intro r
    induction r with
    | nil => exact List.nil_sublist _
    | cons y r ihr =>
      by_cases h : le x y = true
      · rw [List.cons_merge_cons_pos _ _ _ h]
        exact (ihl (y :: r)).cons x
      · rw [List.cons_merge_cons_neg _ _ _ h]
        exact ihr.cons₂ y

/-- C17, for lists that are not empty: on every pair of disjoint, acyclic,
null-terminated chains `lhs` and `rhs`, neither empty, each ascending under
`strcmp`, `merge` returns an ascending null-terminated chain whose elements
are exactly those of `lhs` and `rhs` (a permutation of `lhs` followed by
`rhs`), those of `lhs` in their old order and those of `rhs` in theirs; only
`next` fields of these elements are assigned.  With both lists empty `merge`
returns `NULL`. -/
theorem merge_nonempty_correct (fuel : Nat) (m : Mem) (l r : List Ptr) (lhs rhs : Option Ptr)
    (hl : lseg m.nodes lhs l none) (hr : lseg m.nodes rhs r none) (hnd : (l ++ r).Nodup)
    (hstr : AllStr m (l ++ r)) (hl0 : l ≠ []) (hr0 : r ≠ [])
    (hla : l.Pairwise (fun a b => lek m a b = true))
    (hra : r.Pairwise (fun a b => lek m a b = true))
    (hfuel : l.length + r.length ≤ fuel) :
    (∃ m2 res, merge fuel m lhs rhs = .ok (m2, res.head?) ∧ lseg m2.nodes res.head? res none ∧
      res.Pairwise (fun a b => lek m2 a b = true) ∧ res.Perm (l ++ r) ∧
      l.Sublist res ∧ r.Sublist res ∧ Relinked m m2 (l ++ r)) ∧
    (∀ k, merge (k + 1) m none none = .ok (m, none)) := by
  obtain ⟨m2, hrun, hseg, hrel⟩ := merge_spec fuel m l r lhs rhs hl hr hnd hstr hl0 hr0 hfuel
  refine ⟨⟨m2, _, hrun, hseg, ?_, List.merge_perm_append (lek m), sublist_merge_left _ l r,
    sublist_merge_right _ l r, hrel⟩, fun k => ?_⟩
  · rw [relinked_lek hrel]
    exact List.sorted_merge (lek_trans m) (lek_total m) l r hla hra
  · simp [merge, merge_loop, merge_finish, bind, Except.bind]

/-- The two chains of `mem_two_chains` own terminated strings. -/
theorem allStr_two_chains : AllStr mem_two_chains ([1, 3] ++ [2]) := by
  intro a ha
  simp only [List.cons_append, List.nil_append, List.mem_cons, List.mem_singleton,
    List.not_mem_nil, or_false] at ha
  rcases ha with rfl | rfl | rfl
  · exact ⟨⟨some 11, some 3⟩, 11, apple ++ [0], rfl, rfl, rfl, by decide⟩
  · exact ⟨⟨some 13, none⟩, 13, cherry ++ [0], rfl, rfl, rfl, by decide⟩
  · exact ⟨⟨some 12, none⟩, 12, banana ++ [0], rfl, rfl, rfl, by decide⟩

/-- C17 on the chains `["apple", "cherry"]` and `["banana"]`: the result reads
`["apple", "banana", "cherry"]`. -/
theorem merge_nonempty_correct_witness :
    (lseg mem_two_chains.nodes (some 1) [1, 3] none ∧
      lseg mem_two_chains.nodes (some 2) [2] none ∧ ([1, 3] ++ [2] : List Ptr).Nodup ∧
      AllStr mem_two_chains ([1, 3] ++ [2]) ∧ [1, 3] ≠ ([] : List Ptr) ∧
      [2] ≠ ([] : List Ptr) ∧
      ([1, 3] : List Ptr).Pairwise (fun a b => lek mem_two_chains a b = true) ∧
      ([2] : List Ptr).Pairwise (fun a b => lek mem_two_chains a b = true) ∧
      [1, 3].length + [2].length ≤ 3) ∧
    ((∃ m2 res, merge 3 mem_two_chains (some 1) (some 2) = .ok (m2, res.head?) ∧
      lseg m2.nodes res.head? res none ∧
      res.Pairwise (fun a b => lek m2 a b = true) ∧ res.Perm ([1, 3] ++ [2]) ∧
      [1, 3].Sublist res ∧ [2].Sublist res ∧ Relinked mem_two_chains m2 ([1, 3] ++ [2])) ∧
    (∀ k, merge (k + 1) mem_two_chains none none = .ok (mem_two_chains, none))) ∧
    (merge 3 mem_two_chains (some 1) (some 2)).toOption.map
      (fun r => (r.2, read_strs r.1 5 r.2)) =
      some (some 1, [some apple, some banana, some cherry]) :=
  ⟨⟨⟨rfl, ⟨some 11, some 3⟩, rfl, rfl, ⟨some 13, none⟩, rfl, rfl⟩,
      ⟨rfl, ⟨some 12, none⟩, rfl, rfl⟩, by decide, allStr_two_chains, by decide, by decide,
      by decide, by decide, by decide⟩,
    merge_nonempty_correct 3 mem_two_chains [1, 3] [2] (some 1) (some 2)
      ⟨rfl, ⟨some 11, some 3⟩, rfl, rfl, ⟨some 13, none⟩, rfl, rfl⟩
      ⟨rfl, ⟨some 12, none⟩, rfl, rfl⟩ (by decide) allStr_two_chains (by decide) (by decide)
      (by decide) (by decide) (by decide),
    by decide⟩

/-- C17 as it is stated, where exactly one of the two lists is empty: on the
one-element list `["apple"]`, ascending and null-terminated, and the empty
list, the loop of `merge` does not run, `tail` is still `NULL`, and the
assignment `tail->next = rhs` (or `tail->next = lhs`) dereferences it.  Under
no step budget does `merge` return, and so it does not return the other
list. -/
theorem merge_one_empty :
    lseg mem_banana_apple.nodes (some 2) [2] none ∧
    lseg mem_banana_apple.nodes none [] none ∧ AllStr mem_banana_apple [2] ∧
    ([2] : List Ptr).Pairwise (fun a b => lek mem_banana_apple a b = true) ∧
    merge 3 mem_banana_apple none (some 2) = .error .memory ∧
    merge 3 mem_banana_apple (some 2) none = .error .memory ∧
    (∀ fuel r, merge fuel mem_banana_apple none (some 2) ≠ .ok r) ∧
    (∀ fuel r, merge fuel mem_banana_apple (some 2) none ≠ .ok r) := by
  refine ⟨⟨rfl, ⟨some 12, none⟩, rfl, rfl⟩, rfl, allStr_mono inv_banana_apple.2.1 (by simp),
    by simp, rfl, rfl, ?_, ?_⟩
  · intro fuel r
    cases fuel <;> simp [merge, merge_loop, merge_finish, store_next, bind, Except.bind]
  · intro fuel r
    cases fuel <;> simp [merge, merge_loop, merge_finish, store_next, bind, Except.bind]

/-! ## The tail after `q_sort` -/

/-- A successful `q_insert_tail` of the string `V`: the invariant and the
strings after it. -/
theorem q_insert_tail_values {m : Mem} {q : Ptr} {ps : List Ptr} (hinv : QueueInv m q ps)
    {V : List Nat} (junk : List Nat) (hV : 0 ∉ V) (newh tmp : Ptr) (j1 : list_ele_t)
    (j2 : Nat → Nat)
    (hn : m.nodes newh = none) (ht : m.strs tmp = none) :
    ∃ m2, q_insert_tail m (some q) (V ++ 0 :: junk) (some newh) (some tmp) j1 j2 = .ok (m2, true) ∧
      QueueInv m2 q (ps ++ [newh]) ∧ values m2 (ps ++ [newh]) = values m ps ++ [some V] := by
  have hs : 0 ∈ V ++ 0 :: junk := by simp
  obtain ⟨nodes2, hrun, hnew, hlast, hother⟩ := q_insert_tail_nodes hinv hs newh tmp j1 j2 hn ht
  rw [cstr_append V junk hV] at hrun
  refine ⟨_, hrun, queueInv_insert_tail hinv hn ht (show 0 ∈ V ++ [0] by simp) nodes2 hnew
    hlast hother, ?_⟩
  have h1 := values_frame (insert_tail_frame hinv.2.1 hn ht
    (Function.update m.queues q (some ⟨if ps = [] then some newh else ps.head?, some newh, ps.length + 1⟩))
    (V ++ [0]) nodes2 hlast hother)
  have h2 := node_str_new
    (Function.update m.queues q (some ⟨if ps = [] then some newh else ps.head?, some newh, ps.length + 1⟩))
    hnew rfl hV (Function.update_same tmp (some (V ++ [0])) m.strs)
  unfold values at h1 ⊢
  rw [List.map_append, h1, List.map_singleton, h2]

/-- C18: after `q_sort` on a queue that satisfies the data-model invariant and
is not empty, `tail` is the last element of the sorted chain and its `next` is
`NULL`.  The walk that finds it is the loop of `q_sort` run on the record as
`mergeSort` left it, `head` new and `tail` still the last element of the
chain before the sort.  A `q_insert_tail` of a string `V` right after
`q_sort`, whatever the blocks of `malloc` hold, gives the sorted strings
followed by `V`. -/
theorem q_sort_tail (fuel : Nat) (m : Mem) (q : Ptr) (ps : List Ptr)
    (hinv : QueueInv m q ps) (hne : ps ≠ []) (hfuel : ps.length < fuel) :
    ∃ m2 ps2 t, q_sort fuel m (some q) = .ok m2 ∧ QueueInv m2 q ps2 ∧
      ps2.getLast? = some t ∧ (m2.queues q).map (·.tail) = some (some t) ∧
      (m2.nodes t).map (·.next) = some none ∧
      (∃ qv m1 h, m.queues q = some qv ∧ qv.tail = ps.getLast? ∧
        mergeSort fuel m qv.head = .ok (m1, h) ∧ lseg m1.nodes h ps2 none ∧
        tail_loop fuel
          { m1 with queues := Function.update m1.queues q (some { qv with head := h }) } q =
          .ok m2) ∧
      (∃ vs : List (List Nat), values m2 ps2 = vs.map some ∧
        vs.Pairwise (fun x y => str_le x y = true)) ∧
      ∀ (V junk : List Nat) (newh tmp : Ptr) (j1 : list_ele_t) (j2 : Nat → Nat), 0 ∉ V →
        m2.nodes newh = none → m2.strs tmp = none →
        ∃ m3, q_insert_tail m2 (some q) (V ++ 0 :: junk) (some newh) (some tmp) j1 j2 =
            .ok (m3, true) ∧
          QueueInv m3 q (ps2 ++ [newh]) ∧
          values m3 (ps2 ++ [newh]) = values m2 ps2 ++ [some V] ∧
          q_strs m3 q (ps2.length + 1) = q_strs m2 q ps2.length ++ [some V] := by
  obtain ⟨m2, hrun, hinv2, hbuf, _, _, _, hqs⟩ := q_sort_inv fuel m q ps hinv hfuel
  have hsorted : (ps.mergeSort (lek m)).Pairwise (fun a b => lek m a b = true) :=
    List.sorted_mergeSort (lek_trans m) (lek_total m) ps
  have hlen : (ps.mergeSort (lek m)).length = ps.length := List.length_mergeSort ps
  -- the walk
  have hwalk : ∃ qv m1 h, m.queues q = some qv ∧ qv.tail = ps.getLast? ∧
      mergeSort fuel m qv.head = .ok (m1, h) ∧ lseg m1.nodes h (ps.mergeSort (lek m)) none ∧
      tail_loop fuel
        { m1 with queues := Function.update m1.queues q (some { qv with head := h }) } q =
        .ok m2 := by
    obtain ⟨⟨qv, hq, hseg, htail, _⟩, hstr, _⟩ := hinv
    obtain ⟨m1, hms, hseg1, hrel⟩ := mergeSort_spec fuel m qv.head ps hseg hstr hfuel
    refine ⟨qv, m1, _, hq, htail, hms, hseg1, ?_⟩
    have hq1 : m1.queues q = some qv := by rw [hrel.1]; exact hq
    have hhead : qv.head ≠ none := by
      cases ps with
      | nil => exact absurd rfl hne
      | cons a r => rw [hseg.1]; simp
    rw [← hrun]
    simp [q_sort, load_q, hq, hhead, hms, hq1, store_q, bind, Except.bind]
  generalize ps.mergeSort (lek m) = ps2 at hinv2 hqs hlen hwalk hsorted
  rw [← lek_congr hbuf] at hsorted
  have hne2 : ps2 ≠ [] := by
    intro h; rw [h] at hlen; simp at hlen
    exact hne (List.eq_nil_of_length_eq_zero hlen.symm)
  obtain ⟨pre, t, hcat⟩ : ∃ pre t, ps2 = pre ++ [t] := by
    rcases List.eq_nil_or_concat ps2 with h | ⟨pre, t, h⟩
    · exact absurd h hne2
    · exact ⟨pre, t, by rw [h, List.concat_eq_append]⟩
  have hlast : ps2.getLast? = some t := by rw [hcat]; exact List.getLast?_concat pre
  refine ⟨m2, ps2, t, hrun, hinv2, hlast, ?_, ?_, hwalk, ?_, ?_⟩
  · rw [hqs]; simp [hlast]
  · obtain ⟨⟨_, _, hseg2, _, _⟩, _, _⟩ := hinv2
    rw [hcat] at hseg2
    exact lseg_last_next hseg2
  · refine ⟨ps2.map (key m2), values_eq_keys hinv2.2.1, ?_⟩
    rw [List.pairwise_map]
    exact hsorted
  · intro V junk newh tmp j1 j2 hV hn ht
    obtain ⟨m3, hrun3, hinv3, hvals⟩ := q_insert_tail_values hinv2 junk hV newh tmp j1 j2 hn ht
    refine ⟨m3, hrun3, hinv3, hvals, ?_⟩
    rw [q_strs_eq_values hinv2 _ (Nat.le_refl _), ← hvals, q_strs_eq_values hinv3 _ (by simp)]

/-- C18 on the queue `["banana", "apple"]`: sorted, then `"cherry"` inserted at
the tail, it reads `["apple", "banana", "cherry"]`. -/
theorem q_sort_tail_witness :
    (QueueInv mem_banana_apple 100 [1, 2] ∧ [1, 2] ≠ ([] : List Ptr) ∧ [1, 2].length < 3) ∧
    (∃ m2 ps2 t, q_sort 3 mem_banana_apple (some 100) = .ok m2 ∧ QueueInv m2 100 ps2 ∧
      ps2.getLast? = some t ∧ (m2.queues 100).map (·.tail) = some (some t) ∧
      (m2.nodes t).map (·.next) = some none ∧
      (∃ qv m1 h, mem_banana_apple.queues 100 = some qv ∧ qv.tail = [1, 2].getLast? ∧
        mergeSort 3 mem_banana_apple qv.head = .ok (m1, h) ∧ lseg m1.nodes h ps2 none ∧
        tail_loop 3
          { m1 with queues := Function.update m1.queues 100 (some { qv with head := h }) } 100 =
          .ok m2) ∧
      (∃ vs : List (List Nat), values m2 ps2 = vs.map some ∧
        vs.Pairwise (fun x y => str_le x y = true)) ∧
      ∀ (V junk : List Nat) (newh tmp : Ptr) (j1 : list_ele_t) (j2 : Nat → Nat), 0 ∉ V →
        m2.nodes newh = none → m2.strs tmp = none →
        ∃ m3, q_insert_tail m2 (some 100) (V ++ 0 :: junk) (some newh) (some tmp) j1 j2 =
            .ok (m3, true) ∧
          QueueInv m3 100 (ps2 ++ [newh]) ∧
          values m3 (ps2 ++ [newh]) = values m2 ps2 ++ [some V] ∧
          q_strs m3 100 (ps2.length + 1) = q_strs m2 100 ps2.length ++ [some V]) ∧
    Except.toOption (do
      let m ← q_sort 3 mem_banana_apple (some 100)
      let r ← q_insert_tail m (some 100) (cherry ++ [0]) (some 3) (some 13) junk_ele junk_bytes
      .ok (r.2, q_strs r.1 100 5, (r.1.queues 100).map (·.tail)) :
        Exec (Bool × List (Option (List Nat)) × Option (Option Ptr))) =
      some (true, [some apple, some banana, some cherry], some (some 3)) :=
  ⟨⟨inv_banana_apple, by decide, by decide⟩,
    q_sort_tail 3 mem_banana_apple 100 [1, 2] inv_banana_apple (by decide) (by decide),
    by decide⟩

/-! ## The split and the termination of `mergeSort` -/

/-- The split of `mergeSort` on a chain of at least two elements: where the
slow/fast walk stops and what the cut `slow->next = NULL` leaves. -/
theorem split_spec (fuel : Nat) (m : Mem) (head : Option Ptr) (ps : List Ptr)
    (hseg : lseg m.nodes head ps none) (hlen : 2 ≤ ps.length)
    (hfuel : (ps.length - 1) / 2 < fuel) :
    ∃ (a : Ptr) (na : list_ele_t) (sl : Ptr) (ns : list_ele_t),
      head = some a ∧ m.nodes a = some na ∧ na.next ≠ none ∧
      split_loop fuel m na.next head = .ok (some sl) ∧ m.nodes sl = some ns ∧
      (ps.take ((ps.length + 1) / 2)).getLast? = some sl ∧
      ns.next = (ps.drop ((ps.length + 1) / 2)).head? ∧
      store_next m (some sl) none =
        .ok { m with nodes := Function.update m.nodes sl (some { ns with next := none }) } ∧
      lseg (Function.update m.nodes sl (some { ns with next := none })) head
        (ps.take ((ps.length + 1) / 2)) none ∧
      lseg (Function.update m.nodes sl (some { ns with next := none })) ns.next
        (ps.drop ((ps.length + 1) / 2)) none := by
  match ps, hseg, hlen, hfuel with
  | a :: b :: rest, hseg, _, hfuel =>
    have hseg0 := hseg
    obtain ⟨hp, na, hna, hp2, nb, hnb, hrest⟩ := hseg
    subst hp
    have hwalk := split_loop_spec fuel m (b :: rest) a (b :: rest) (some b) hseg0
      ⟨rfl, nb, hnb, hrest⟩ (Nat.le_refl _) (by simp at hfuel ⊢; omega)
    have hi : (b :: rest).length / 2 < (a :: b :: rest).length := by simp; omega
    rw [List.getElem?_eq_getElem hi] at hwalk
    obtain ⟨ns, hns, hL, hR⟩ := lseg_cut hseg0 _ hi
    have hk : (b :: rest).length / 2 + 1 = ((a :: b :: rest).length + 1) / 2 := by
      simp; omega
    have hlast : ((a :: b :: rest).take ((b :: rest).length / 2 + 1)).getLast? =
        some (a :: b :: rest)[(b :: rest).length / 2] := by
      rw [← List.take_concat_get _ _ hi, List.concat_eq_append, List.getLast?_concat]
    rw [hk] at hL hR hlast
    have hnext : ns.next = ((a :: b :: rest).drop (((a :: b :: rest).length + 1) / 2)).head? := by
      have := lseg_head hR
      cases hd : (a :: b :: rest).drop (((a :: b :: rest).length + 1) / 2) with
      | nil => rw [hd] at this; simpa using this
      | cons x xs => rw [hd] at this; simpa using this
    refine ⟨a, na, _, ns, rfl, hna, by rw [hp2]; simp, ?_, hns, hlast, hnext,
      store_next_ok hns none, hL, hR⟩
    rw [hp2]; exact hwalk

/-- C19: on an acyclic null-terminated list of `n ≥ 2` elements the slow/fast
walk of `mergeSort` returns, and `slow` stops on the last of the first
`⌈n/2⌉` elements, the one right before the remaining `⌊n/2⌋`; after the cut
`slow->next = NULL` the first `⌈n/2⌉` elements are the chain from `head` and
the remaining `⌊n/2⌋` the chain from the old `slow->next`, both in the old
order and null-terminated. -/
theorem mergeSort_split (fuel : Nat) (m : Mem) (head : Option Ptr) (ps : List Ptr)
    (hseg : lseg m.nodes head ps none) (hlen : 2 ≤ ps.length)
    (hfuel : (ps.length - 1) / 2 < fuel) :
    ∃ (L R : List Ptr) (na : list_ele_t) (sl : Ptr) (ns : list_ele_t) (m1 : Mem),
      L ++ R = ps ∧ L.length = (ps.length + 1) / 2 ∧ R.length = ps.length / 2 ∧
      ps.length ≤ 2 * L.length ∧ 2 * L.length ≤ ps.length + 1 ∧
      load_ele m head = .ok na ∧ split_loop fuel m na.next head = .ok (some sl) ∧
      L.getLast? = some sl ∧ load_ele m (some sl) = .ok ns ∧ ns.next = R.head? ∧
      store_next m (some sl) none = .ok m1 ∧
      lseg m1.nodes head L none ∧ lseg m1.nodes ns.next R none ∧
      (∀ a, a ≠ sl → m1.nodes a = m.nodes a) ∧
      (m1.nodes sl).map (·.value) = (m.nodes sl).map (·.value) := by
  obtain ⟨a, na, sl, ns, hhead, hna, _, hwalk, hns, hlast, hnext, hstore, hL, hR⟩ :=
    split_spec fuel m head ps hseg hlen hfuel
  refine ⟨ps.take ((ps.length + 1) / 2), ps.drop ((ps.length + 1) / 2), na, sl, ns, _,
    List.take_append_drop _ _, ?_, ?_, ?_, ?_, ?_, hwalk, hlast, load_ele_ok hns, hnext, hstore,
    hL, hR, ?_, ?_⟩
  · rw [List.length_take]; omega
  · rw [List.length_drop]; omega
  · rw [List.length_take]; omega
  · rw [List.length_take]; omega
  · rw [hhead]; exact load_ele_ok hna
  · intro c hc
    exact Function.update_noteq hc _ _
  · simp [hns]

theorem chain_cherry_banana_apple :
    lseg mem_cherry_banana_apple.nodes (some 3) [3, 1, 2] none :=
  ⟨rfl, ⟨some 13, some 1⟩, rfl, rfl, ⟨some 11, some 2⟩, rfl, rfl, ⟨some 12, none⟩, rfl, rfl⟩

/-- C19 on the chain of `["cherry", "banana", "apple"]`, elements `3`, `1`,
`2`: the walk stops on `1`, the halves are `3`, `1` and `2`. -/
theorem mergeSort_split_witness :
    (lseg mem_cherry_banana_apple.nodes (some 3) [3, 1, 2] none ∧ 2 ≤ [3, 1, 2].length ∧
      ([3, 1, 2].length - 1) / 2 < 2) ∧
    (∃ (L R : List Ptr) (na : list_ele_t) (sl : Ptr) (ns : list_ele_t) (m1 : Mem),
      L ++ R = [3, 1, 2] ∧ L.length = ([3, 1, 2].length + 1) / 2 ∧
      R.length = [3, 1, 2].length / 2 ∧
      [3, 1, 2].length ≤ 2 * L.length ∧ 2 * L.length ≤ [3, 1, 2].length + 1 ∧
      load_ele mem_cherry_banana_apple (some 3) = .ok na ∧
      split_loop 2 mem_cherry_banana_apple na.next (some 3) = .ok (some sl) ∧
      L.getLast? = some sl ∧ load_ele mem_cherry_banana_apple (some sl) = .ok ns ∧
      ns.next = R.head? ∧
      store_next mem_cherry_banana_apple (some sl) none = .ok m1 ∧
      lseg m1.nodes (some 3) L none ∧ lseg m1.nodes ns.next R none ∧
      (∀ a, a ≠ sl → m1.nodes a = mem_cherry_banana_apple.nodes a) ∧
      (m1.nodes sl).map (·.value) = (mem_cherry_banana_apple.nodes sl).map (·.value)) ∧
    (split_loop 2 mem_cherry_banana_apple (some 1) (some 3)).toOption = some (some 1) :=
  ⟨⟨chain_cherry_banana_apple, by decide, by decide⟩,
    mergeSort_split 2 mem_cherry_banana_apple (some 3) [3, 1, 2]
      chain_cherry_banana_apple (by decide) (by decide),
    by decide⟩

/-- Two relinkings of the same chain into the same order are the same memory. -/
theorem relinked_unique {m m2 m3 : Mem} {ps S : List Ptr} {p : Option Ptr}
    (h2 : Relinked m m2 ps) (h3 : Relinked m m3 ps) (hperm : S.Perm ps)
    (hs2 : lseg m2.nodes p S none) (hs3 : lseg m3.nodes p S none) : m3 = m2 := by
  have hrel : Relinked m2 m3 S :=
    ⟨h3.1.trans h2.1.symm, h3.2.1.trans h2.2.1.symm,
      fun a ha => by
        have hnot : a ∉ ps := fun h => ha (hperm.mem_iff.mpr h)
        rw [h3.2.2.1 a hnot, h2.2.2.1 a hnot],
      fun a => (h3.2.2.2 a).trans (h2.2.2.2 a).symm⟩
  exact mem_ext hrel.1 (relinked_same_chain hrel hs2 hs3) hrel.2.1

/-- With enough budget the result of `mergeSort` does not depend on the
budget. -/
theorem mergeSort_total (m : Mem) (head : Option Ptr) (ps : List Ptr)
    (hseg : lseg m.nodes head ps none) (hstr : AllStr m ps) :
    ∃ r, ∀ fuel, ps.length < fuel → mergeSort fuel m head = .ok r := by
  obtain ⟨m2, hrun, hseg2, hrel2⟩ := mergeSort_spec (ps.length + 1) m head ps hseg hstr
    (Nat.lt_succ_self _)
  refine ⟨(m2, (ps.mergeSort (lek m)).head?), fun fuel hfuel => ?_⟩
  obtain ⟨m3, hrun3, hseg3, hrel3⟩ := mergeSort_spec fuel m head ps hseg hstr hfuel
  rw [hrun3, relinked_unique hrel2 hrel3 (List.mergeSort_perm ps (lek m)) hseg2 hseg3]

theorem bind_ok_inv {α β : Type} {x : Exec α} {f : α → Exec β} {r : β}
    (h : (x >>= f) = .ok r) : ∃ a, x = .ok a ∧ f a = .ok r := by
  cases x with
  | error e => simp [bind, Except.bind] at h
  | ok a => exact ⟨a, rfl, by simpa [bind, Except.bind] using h⟩

/-- C20: `mergeSort` terminates on every acyclic null-terminated list of
elements that own terminated strings (`strcmp` is defined on nothing else):
for every step budget above the length it returns, the same result whatever
the budget.  On a list of at least two elements the two halves it recurses on
are not empty and strictly shorter than the list, and the slow/fast loop, the
two recursive calls and `merge` with its loop all return under a budget of the
length of the list. -/
theorem mergeSort_terminates (m : Mem) (head : Option Ptr) (ps : List Ptr)
    (hseg : lseg m.nodes head ps none) (hstr : AllStr m ps) :
    (∃ r, ∀ fuel, ps.length < fuel → mergeSort fuel m head = .ok r) ∧
    (2 ≤ ps.length →
      ∃ (L R : List Ptr) (na : list_ele_t) (sl : Ptr) (ns : list_ele_t) (m1 : Mem),
        L ++ R = ps ∧ L ≠ [] ∧ R ≠ [] ∧ L.length < ps.length ∧ R.length < ps.length ∧
        load_ele m head = .ok na ∧ load_ele m (some sl) = .ok ns ∧
        store_next m (some sl) none = .ok m1 ∧
        lseg m1.nodes head L none ∧ lseg m1.nodes ns.next R none ∧
        ∀ fuel, ps.length ≤ fuel →
          split_loop fuel m na.next head = .ok (some sl) ∧
          mergeSort (fuel + 1) m head = (do
            let r1 ← mergeSort fuel m1 head
            let r2 ← mergeSort fuel r1.1 ns.next
            merge fuel r2.1 r1.2 r2.2) ∧
          ∃ r1 r2 r3, mergeSort fuel m1 head = .ok r1 ∧
            mergeSort fuel r1.1 ns.next = .ok r2 ∧ merge fuel r2.1 r1.2 r2.2 = .ok r3) := by
  refine ⟨mergeSort_total m head ps hseg hstr, fun hlen => ?_⟩
  obtain ⟨a, na, sl, ns, hhead, hna, hnext, _, hns, hlast, _, hstore, hL, hR⟩ :=
    split_spec (ps.length) m head ps hseg hlen (by omega)
  refine ⟨ps.take ((ps.length + 1) / 2), ps.drop ((ps.length + 1) / 2), na, sl, ns, _,
    List.take_append_drop _ _, ?_, ?_, ?_, ?_, ?_, load_ele_ok hns, hstore, hL, hR, ?_⟩
  · intro h
    have := congrArg List.length h
    rw [List.length_take, List.length_nil] at this; omega
  · intro h
    have := congrArg List.length h
    rw [List.length_drop, List.length_nil] at this; omega
  · rw [List.length_take]; omega
  · rw [List.length_drop]; omega
  · rw [hhead]; exact load_ele_ok hna
  · intro fuel hfuel
    obtain ⟨a2, na2, sl2, _, hhead2, hna2, _, hwalk, _, hlast2, _, _, _, _⟩ :=
      split_spec fuel m head ps hseg hlen (by omega)
    have ha : a2 = a := by rw [hhead] at hhead2; simpa using hhead2.symm
    subst ha
    have hnn : na2 = na := by rw [hna] at hna2; simpa using hna2.symm
    subst hnn
    have hsl : sl2 = sl := by rw [hlast] at hlast2; simpa using hlast2.symm
    subst hsl
    obtain ⟨b, hb⟩ := Option.ne_none_iff_exists'.mp hnext
    have heq : mergeSort (fuel + 1) m head = (do
        let r1 ← mergeSort fuel { m with nodes := Function.update m.nodes sl2 (some { ns with next := none }) } head
        let r2 ← mergeSort fuel r1.1 ns.next
        merge fuel r2.1 r1.2 r2.2) := by
      rw [hb] at hwalk
      rw [hhead] at hwalk ⊢
      rw [mergeSort_step hna2 hb, hwalk]
      simp only [bind, Except.bind, load_ele_ok hns, hstore]
    refine ⟨hwalk, heq, ?_⟩
    obtain ⟨m2, hrun, _, _⟩ := mergeSort_spec (fuel + 1) m head ps hseg hstr (by omega)
    rw [heq] at hrun
    obtain ⟨r1, h1, hrun1⟩ := bind_ok_inv hrun
    obtain ⟨r2, h2, hrun2⟩ := bind_ok_inv hrun1
    exact ⟨r1, r2, _, h1, h2, hrun2⟩

/-- C20 on the chain of `["cherry", "banana", "apple"]`, elements `3`, `1`,
`2`: the sort returns under every budget above three, the halves `3`, `1` and
`2` are shorter than the list, and under a budget of four the result begins
with the element of `"apple"`. -/
theorem mergeSort_terminates_witness :
    (lseg mem_cherry_banana_apple.nodes (some 3) [3, 1, 2] none ∧
      AllStr mem_cherry_banana_apple [3, 1, 2]) ∧
    ((∃ r, ∀ fuel, [3, 1, 2].length < fuel →
        mergeSort fuel mem_cherry_banana_apple (some 3) = .ok r) ∧
      (2 ≤ [3, 1, 2].length →
        ∃ (L R : List Ptr) (na : list_ele_t) (sl : Ptr) (ns : list_ele_t) (m1 : Mem),
          L ++ R = [3, 1, 2] ∧ L ≠ [] ∧ R ≠ [] ∧ L.length < [3, 1, 2].length ∧
          R.length < [3, 1, 2].length ∧
          load_ele mem_cherry_banana_apple (some 3) = .ok na ∧
          load_ele mem_cherry_banana_apple (some sl) = .ok ns ∧
          store_next mem_cherry_banana_apple (some sl) none = .ok m1 ∧
          lseg m1.nodes (some 3) L none ∧ lseg m1.nodes ns.next R none ∧
          ∀ fuel, [3, 1, 2].length ≤ fuel →
            split_loop fuel mem_cherry_banana_apple na.next (some 3) = .ok (some sl) ∧
            mergeSort (fuel + 1) mem_cherry_banana_apple (some 3) = (do
              let r1 ← mergeSort fuel m1 (some 3)
              let r2 ← mergeSort fuel r1.1 ns.next
              merge fuel r2.1 r1.2 r2.2) ∧
            ∃ r1 r2 r3, mergeSort fuel m1 (some 3) = .ok r1 ∧
              mergeSort fuel r1.1 ns.next = .ok r2 ∧
              merge fuel r2.1 r1.2 r2.2 = .ok r3)) ∧
    (mergeSort 4 mem_cherry_banana_apple (some 3)).toOption.map (·.2) = some (some 2) :=
  ⟨⟨chain_cherry_banana_apple, inv_cherry_banana_apple.2.1⟩,
    mergeSort_terminates mem_cherry_banana_apple (some 3) [3, 1, 2]
      chain_cherry_banana_apple inv_cherry_banana_apple.2.1,
    by decide⟩

end Queue
